import Mathlib

/-!
Verification of the maximum-flow core (Edmonds-Karp and Dinitz-Cherkassky solvers
over a CSR residual network) against its specification.

Modelling conventions, following the design notes of the specification:
* machine integers (node_t, flow_t, size_t) are modelled as Nat; the claims about
  wrap-around of the unsigned subtraction in push_flow are settled by proving the
  subtrahend never exceeds the minuend, so Nat subtraction and uint32 subtraction
  coincide on all states the solvers reach;
* the paired-arc pointer of ResidualArc is modelled as an index into the arena
  (the specification explicitly recommends exactly this reimplementation);
* the sentinel Unreached rank (numeric_limits max) is modelled as Option.none,
  the "symbolic +inf rank value" of the source;
* the queue-less BFS buffer (append-only worklist consumed by a cursor) is
  modelled as a processed-prefix list plus a pending-suffix list, which the
  specification notes is order-equivalent;
* loops whose termination is part of the claims are given explicit fuel; the
  chosen fuel is proved sufficient, which is the termination statement.
-/

namespace MaxFlow

/-- Helper: getD of setD at the written (in-bounds) index. -/
theorem Array.getD_setD_self {α : Type} (a : Array α) (i : Nat) (v d : α)
    (h : i < a.size) : (a.setD i v).getD i d = v := by
  simp [Array.setD, Array.getD, h, Array.get_set_eq]

/-- Helper: getD of setD at a different index. -/
theorem Array.getD_setD_ne {α : Type} (a : Array α) (i j : Nat) (v d : α)
    (h : i ≠ j) : (a.setD i v).getD j d = a.getD j d := by
  unfold Array.setD
  split
  · next hi =>
    unfold Array.getD
    split
    · next hj =>
      split
      · next hj2 => simp [Array.get_set a ⟨i, hi⟩ j, h]
      · next hj2 => exact absurd (by simpa using hj) hj2
    · next hj =>
      split
      · next hj2 => exact absurd (by simpa using hj2) hj
      · rfl
  · rfl

/-- Helper: getD out of bounds yields the default. -/
theorem Array.getD_oob {α : Type} (a : Array α) (i : Nat) (d : α)
    (h : a.size ≤ i) : a.getD i d = d := by
  unfold Array.getD
  split
  · next hi => omega
  · rfl

/-- Helper: getD in bounds is getElem. -/
theorem Array.getD_lt {α : Type} (a : Array α) (i : Nat) (d : α)
    (h : i < a.size) : a.getD i d = a[i] := by
  unfold Array.getD
  split
  · rfl
  · next hi => omega

/-- Helper: getD of modify at the modified (in-bounds) index. -/
theorem Array.getD_modify_self {α : Type} (a : Array α) (i : Nat) (f : α → α) (d : α)
    (h : i < a.size) : (a.modify i f).getD i d = f (a.getD i d) := by
  have hs : i < (a.modify i f).size := by simpa using h
  rw [Array.getD_lt _ _ _ hs, Array.getD_lt _ _ _ h]
  simp [Array.getElem_modify]

/-- Helper: getD of modify at a different index. -/
theorem Array.getD_modify_ne {α : Type} (a : Array α) (i j : Nat) (f : α → α) (d : α)
    (h : i ≠ j) : (a.modify i f).getD j d = a.getD j d := by
  by_cases hj : j < a.size
  · have hs : j < (a.modify i f).size := by simpa using hj
    rw [Array.getD_lt _ _ _ hs, Array.getD_lt _ _ _ hj]
    simp [Array.getElem_modify, h]
  · have h1 : a.size ≤ j := by omega
    have h2 : (a.modify i f).size ≤ j := by simpa using h1
    rw [Array.getD_oob _ _ _ h2, Array.getD_oob _ _ _ h1]

/-- Helper: getD of push below the old size. -/
theorem Array.getD_push_lt {α : Type} (a : Array α) (x : α) (i : Nat) (d : α)
    (h : i < a.size) : (a.push x).getD i d = a.getD i d := by
  rw [Array.getD_lt _ _ _ (by rw [Array.size_push]; omega), Array.getD_lt _ _ _ h]
  exact Array.getElem_push_lt a x i h

/-- Helper: getD of push at the old size. -/
theorem Array.getD_push_eq {α : Type} (a : Array α) (x : α) (d : α) :
    (a.push x).getD a.size d = x := by
  rw [Array.getD_lt _ _ _ (by rw [Array.size_push]; omega)]
  exact Array.getElem_push_eq a x

/-- Helper: getD of mkArray in bounds. -/
theorem Array.getD_mkArray {α : Type} (n i : Nat) (v d : α) (h : i < n) :
    (Array.mkArray n v).getD i d = v := by
  rw [Array.getD_lt _ _ _ (by simpa using h)]
  simp

/-! ## Data model (source: maxflow header, FlowNetwork / Flow / ResidualArc) -/

/-- One directed arc of the input network: (tail, head, capacity). -/
structure CapacityArc where
  tail : Nat
  head : Nat
  capacity : Nat
deriving DecidableEq, Inhabited

/-- Input data structure fed to the maximum flow algorithms. -/
structure FlowNetwork where
  n : Nat
  m : Nat
  source : Nat
  sink : Nat
  arcs : List CapacityArc
deriving DecidableEq, Inhabited

/-- Output data structure of the maximum flow algorithms. -/
structure Flow where
  value : Nat
  flow_arcs : List Nat
deriving DecidableEq, Inhabited

/-- Arc in a residual network; the twin pointer is modelled as an arena index. -/
structure ResidualArc where
  head : Nat
  residual_capacity : Nat
  twin : Nat
deriving DecidableEq, Inhabited

/-- Saturation test of a residual arc. -/
def ResidualArc.is_saturated (a : ResidualArc) : Prop := a.residual_capacity = 0

/-- Residual test of a residual arc (positive residual capacity). -/
def ResidualArc.is_residual (a : ResidualArc) : Prop := ¬ a.is_saturated

instance (a : ResidualArc) : Decidable a.is_saturated := by
  unfold ResidualArc.is_saturated; infer_instance

instance (a : ResidualArc) : Decidable a.is_residual := by
  unfold ResidualArc.is_residual; infer_instance

/-- Decrease the residual capacity of the record at arena index s by f
(the first statement of ResidualArc::push_flow). -/
def subAt (adj : Array ResidualArc) (s : Nat) (f : Nat) : Array ResidualArc :=
  adj.setD s { adj.getD s default with
    residual_capacity := (adj.getD s default).residual_capacity - f }

/-- Increase the residual capacity of the record at arena index t by f
(the second statement of ResidualArc::push_flow, applied through the twin link). -/
def addAt (adj : Array ResidualArc) (t : Nat) (f : Nat) : Array ResidualArc :=
  adj.setD t { adj.getD t default with
    residual_capacity := (adj.getD t default).residual_capacity + f }

/-- Push flow on the arc stored at arena index s: decrease its residual capacity
by f and increase the paired arc's by f (ResidualArc::push_flow). -/
def push_flow (adj : Array ResidualArc) (s : Nat) (f : Nat) : Array ResidualArc :=
  addAt (subAt adj s f) ((adj.getD s default).twin) f

/-- Validity of a flow network, as assumed by the algorithms: the arc count field
matches the arc list, endpoints lie in [0, n), source and sink are distinct
vertices, and there are no self-loops. -/
def FlowNetwork.Valid (net : FlowNetwork) : Prop :=
  net.m = net.arcs.length ∧ net.source < net.n ∧ net.sink < net.n ∧
  net.source ≠ net.sink ∧
  ∀ a ∈ net.arcs, a.tail < net.n ∧ a.head < net.n ∧ a.tail ≠ a.head

instance (net : FlowNetwork) : Decidable net.Valid := by
  unfold FlowNetwork.Valid; infer_instance

/-- Arc of the network at position i (default arc out of range). -/
def arcAt (net : FlowNetwork) (i : Nat) : CapacityArc := net.arcs.getD i default

/-! ## Residual network construction (source: ResidualNetwork constructor) -/

/-- First constructor pass: out-degree of every node, one unit for the tail and
one for the head of every original arc. -/
def degreePass (net : FlowNetwork) : Array Nat :=
  net.arcs.foldl (fun d a => (d.modify a.tail (· + 1)).modify a.head (· + 1))
    (Array.mkArray net.n 0)

/-- Second constructor pass: prefix sums of the out-degrees partition the arena
into per-vertex contiguous sub-ranges (start, stop). -/
def spanPass (n : Nat) (deg : Array Nat) : Array (Nat × Nat) :=
  ((List.range n).foldl
    (fun (p : Array (Nat × Nat) × Nat) u =>
      (p.1.push (p.2, p.2 + deg.getD u 0), p.2 + deg.getD u 0))
    (#[], 0)).1

/-- Third constructor pass: walk the original arcs writing the forward record at
the tail's cursor and the backward record at the head's cursor, linking each as
the other's twin, then advance both cursors. -/
def fillPass (arcs : List CapacityArc) (adj : Array ResidualArc) (cursor : Array Nat) :
    Array ResidualArc :=
  match arcs with
  | [] => adj
  | a :: rest =>
    let su := cursor.getD a.tail 0
    let sv := cursor.getD a.head 0
    let adj2 := (adj.setD su ⟨a.head, a.capacity, sv⟩).setD sv ⟨a.tail, 0, su⟩
    fillPass rest adj2 ((cursor.modify a.tail (· + 1)).modify a.head (· + 1))

/-- Residual network with contiguous (CSR) adjacency lists; spans are index
ranges into the arena. -/
structure ResidualNetwork where
  n : Nat
  m : Nat
  source : Nat
  sink : Nat
  adjlist : Array ResidualArc
  arcs_out_span : Array (Nat × Nat)
deriving Inhabited

/-- Constructor of the residual network from a flow network: the three passes. -/
def ResidualNetwork.ofNetwork (net : FlowNetwork) : ResidualNetwork :=
  let deg := degreePass net
  let spans := spanPass net.n deg
  { n := net.n, m := 2 * net.m, source := net.source, sink := net.sink,
    adjlist := fillPass net.arcs (Array.mkArray (2 * net.m) default) (spans.map Prod.fst),
    arcs_out_span := spans }

/-! ## Layout specification: where each record lands (slot arithmetic) -/

/-- Number of incidences of vertex v among a list of arcs (as tail or as head);
for a self-loop-free list this equals the out-degree computed by the first pass. -/
def incCount (arcs : List CapacityArc) (v : Nat) : Nat :=
  arcs.countP (fun a => decide (a.tail = v ∨ a.head = v))

/-- Start of vertex v's arena sub-range: prefix sum of degrees. -/
def startOf (net : FlowNetwork) (v : Nat) : Nat :=
  ∑ w ∈ Finset.range v, incCount net.arcs w

/-- Arena index of the forward record of original arc i. -/
def fs (net : FlowNetwork) (i : Nat) : Nat :=
  startOf net (arcAt net i).tail + incCount (net.arcs.take i) (arcAt net i).tail

/-- Arena index of the backward record of original arc i. -/
def bs (net : FlowNetwork) (i : Nat) : Nat :=
  startOf net (arcAt net i).head + incCount (net.arcs.take i) (arcAt net i).head

/-- Slot s lies in vertex v's arena sub-range. -/
def SlotIn (net : FlowNetwork) (s v : Nat) : Prop :=
  v < net.n ∧ startOf net v ≤ s ∧ s < startOf net v + incCount net.arcs v

/-! ## Counting lemmas for the layout -/

theorem incCount_nil (v : Nat) : incCount [] v = 0 := rfl

theorem incCount_cons (a : CapacityArc) (l : List CapacityArc) (v : Nat) :
    incCount (a :: l) v
      = incCount l v + (if a.tail = v ∨ a.head = v then 1 else 0) := by
  unfold incCount
  rw [List.countP_cons]
  by_cases h : a.tail = v ∨ a.head = v <;> simp [h]

theorem incCount_append (l₁ l₂ : List CapacityArc) (v : Nat) :
    incCount (l₁ ++ l₂) v = incCount l₁ v + incCount l₂ v := by
  unfold incCount; exact List.countP_append _ _ _

theorem incCount_take_succ (l : List CapacityArc) (i v : Nat) (h : i < l.length) :
    incCount (l.take (i+1)) v
      = incCount (l.take i) v + (if l[i].tail = v ∨ l[i].head = v then 1 else 0) := by
  rw [List.take_succ, incCount_append, List.getElem?_eq_getElem h]
  by_cases hc : l[i].tail = v ∨ l[i].head = v <;>
    simp [incCount, List.countP_cons, hc]

theorem incCount_take_mono (l : List CapacityArc) (v : Nat) {i j : Nat} (h : i ≤ j) :
    incCount (l.take i) v ≤ incCount (l.take j) v := by
  have h1 : (l.take j).take i = l.take i := by
    rw [List.take_take, Nat.min_eq_left h]
  calc incCount (l.take i) v
      ≤ incCount ((l.take j).take i) v + incCount ((l.take j).drop i) v := by
        rw [h1]; omega
    _ = incCount (l.take j) v := by rw [← incCount_append, List.take_append_drop]

theorem incCount_take_le (l : List CapacityArc) (v i : Nat) :
    incCount (l.take i) v ≤ incCount l v := by
  conv_rhs => rw [← List.take_append_drop i l]
  rw [incCount_append]
  omega

theorem incCount_take_lt (l : List CapacityArc) (v : Nat) {i : Nat} (h : i < l.length)
    (hinc : l[i].tail = v ∨ l[i].head = v) :
    incCount (l.take i) v < incCount l v := by
  have h1 : incCount (l.take (i+1)) v = incCount (l.take i) v + 1 := by
    rw [incCount_take_succ l i v h]; simp [hinc]
  have h2 := incCount_take_le l v (i+1)
  omega

theorem incCount_take_strict (l : List CapacityArc) (v : Nat) {i j : Nat}
    (hij : i < j) (h : i < l.length) (hinc : l[i].tail = v ∨ l[i].head = v) :
    incCount (l.take i) v < incCount (l.take j) v := by
  have h1 : incCount (l.take (i+1)) v = incCount (l.take i) v + 1 := by
    rw [incCount_take_succ l i v h]; simp [hinc]
  have h2 := incCount_take_mono l v (Nat.succ_le_of_lt hij)
  simp only [Nat.succ_eq_add_one] at h2
  omega

theorem startOf_succ (net : FlowNetwork) (v : Nat) :
    startOf net (v+1) = startOf net v + incCount net.arcs v :=
  Finset.sum_range_succ _ v

theorem startOf_mono (net : FlowNetwork) {v w : Nat} (h : v ≤ w) :
    startOf net v ≤ startOf net w :=
  Finset.sum_le_sum_of_subset (Finset.range_subset.mpr h)

theorem startOf_stop_le (net : FlowNetwork) {v w : Nat} (h : v < w) :
    startOf net v + incCount net.arcs v ≤ startOf net w := by
  rw [← startOf_succ]
  exact startOf_mono net h

theorem SlotIn.unique (net : FlowNetwork) {s v w : Nat}
    (hv : SlotIn net s v) (hw : SlotIn net s w) : v = w := by
  rcases Nat.lt_trichotomy v w with h | h | h
  · have := startOf_stop_le net h
    exact absurd (lt_of_lt_of_le hv.2.2 (le_trans this hw.2.1)) (lt_irrefl s)
  · exact h
  · have := startOf_stop_le net h
    exact absurd (lt_of_lt_of_le hw.2.2 (le_trans this hv.2.1)) (lt_irrefl s)

/-- Total incidence over all vertices is twice the number of arcs (each arc has
distinct in-range endpoints). -/
theorem sum_incCount (n : Nat) (l : List CapacityArc)
    (hl : ∀ a ∈ l, a.tail < n ∧ a.head < n ∧ a.tail ≠ a.head) :
    ∑ v ∈ Finset.range n, incCount l v = 2 * l.length := by
  induction l with
  | nil => simp [incCount]
  | cons a rest ih =>
    have ha := hl a (List.mem_cons_self a rest)
    have hr : ∀ b ∈ rest, b.tail < n ∧ b.head < n ∧ b.tail ≠ b.head :=
      fun b hb => hl b (List.mem_cons_of_mem a hb)
    have hpt : ∀ v, (if a.tail = v ∨ a.head = v then (1:ℕ) else 0)
        = (if a.tail = v then 1 else 0) + (if a.head = v then 1 else 0) := by
      intro v
      by_cases h1 : a.tail = v <;> by_cases h2 : a.head = v
      · exact absurd (h1.trans h2.symm) ha.2.2
      · simp [h1, h2]
      · simp [h1, h2]
      · simp [h1, h2]
    have hsum : ∑ v ∈ Finset.range n, incCount (a :: rest) v
        = (∑ v ∈ Finset.range n, incCount rest v)
          + ∑ v ∈ Finset.range n, (if a.tail = v ∨ a.head = v then (1:ℕ) else 0) := by
      rw [← Finset.sum_add_distrib]
      exact Finset.sum_congr rfl (fun v _ => incCount_cons a rest v)
    rw [hsum, ih hr]
    have : ∑ v ∈ Finset.range n, (if a.tail = v ∨ a.head = v then (1:ℕ) else 0) = 2 := by
      rw [Finset.sum_congr rfl (fun v _ => hpt v), Finset.sum_add_distrib,
        Finset.sum_ite_eq, Finset.sum_ite_eq]
      simp [Finset.mem_range.mpr ha.1, Finset.mem_range.mpr ha.2.1]
    rw [this]
    simp [List.length_cons]
    ring

theorem startOf_all (net : FlowNetwork) (hval : net.Valid) :
    startOf net net.n = 2 * net.m := by
  unfold startOf
  rw [sum_incCount net.n net.arcs hval.2.2.2.2, hval.1]

theorem slotIn_lt_size (net : FlowNetwork) (hval : net.Valid) {s v : Nat}
    (h : SlotIn net s v) : s < 2 * net.m := by
  have h1 : startOf net v + incCount net.arcs v ≤ startOf net net.n :=
    startOf_stop_le net h.1
  rw [startOf_all net hval] at h1
  have h2 := h.2.2
  omega

/-! ## fs and bs land in their owners' ranges and are pairwise distinct -/

theorem arcAt_lt (net : FlowNetwork) {i : Nat} (h : i < net.arcs.length) :
    arcAt net i = net.arcs[i] :=
  List.getD_eq_getElem net.arcs default h

theorem arc_bounds (net : FlowNetwork) (hval : net.Valid) {i : Nat}
    (h : i < net.arcs.length) :
    (arcAt net i).tail < net.n ∧ (arcAt net i).head < net.n ∧
      (arcAt net i).tail ≠ (arcAt net i).head := by
  rw [arcAt_lt net h]
  exact hval.2.2.2.2 _ (net.arcs.getElem_mem h)

theorem slotIn_fs (net : FlowNetwork) (hval : net.Valid) {i : Nat}
    (h : i < net.arcs.length) : SlotIn net (fs net i) (arcAt net i).tail := by
  refine ⟨(arc_bounds net hval h).1, Nat.le_add_right _ _, ?_⟩
  have : incCount (net.arcs.take i) (arcAt net i).tail < incCount net.arcs (arcAt net i).tail := by
    apply incCount_take_lt net.arcs _ h
    rw [← arcAt_lt net h]
    exact Or.inl rfl
  unfold fs
  omega

theorem slotIn_bs (net : FlowNetwork) (hval : net.Valid) {i : Nat}
    (h : i < net.arcs.length) : SlotIn net (bs net i) (arcAt net i).head := by
  refine ⟨(arc_bounds net hval h).2.1, Nat.le_add_right _ _, ?_⟩
  have : incCount (net.arcs.take i) (arcAt net i).head < incCount net.arcs (arcAt net i).head := by
    apply incCount_take_lt net.arcs _ h
    rw [← arcAt_lt net h]
    exact Or.inr rfl
  unfold bs
  omega

theorem fs_lt_size (net : FlowNetwork) (hval : net.Valid) {i : Nat}
    (h : i < net.arcs.length) : fs net i < 2 * net.m :=
  slotIn_lt_size net hval (slotIn_fs net hval h)

theorem bs_lt_size (net : FlowNetwork) (hval : net.Valid) {i : Nat}
    (h : i < net.arcs.length) : bs net i < 2 * net.m :=
  slotIn_lt_size net hval (slotIn_bs net hval h)

theorem fs_ne_bs_same (net : FlowNetwork) (hval : net.Valid) {i : Nat}
    (h : i < net.arcs.length) : fs net i ≠ bs net i := by
  intro heq
  have h1 := slotIn_fs net hval h
  have h2 := slotIn_bs net hval h
  rw [heq] at h1
  exact (arc_bounds net hval h).2.2 (SlotIn.unique net h1 h2)

/-- Core distinctness: a record slot of an earlier arc differs from a record slot
of a later arc, whichever endpoint owns each record. -/
theorem slot_ne_core (net : FlowNetwork) (hval : net.Valid) {i j : Nat}
    (hi : i < net.arcs.length) (hj : j < net.arcs.length) (hij : i < j)
    {u z : Nat} (hu : u = (arcAt net i).tail ∨ u = (arcAt net i).head)
    (hz : z = (arcAt net j).tail ∨ z = (arcAt net j).head) :
    startOf net u + incCount (net.arcs.take i) u
      ≠ startOf net z + incCount (net.arcs.take j) z := by
  have hsu : SlotIn net (startOf net u + incCount (net.arcs.take i) u) u := by
    rcases hu with h | h
    · rw [h]; exact slotIn_fs net hval hi
    · rw [h]; exact slotIn_bs net hval hi
  have hsz : SlotIn net (startOf net z + incCount (net.arcs.take j) z) z := by
    rcases hz with h | h
    · rw [h]; exact slotIn_fs net hval hj
    · rw [h]; exact slotIn_bs net hval hj
  rcases eq_or_ne u z with huz | huz
  · subst huz
    have hincl : net.arcs[i].tail = u ∨ net.arcs[i].head = u := by
      rw [← arcAt_lt net hi]
      rcases hu with h | h
      · exact Or.inl h.symm
      · exact Or.inr h.symm
    have := incCount_take_strict net.arcs u hij hi hincl
    omega
  · intro heq
    rw [heq] at hsu
    exact huz (SlotIn.unique net hsu hsz)

theorem fs_eq_formula (net : FlowNetwork) (i : Nat) :
    fs net i = startOf net (arcAt net i).tail + incCount (net.arcs.take i) (arcAt net i).tail := rfl

theorem bs_eq_formula (net : FlowNetwork) (i : Nat) :
    bs net i = startOf net (arcAt net i).head + incCount (net.arcs.take i) (arcAt net i).head := rfl

/-- Any record slot of an earlier arc differs from any record slot of a later arc. -/
theorem slot_ne_of_index_lt (net : FlowNetwork) (hval : net.Valid) {i j : Nat}
    (hi : i < net.arcs.length) (hj : j < net.arcs.length) (hij : i < j)
    {si sj : Nat} (hsi : si = fs net i ∨ si = bs net i)
    (hsj : sj = fs net j ∨ sj = bs net j) : si ≠ sj := by
  have hu : si = startOf net (arcAt net i).tail + incCount (net.arcs.take i) (arcAt net i).tail
      ∨ si = startOf net (arcAt net i).head + incCount (net.arcs.take i) (arcAt net i).head := hsi
  have hz : sj = startOf net (arcAt net j).tail + incCount (net.arcs.take j) (arcAt net j).tail
      ∨ sj = startOf net (arcAt net j).head + incCount (net.arcs.take j) (arcAt net j).head := hsj
  rcases hu with h1 | h1 <;> rcases hz with h2 | h2 <;> rw [h1, h2]
  · exact slot_ne_core net hval hi hj hij (Or.inl rfl) (Or.inl rfl)
  · exact slot_ne_core net hval hi hj hij (Or.inl rfl) (Or.inr rfl)
  · exact slot_ne_core net hval hi hj hij (Or.inr rfl) (Or.inl rfl)
  · exact slot_ne_core net hval hi hj hij (Or.inr rfl) (Or.inr rfl)

/-- Full injectivity of the slot assignment. -/
theorem slot_inj (net : FlowNetwork) (hval : net.Valid) {i j : Nat}
    (hi : i < net.arcs.length) (hj : j < net.arcs.length)
    {si sj : Nat} (hsi : si = fs net i ∨ si = bs net i)
    (hsj : sj = fs net j ∨ sj = bs net j) (hne : i ≠ j) : si ≠ sj := by
  rcases Nat.lt_or_ge i j with h | h
  · exact slot_ne_of_index_lt net hval hi hj h hsi hsj
  · have h2 : j < i := by omega
    exact (slot_ne_of_index_lt net hval hj hi h2 hsj hsi).symm

/-- Surjectivity: every arena index is the forward or backward slot of some arc. -/
theorem slot_surj (net : FlowNetwork) (hval : net.Valid) {s : Nat}
    (hs : s < 2 * net.m) : ∃ i < net.arcs.length, s = fs net i ∨ s = bs net i := by
  classical
  set len := net.arcs.length with hlen
  set f : Nat × Bool → Nat := fun p => if p.2 then fs net p.1 else bs net p.1 with hf
  set dom : Finset (Nat × Bool) := (Finset.range len) ×ˢ (Finset.univ : Finset Bool) with hdom
  have hinj : Set.InjOn f dom := by
    intro p hp q hq hpq
    simp only [hdom, Finset.mem_coe, Finset.mem_product, Finset.mem_range] at hp hq
    rcases p with ⟨pi, pb⟩
    rcases q with ⟨qi, qb⟩
    simp only at hp hq
    by_cases hij : pi = qi
    · subst hij
      cases pb <;> cases qb
      · rfl
      · exfalso
        simp only [hf] at hpq
        simp at hpq
        exact fs_ne_bs_same net hval hp.1 hpq.symm
      · exfalso
        simp only [hf] at hpq
        simp at hpq
        exact fs_ne_bs_same net hval hp.1 hpq
      · rfl
    · exfalso
      refine slot_inj net hval hp.1 hq.1 ?_ ?_ hij hpq
      · cases pb <;> simp [hf]
      · cases qb <;> simp [hf]
  have hsub : Finset.image f dom ⊆ Finset.range (2 * net.m) := by
    intro x hx
    rcases Finset.mem_image.mp hx with ⟨p, hp, hfp⟩
    simp only [hdom, Finset.mem_product, Finset.mem_range] at hp
    rw [Finset.mem_range, ← hfp]
    rcases p with ⟨pi, pb⟩
    cases pb
    · simpa [hf] using bs_lt_size net hval hp.1
    · simpa [hf] using fs_lt_size net hval hp.1
  have hcard : (Finset.range (2 * net.m)).card ≤ (Finset.image f dom).card := by
    rw [Finset.card_image_of_injOn hinj]
    simp only [hdom, Finset.card_product, Finset.card_range, Finset.card_univ,
      Fintype.card_bool]
    have hm := hval.1
    omega
  have heq := Finset.eq_of_subset_of_card_le hsub hcard
  have hmem : s ∈ Finset.image f dom := by
    rw [heq]; exact Finset.mem_range.mpr hs
  rcases Finset.mem_image.mp hmem with ⟨p, hp, hfp⟩
  simp only [hdom, Finset.mem_product, Finset.mem_range] at hp
  rcases p with ⟨pi, pb⟩
  simp only at hp
  refine ⟨pi, hp.1, ?_⟩
  cases pb
  · right; rw [← hfp]; simp [hf]
  · left; rw [← hfp]; simp [hf]

/-! ## Correctness of the three constructor passes -/

/-- The forward record the constructor writes for arc i. -/
def fwdRec (net : FlowNetwork) (i : Nat) : ResidualArc :=
  ⟨(arcAt net i).head, (arcAt net i).capacity, bs net i⟩

/-- The backward record the constructor writes for arc i. -/
def bwdRec (net : FlowNetwork) (i : Nat) : ResidualArc :=
  ⟨(arcAt net i).tail, 0, fs net i⟩

theorem degree_fold_size (l : List CapacityArc) (d : Array Nat) :
    (l.foldl (fun d a => (d.modify a.tail (· + 1)).modify a.head (· + 1)) d).size
      = d.size := by
  induction l generalizing d with
  | nil => rfl
  | cons a rest ih => rw [List.foldl_cons, ih]; simp

theorem degree_fold_getD (l : List CapacityArc) (n : Nat)
    (hl : ∀ a ∈ l, a.tail < n ∧ a.head < n ∧ a.tail ≠ a.head) :
    ∀ (d : Array Nat), d.size = n → ∀ v, v < n →
      (l.foldl (fun d a => (d.modify a.tail (· + 1)).modify a.head (· + 1)) d).getD v 0
        = d.getD v 0 + incCount l v := by
  induction l with
  | nil => intro d _ v _; simp [incCount]
  | cons a rest ih =>
    intro d hd v hv
    have ha := hl a (List.mem_cons_self a rest)
    have hr : ∀ b ∈ rest, b.tail < n ∧ b.head < n ∧ b.tail ≠ b.head :=
      fun b hb => hl b (List.mem_cons_of_mem a hb)
    rw [List.foldl_cons,
      ih hr _ (by simp [hd]) v hv, incCount_cons]
    have hstep : ((d.modify a.tail (· + 1)).modify a.head (· + 1)).getD v 0
        = d.getD v 0 + (if a.tail = v ∨ a.head = v then 1 else 0) := by
      by_cases h1 : a.head = v
      · have h2 : a.tail ≠ v := fun hc => ha.2.2 (hc.trans h1.symm)
        subst h1
        rw [Array.getD_modify_self _ _ _ _ (by rw [Array.size_modify, hd]; exact ha.2.1),
          Array.getD_modify_ne _ _ _ _ _ h2]
        simp
      · by_cases h2 : a.tail = v
        · subst h2
          rw [Array.getD_modify_ne _ _ _ _ _ h1,
            Array.getD_modify_self _ _ _ _ (by rw [hd]; exact ha.1)]
          simp [h1]
        · rw [Array.getD_modify_ne _ _ _ _ _ h1, Array.getD_modify_ne _ _ _ _ _ h2]
          simp [h1, h2]
    rw [hstep]
    omega

theorem degreePass_size (net : FlowNetwork) : (degreePass net).size = net.n := by
  unfold degreePass
  rw [degree_fold_size]
  simp

theorem degreePass_getD (net : FlowNetwork) (hval : net.Valid) {v : Nat} (hv : v < net.n) :
    (degreePass net).getD v 0 = incCount net.arcs v := by
  unfold degreePass
  rw [degree_fold_getD net.arcs net.n hval.2.2.2.2 _ (by simp) v hv,
    Array.getD_mkArray _ _ _ _ hv]
  omega

theorem spanPass_fold (deg : Array Nat) :
    ∀ k : Nat,
      (((List.range k).foldl
        (fun (p : Array (Nat × Nat) × Nat) u =>
          (p.1.push (p.2, p.2 + deg.getD u 0), p.2 + deg.getD u 0))
        (#[], 0))).1.size = k ∧
      (((List.range k).foldl
        (fun (p : Array (Nat × Nat) × Nat) u =>
          (p.1.push (p.2, p.2 + deg.getD u 0), p.2 + deg.getD u 0))
        (#[], 0))).2 = ∑ w ∈ Finset.range k, deg.getD w 0 ∧
      ∀ v, v < k →
        (((List.range k).foldl
          (fun (p : Array (Nat × Nat) × Nat) u =>
            (p.1.push (p.2, p.2 + deg.getD u 0), p.2 + deg.getD u 0))
          (#[], 0))).1.getD v (0, 0)
          = (∑ w ∈ Finset.range v, deg.getD w 0,
             (∑ w ∈ Finset.range v, deg.getD w 0) + deg.getD v 0) := by
  intro k
  induction k with
  | zero => refine ⟨rfl, by simp, by intro v hv; omega⟩
  | succ k ih =>
    obtain ⟨ihsize, ihsum, ihget⟩ := ih
    rw [List.range_succ, List.foldl_append]
    simp only [List.foldl_cons, List.foldl_nil]
    refine ⟨by rw [Array.size_push, ihsize], by rw [ihsum, Finset.sum_range_succ], ?_⟩
    intro v hv
    rcases Nat.lt_or_ge v k with h | h
    · rw [Array.getD_push_lt _ _ _ _ (by rw [ihsize]; exact h)]
      exact ihget v h
    · have hvk : v = k := by omega
      subst hvk
      have hgen : ∀ (arr : Array (Nat × Nat)) (x : Nat × Nat), arr.size = v →
          (arr.push x).getD v (0, 0) = x := by
        intro arr x hx
        rw [← hx]
        exact Array.getD_push_eq arr x (0, 0)
      rw [hgen _ _ ihsize, ihsum]

theorem spanPass_size (n : Nat) (deg : Array Nat) : (spanPass n deg).size = n :=
  (spanPass_fold deg n).1

theorem spanPass_getD (net : FlowNetwork) (hval : net.Valid) {v : Nat} (hv : v < net.n) :
    (spanPass net.n (degreePass net)).getD v (0, 0)
      = (startOf net v, startOf net v + incCount net.arcs v) := by
  have h := (spanPass_fold (degreePass net) net.n).2.2 v hv
  unfold spanPass
  rw [h]
  have hsum : ∀ u, u ≤ net.n →
      ∑ w ∈ Finset.range u, (degreePass net).getD w 0 = startOf net u := by
    intro u hu
    unfold startOf
    apply Finset.sum_congr rfl
    intro w hw
    exact degreePass_getD net hval (lt_of_lt_of_le (Finset.mem_range.mp hw) hu)
  rw [hsum v (le_of_lt hv), degreePass_getD net hval hv]

theorem fillPass_cons (a : CapacityArc) (rest : List CapacityArc)
    (adj : Array ResidualArc) (cursor : Array Nat) :
    fillPass (a :: rest) adj cursor
      = fillPass rest
          ((adj.setD (cursor.getD a.tail 0) ⟨a.head, a.capacity, cursor.getD a.head 0⟩).setD
            (cursor.getD a.head 0) ⟨a.tail, 0, cursor.getD a.tail 0⟩)
          ((cursor.modify a.tail (· + 1)).modify a.head (· + 1)) := rfl

/-- Main invariant of the fill pass: cursors sit at the next free slot of each
vertex's range and all previously written records match the layout specification. -/
theorem fillPass_inv (net : FlowNetwork) (hval : net.Valid) :
    ∀ (d k : Nat) (adj : Array ResidualArc) (cursor : Array Nat),
      d = net.arcs.length - k →
      k ≤ net.arcs.length →
      adj.size = 2 * net.m →
      cursor.size = net.n →
      (∀ v, v < net.n → cursor.getD v 0 = startOf net v + incCount (net.arcs.take k) v) →
      (∀ i, i < k → adj.getD (fs net i) default = fwdRec net i ∧
        adj.getD (bs net i) default = bwdRec net i) →
      (fillPass (net.arcs.drop k) adj cursor).size = 2 * net.m ∧
      ∀ i, i < net.arcs.length →
        (fillPass (net.arcs.drop k) adj cursor).getD (fs net i) default = fwdRec net i ∧
        (fillPass (net.arcs.drop k) adj cursor).getD (bs net i) default = bwdRec net i := by
  intro d
  induction d with
  | zero =>
    intro k adj cursor hd hk hsize hcsize hcur hrec
    have hkl : k = net.arcs.length := by omega
    rw [List.drop_eq_nil_of_le (by omega)]
    exact ⟨hsize, fun i hi => hrec i (by omega)⟩
  | succ d ih =>
    intro k adj cursor hd hk hsize hcsize hcur hrec
    have hkl : k < net.arcs.length := by omega
    rw [List.drop_eq_getElem_cons hkl, fillPass_cons]
    have hbounds := arc_bounds net hval hkl
    have harc : net.arcs[k] = arcAt net k := (arcAt_lt net hkl).symm
    have htl : (arcAt net k).tail < net.n := hbounds.1
    have hhd : (arcAt net k).head < net.n := hbounds.2.1
    have hne : (arcAt net k).tail ≠ (arcAt net k).head := hbounds.2.2
    have hsu : cursor.getD net.arcs[k].tail 0 = fs net k := by
      rw [harc, hcur _ htl]; rfl
    have hsv : cursor.getD net.arcs[k].head 0 = bs net k := by
      rw [harc, hcur _ hhd]; rfl
    rw [hsu, hsv]
    have hfsz : fs net k < 2 * net.m := fs_lt_size net hval hkl
    have hbsz : bs net k < 2 * net.m := bs_lt_size net hval hkl
    have hfb : fs net k ≠ bs net k := fs_ne_bs_same net hval hkl
    -- the two written records are exactly the specified ones
    have hw1 : (⟨net.arcs[k].head, net.arcs[k].capacity, bs net k⟩ : ResidualArc)
        = fwdRec net k := by rw [harc]; rfl
    have hw2 : (⟨net.arcs[k].tail, 0, fs net k⟩ : ResidualArc) = bwdRec net k := by
      rw [harc]; rfl
    rw [hw1, hw2]
    apply ih (k+1)
    · omega
    · omega
    · rw [Array.size_setD, Array.size_setD, hsize]
    · rw [Array.size_modify, Array.size_modify, hcsize]
    · -- cursor invariant advances
      intro v hv
      rw [incCount_take_succ net.arcs k v hkl]
      by_cases h1 : net.arcs[k].head = v
      · have h2 : net.arcs[k].tail ≠ v := by
          rw [harc]
          rw [harc] at h1
          exact fun hc => hne (hc.trans h1.symm)
        subst h1
        rw [Array.getD_modify_self _ _ _ _ (by rw [Array.size_modify, hcsize]; exact hv),
          Array.getD_modify_ne _ _ _ _ _ h2, hcur _ hv]
        simp
        omega
      · by_cases h2 : net.arcs[k].tail = v
        · subst h2
          rw [Array.getD_modify_ne _ _ _ _ _ h1,
            Array.getD_modify_self _ _ _ _ (by rw [hcsize]; exact hv), hcur _ hv]
          simp [h1]
          omega
        · rw [Array.getD_modify_ne _ _ _ _ _ h1, Array.getD_modify_ne _ _ _ _ _ h2,
            hcur v hv]
          simp [h1, h2]
    · -- record invariant extends to k+1
      intro i hi
      rcases Nat.lt_or_ge i k with h | h
      · have hne1 : fs net i ≠ fs net k :=
          slot_ne_of_index_lt net hval (by omega) hkl h (Or.inl rfl) (Or.inl rfl)
        have hne2 : fs net i ≠ bs net k :=
          slot_ne_of_index_lt net hval (by omega) hkl h (Or.inl rfl) (Or.inr rfl)
        have hne3 : bs net i ≠ fs net k :=
          slot_ne_of_index_lt net hval (by omega) hkl h (Or.inr rfl) (Or.inl rfl)
        have hne4 : bs net i ≠ bs net k :=
          slot_ne_of_index_lt net hval (by omega) hkl h (Or.inr rfl) (Or.inr rfl)
        constructor
        · rw [Array.getD_setD_ne _ _ _ _ _ (fun hc => hne2 hc.symm),
            Array.getD_setD_ne _ _ _ _ _ (fun hc => hne1 hc.symm)]
          exact (hrec i h).1
        · rw [Array.getD_setD_ne _ _ _ _ _ (fun hc => hne4 hc.symm),
            Array.getD_setD_ne _ _ _ _ _ (fun hc => hne3 hc.symm)]
          exact (hrec i h).2
      · have hik : i = k := by omega
        subst hik
        constructor
        · rw [Array.getD_setD_ne _ _ _ _ _ (fun hc => hfb hc.symm),
            Array.getD_setD_self _ _ _ _ (by rw [hsize]; omega)]
        · rw [Array.getD_setD_self _ _ _ _ (by rw [Array.size_setD, hsize]; omega)]

/-- Layout of the constructed residual network: for each original arc i the
forward record carries (head, capacity) and the backward record (tail, 0), each
the other's twin, at the arena positions dictated by insertion order. -/
theorem ofNetwork_adjlist (net : FlowNetwork) (hval : net.Valid) :
    (ResidualNetwork.ofNetwork net).adjlist.size = 2 * net.m ∧
    ∀ i, i < net.arcs.length →
      (ResidualNetwork.ofNetwork net).adjlist.getD (fs net i) default = fwdRec net i ∧
      (ResidualNetwork.ofNetwork net).adjlist.getD (bs net i) default = bwdRec net i := by
  show (fillPass net.arcs _ _).size = 2 * net.m ∧ _
  have h0 : net.arcs = net.arcs.drop 0 := rfl
  rw [h0]
  apply fillPass_inv net hval net.arcs.length 0
  · omega
  · omega
  · simp
  · rw [Array.size_map, spanPass_size]
  · intro v hv
    have hvs : v < (spanPass net.n (degreePass net)).size := by
      rw [spanPass_size]; exact hv
    rw [Array.getD_lt _ _ _ (by rw [Array.size_map]; exact hvs),
      Array.getElem_map, ← Array.getD_lt _ _ (0, 0) hvs, spanPass_getD net hval hv]
    simp [incCount]
  · intro i hi; omega

/-- Spans of the constructed residual network are the prefix-sum ranges. -/
theorem ofNetwork_spans (net : FlowNetwork) (hval : net.Valid) :
    (ResidualNetwork.ofNetwork net).arcs_out_span.size = net.n ∧
    ∀ v, v < net.n → (ResidualNetwork.ofNetwork net).arcs_out_span.getD v (0, 0)
      = (startOf net v, startOf net v + incCount net.arcs v) := by
  constructor
  · show (spanPass net.n (degreePass net)).size = net.n
    exact spanPass_size _ _
  · intro v hv
    show (spanPass net.n (degreePass net)).getD v (0, 0) = _
    exact spanPass_getD net hval hv

/-! ## Shape of a residual arena and behaviour of push_flow -/

/-- Residual capacity stored at arena index s. -/
def rc (adj : Array ResidualArc) (s : Nat) : Nat :=
  (adj.getD s default).residual_capacity

/-- Head vertex stored at arena index s. -/
def headOf (adj : Array ResidualArc) (s : Nat) : Nat :=
  (adj.getD s default).head

/-- Twin index stored at arena index s. -/
def twinOf (adj : Array ResidualArc) (s : Nat) : Nat :=
  (adj.getD s default).twin

/-- Tail vertex of the residual arc at index s (head of the paired arc),
mirroring ResidualArc::tail. -/
def tailOf (adj : Array ResidualArc) (s : Nat) : Nat :=
  headOf adj (twinOf adj s)

/-- The immutable part of the arena (sizes, heads, twin links) agrees between
two arenas; push_flow only ever changes residual capacities. -/
def SameShapeArr (adj adj2 : Array ResidualArc) : Prop :=
  adj2.size = adj.size ∧ ∀ x, headOf adj2 x = headOf adj x ∧ twinOf adj2 x = twinOf adj x

theorem SameShapeArr.refl (adj : Array ResidualArc) : SameShapeArr adj adj :=
  ⟨rfl, fun _ => ⟨rfl, rfl⟩⟩

theorem sameShapeArr_trans {a b c : Array ResidualArc}
    (h1 : SameShapeArr a b) (h2 : SameShapeArr b c) : SameShapeArr a c :=
  ⟨h2.1.trans h1.1, fun x => ⟨((h2.2 x).1).trans (h1.2 x).1, ((h2.2 x).2).trans (h1.2 x).2⟩⟩

theorem setD_rc_only (adj : Array ResidualArc) (j z x : Nat) :
    headOf (adj.setD j { adj.getD j default with residual_capacity := z }) x = headOf adj x ∧
    twinOf (adj.setD j { adj.getD j default with residual_capacity := z }) x = twinOf adj x := by
  unfold headOf twinOf
  rcases eq_or_ne j x with h | h
  · subst h
    by_cases hj : j < adj.size
    · rw [Array.getD_setD_self _ _ _ _ hj]
      exact ⟨rfl, rfl⟩
    · rw [Array.getD_oob _ _ _ (by rw [Array.size_setD]; omega)]
      rw [Array.getD_oob _ _ _ (by omega)]
      exact ⟨rfl, rfl⟩
  · rw [Array.getD_setD_ne _ _ _ _ _ h]
    exact ⟨rfl, rfl⟩

theorem size_subAt (adj : Array ResidualArc) (s f : Nat) :
    (subAt adj s f).size = adj.size := Array.size_setD _ _ _

theorem size_addAt (adj : Array ResidualArc) (t f : Nat) :
    (addAt adj t f).size = adj.size := Array.size_setD _ _ _

theorem subAt_shape (adj : Array ResidualArc) (s f x : Nat) :
    headOf (subAt adj s f) x = headOf adj x ∧ twinOf (subAt adj s f) x = twinOf adj x :=
  setD_rc_only adj s _ x

theorem addAt_shape (adj : Array ResidualArc) (t f x : Nat) :
    headOf (addAt adj t f) x = headOf adj x ∧ twinOf (addAt adj t f) x = twinOf adj x :=
  setD_rc_only adj t _ x

theorem rc_subAt_self (adj : Array ResidualArc) (s f : Nat) (hs : s < adj.size) :
    rc (subAt adj s f) s = rc adj s - f := by
  unfold subAt rc
  rw [Array.getD_setD_self _ _ _ _ hs]

theorem rc_subAt_other (adj : Array ResidualArc) (s f x : Nat) (hx : x ≠ s) :
    rc (subAt adj s f) x = rc adj x := by
  unfold subAt rc
  rw [Array.getD_setD_ne _ _ _ _ _ (fun hc => hx hc.symm)]

theorem rc_addAt_self (adj : Array ResidualArc) (t f : Nat) (ht : t < adj.size) :
    rc (addAt adj t f) t = rc adj t + f := by
  unfold addAt rc
  rw [Array.getD_setD_self _ _ _ _ ht]

theorem rc_addAt_other (adj : Array ResidualArc) (t f x : Nat) (hx : x ≠ t) :
    rc (addAt adj t f) x = rc adj x := by
  unfold addAt rc
  rw [Array.getD_setD_ne _ _ _ _ _ (fun hc => hx hc.symm)]

theorem push_flow_sameShape (adj : Array ResidualArc) (s f : Nat) :
    SameShapeArr adj (push_flow adj s f) := by
  unfold push_flow
  refine ⟨by rw [size_addAt, size_subAt], fun x => ?_⟩
  obtain ⟨h1, h2⟩ := subAt_shape adj s f x
  obtain ⟨h3, h4⟩ := addAt_shape (subAt adj s f) (adj.getD s default).twin f x
  exact ⟨h3.trans h1, h4.trans h2⟩

theorem size_push_flow (adj : Array ResidualArc) (s f : Nat) :
    (push_flow adj s f).size = adj.size := (push_flow_sameShape adj s f).1

theorem rc_push_flow_self (adj : Array ResidualArc) (s f : Nat)
    (hs : s < adj.size) (ht : twinOf adj s ≠ s) :
    rc (push_flow adj s f) s = rc adj s - f := by
  show rc (addAt (subAt adj s f) (twinOf adj s) f) s = rc adj s - f
  rw [rc_addAt_other _ _ _ _ (fun hc => ht hc.symm), rc_subAt_self _ _ _ hs]

theorem rc_push_flow_twin (adj : Array ResidualArc) (s f : Nat)
    (hs : s < adj.size) (htlt : twinOf adj s < adj.size) (ht : twinOf adj s ≠ s) :
    rc (push_flow adj s f) (twinOf adj s) = rc adj (twinOf adj s) + f := by
  show rc (addAt (subAt adj s f) (twinOf adj s) f) (twinOf adj s) = _
  rw [rc_addAt_self _ _ _ (by rw [size_subAt]; exact htlt),
    rc_subAt_other _ _ _ _ ht]

theorem rc_push_flow_other (adj : Array ResidualArc) (s f x : Nat)
    (hx : x ≠ s) (hx2 : x ≠ twinOf adj s) :
    rc (push_flow adj s f) x = rc adj x := by
  show rc (addAt (subAt adj s f) (twinOf adj s) f) x = rc adj x
  rw [rc_addAt_other _ _ _ _ hx2, rc_subAt_other _ _ _ _ hx]

/-! ## Shape and pair-sum invariants over the solvers' arenas -/

/-- Shape of an arena with respect to a network: correct size and, for every
original arc, forward and backward records with the constructed heads and
mutually-linked twins. -/
def Shape (net : FlowNetwork) (adj : Array ResidualArc) : Prop :=
  adj.size = 2 * net.m ∧
  ∀ i, i < net.arcs.length →
    headOf adj (fs net i) = (arcAt net i).head ∧ twinOf adj (fs net i) = bs net i ∧
    headOf adj (bs net i) = (arcAt net i).tail ∧ twinOf adj (bs net i) = fs net i

/-- Pair-sum invariant: forward and backward residual capacities of each original
arc sum to its capacity. -/
def SumInv (net : FlowNetwork) (adj : Array ResidualArc) : Prop :=
  ∀ i, i < net.arcs.length →
    rc adj (fs net i) + rc adj (bs net i) = (arcAt net i).capacity

theorem shape_ofNetwork (net : FlowNetwork) (hval : net.Valid) :
    Shape net (ResidualNetwork.ofNetwork net).adjlist := by
  obtain ⟨hsz, hrec⟩ := ofNetwork_adjlist net hval
  refine ⟨hsz, fun i hi => ?_⟩
  obtain ⟨h1, h2⟩ := hrec i hi
  unfold headOf twinOf
  rw [h1, h2]
  exact ⟨rfl, rfl, rfl, rfl⟩

theorem sumInv_ofNetwork (net : FlowNetwork) (hval : net.Valid) :
    SumInv net (ResidualNetwork.ofNetwork net).adjlist := by
  obtain ⟨hsz, hrec⟩ := ofNetwork_adjlist net hval
  intro i hi
  obtain ⟨h1, h2⟩ := hrec i hi
  unfold rc
  rw [h1, h2]
  show (arcAt net i).capacity + 0 = _
  omega

theorem rc_ofNetwork_fs (net : FlowNetwork) (hval : net.Valid) {i : Nat}
    (hi : i < net.arcs.length) :
    rc (ResidualNetwork.ofNetwork net).adjlist (fs net i) = (arcAt net i).capacity := by
  unfold rc
  rw [((ofNetwork_adjlist net hval).2 i hi).1]
  rfl

theorem rc_ofNetwork_bs (net : FlowNetwork) (hval : net.Valid) {i : Nat}
    (hi : i < net.arcs.length) :
    rc (ResidualNetwork.ofNetwork net).adjlist (bs net i) = 0 := by
  unfold rc
  rw [((ofNetwork_adjlist net hval).2 i hi).2]
  rfl

theorem shape_of_sameShape {net : FlowNetwork} {adj adj2 : Array ResidualArc}
    (h1 : Shape net adj) (h2 : SameShapeArr adj adj2) : Shape net adj2 := by
  refine ⟨h2.1.trans h1.1, fun i hi => ?_⟩
  obtain ⟨g1, g2, g3, g4⟩ := h1.2 i hi
  obtain ⟨e1, e2⟩ := h2.2 (fs net i)
  obtain ⟨e3, e4⟩ := h2.2 (bs net i)
  exact ⟨e1.trans g1, e2.trans g2, e3.trans g3, e4.trans g4⟩

/-- Given the shape, every arena slot belongs to a unique original arc; the twin
link of a forward slot is its backward slot and vice versa. -/
theorem twinOf_involution (net : FlowNetwork) (hval : net.Valid)
    {adj : Array ResidualArc} (hsh : Shape net adj) {s : Nat} (hs : s < 2 * net.m) :
    twinOf adj (twinOf adj s) = s ∧ twinOf adj s < 2 * net.m ∧ twinOf adj s ≠ s := by
  obtain ⟨i, hi, hcase⟩ := slot_surj net hval hs
  obtain ⟨g1, g2, g3, g4⟩ := hsh.2 i hi
  rcases hcase with h | h <;> subst h
  · rw [g2, g4]
    exact ⟨rfl, bs_lt_size net hval hi, fun hc => fs_ne_bs_same net hval hi hc.symm⟩
  · rw [g4, g2]
    exact ⟨rfl, fs_lt_size net hval hi, fs_ne_bs_same net hval hi⟩

/-- Sum invariant is preserved by a bounded push on any valid slot. -/
theorem sumInv_push (net : FlowNetwork) (hval : net.Valid)
    {adj : Array ResidualArc} (hsh : Shape net adj) (hsum : SumInv net adj)
    {s f : Nat} (hs : s < 2 * net.m) (hf : f ≤ rc adj s) :
    SumInv net (push_flow adj s f) := by
  intro i hi
  have hsz : adj.size = 2 * net.m := hsh.1
  obtain ⟨j, hj, hjcase⟩ := slot_surj net hval hs
  obtain ⟨g1, g2, g3, g4⟩ := hsh.2 j hj
  rcases eq_or_ne i j with hij | hij
  · subst hij
    rcases hjcase with h | h <;> subst h
    · -- push on the forward slot of arc i
      have htw : twinOf adj (fs net i) = bs net i := g2
      rw [show bs net i = twinOf adj (fs net i) from htw.symm,
        rc_push_flow_self adj _ f (by omega) (by rw [htw]; exact fun hc => fs_ne_bs_same net hval hi hc.symm),
        rc_push_flow_twin adj _ f (by omega) (by rw [htw]; rw [hsz]; exact bs_lt_size net hval hi)
          (by rw [htw]; exact fun hc => fs_ne_bs_same net hval hi hc.symm),
        htw]
      have := hsum i hi
      omega
    · -- push on the backward slot of arc i
      have htw : twinOf adj (bs net i) = fs net i := g4
      rw [show fs net i = twinOf adj (bs net i) from htw.symm,
        rc_push_flow_twin adj _ f (by omega) (by rw [htw]; rw [hsz]; exact fs_lt_size net hval hi)
          (by rw [htw]; exact fs_ne_bs_same net hval hi),
        rc_push_flow_self adj _ f (by omega) (by rw [htw]; exact fs_ne_bs_same net hval hi),
        htw]
      have := hsum i hi
      omega
  · -- pushes on another arc's pair do not touch this pair
    have htws : twinOf adj s = (if s = fs net j then bs net j else fs net j) := by
      rcases hjcase with h | h <;> subst h
      · simp [g2]
      · rw [if_neg (fs_ne_bs_same net hval hj ∘ Eq.symm)]
        exact g4
    have hfs1 : fs net i ≠ s := by
      rcases hjcase with h | h <;> subst h
      · exact slot_inj net hval hi hj (Or.inl rfl) (Or.inl rfl) hij
      · exact slot_inj net hval hi hj (Or.inl rfl) (Or.inr rfl) hij
    have hfs2 : fs net i ≠ twinOf adj s := by
      rw [htws]
      rcases hjcase with h | h <;> subst h
      · simp only [if_pos]
        exact slot_inj net hval hi hj (Or.inl rfl) (Or.inr rfl) hij
      · rw [if_neg (fs_ne_bs_same net hval hj ∘ Eq.symm)]
        exact slot_inj net hval hi hj (Or.inl rfl) (Or.inl rfl) hij
    have hbs1 : bs net i ≠ s := by
      rcases hjcase with h | h <;> subst h
      · exact slot_inj net hval hi hj (Or.inr rfl) (Or.inl rfl) hij
      · exact slot_inj net hval hi hj (Or.inr rfl) (Or.inr rfl) hij
    have hbs2 : bs net i ≠ twinOf adj s := by
      rw [htws]
      rcases hjcase with h | h <;> subst h
      · simp only [if_pos]
        exact slot_inj net hval hi hj (Or.inr rfl) (Or.inr rfl) hij
      · rw [if_neg (fs_ne_bs_same net hval hj ∘ Eq.symm)]
        exact slot_inj net hval hi hj (Or.inr rfl) (Or.inl rfl) hij
    rw [rc_push_flow_other adj s f _ hfs1 hfs2, rc_push_flow_other adj s f _ hbs1 hbs2]
    exact hsum i hi

/-- Reachability of an arena from another by a sequence of valid pushes: each
push acts on an in-range slot with a positive amount bounded by the slot's
current residual capacity, exactly as every push_flow call of either solver. -/
inductive ValidReach (net : FlowNetwork) (adj : Array ResidualArc) :
    Array ResidualArc → Prop
  | refl : ValidReach net adj adj
  | snoc (adj2 : Array ResidualArc) (s f : Nat) :
      ValidReach net adj adj2 → s < adj2.size → 0 < f → f ≤ rc adj2 s →
      ValidReach net adj (push_flow adj2 s f)

theorem ValidReach.sameShape {net : FlowNetwork} {adj adj2 : Array ResidualArc}
    (h : ValidReach net adj adj2) : SameShapeArr adj adj2 := by
  induction h with
  | refl => exact SameShapeArr.refl adj
  | snoc b s f hr hs hf hle ih => exact sameShapeArr_trans ih (push_flow_sameShape b s f)

theorem ValidReach.shape_sumInv {net : FlowNetwork} (hval : net.Valid)
    {adj adj2 : Array ResidualArc} (h : ValidReach net adj adj2)
    (hsh : Shape net adj) (hsum : SumInv net adj) :
    Shape net adj2 ∧ SumInv net adj2 := by
  induction h with
  | refl => exact ⟨hsh, hsum⟩
  | snoc b s f hr hs hf hle ih =>
    obtain ⟨ihsh, ihsum⟩ := ih
    refine ⟨shape_of_sameShape ihsh (push_flow_sameShape b s f), ?_⟩
    exact sumInv_push net hval ihsh ihsum (by rw [← ihsh.1]; exact hs) hle

theorem validReach_trans {net : FlowNetwork} {a b c : Array ResidualArc}
    (h1 : ValidReach net a b) (h2 : ValidReach net b c) : ValidReach net a c := by
  induction h2 with
  | refl => exact h1
  | snoc y s f hr hs hf hle ih => exact ValidReach.snoc y s f ih hs hf hle

/-! ## Flow interpretation of an arena and excess accounting -/

/-- Flow currently pushed on original arc i: the residual capacity accumulated
on its backward record. -/
def flowOf (net : FlowNetwork) (adj : Array ResidualArc) (i : Nat) : Nat :=
  rc adj (bs net i)

/-- Net inflow minus outflow of vertex v under per-arc flow assignment g. -/
def excess (net : FlowNetwork) (g : Nat → Nat) (v : Nat) : Int :=
  ∑ i ∈ Finset.range net.arcs.length,
    ((if (arcAt net i).head = v then (g i : Int) else 0)
      - (if (arcAt net i).tail = v then (g i : Int) else 0))

theorem excess_zero_flow (net : FlowNetwork) (v : Nat) :
    excess net (fun _ => 0) v = 0 := by
  unfold excess
  apply Finset.sum_eq_zero
  intro i _
  by_cases h1 : (arcAt net i).head = v <;> by_cases h2 : (arcAt net i).tail = v <;>
    simp [h1, h2]

theorem excess_ofNetwork (net : FlowNetwork) (hval : net.Valid) (v : Nat) :
    excess net (flowOf net (ResidualNetwork.ofNetwork net).adjlist) v = 0 := by
  unfold excess
  apply Finset.sum_eq_zero
  intro i hi
  have h0 : flowOf net (ResidualNetwork.ofNetwork net).adjlist i = 0 :=
    rc_ofNetwork_bs net hval (Finset.mem_range.mp hi)
  rw [h0]
  by_cases h1 : (arcAt net i).head = v <;> by_cases h2 : (arcAt net i).tail = v <;>
    simp [h1, h2]

/-- Transfer lemma: a bounded push on slot s moves f units of excess from the
slot's tail to its head. -/
theorem excess_push (net : FlowNetwork) (hval : net.Valid)
    {adj : Array ResidualArc} (hsh : Shape net adj) {s f : Nat}
    (hs : s < 2 * net.m) (hf : f ≤ rc adj s) (v : Nat) :
    excess net (flowOf net (push_flow adj s f)) v
      = excess net (flowOf net adj) v
        + (if headOf adj s = v then (f : Int) else 0)
        - (if tailOf adj s = v then (f : Int) else 0) := by
  have hsz : adj.size = 2 * net.m := hsh.1
  obtain ⟨j, hj, hjcase⟩ := slot_surj net hval hs
  obtain ⟨g1, g2, g3, g4⟩ := hsh.2 j hj
  have hjr : j ∈ Finset.range net.arcs.length := Finset.mem_range.mpr hj
  rcases hjcase with hcs | hcs <;> subst hcs
  · -- push on the forward slot of arc j: flow on j increases by f
    have htw : twinOf adj (fs net j) = bs net j := g2
    have hfj : flowOf net (push_flow adj (fs net j) f) j = flowOf net adj j + f := by
      unfold flowOf
      rw [show bs net j = twinOf adj (fs net j) from htw.symm,
        rc_push_flow_twin adj _ f (by omega)
          (by rw [htw, hsz]; exact bs_lt_size net hval hj)
          (by rw [htw]; exact fun hc => fs_ne_bs_same net hval hj hc.symm), htw]
    have hother : ∀ i, i < net.arcs.length → i ≠ j →
        flowOf net (push_flow adj (fs net j) f) i = flowOf net adj i := by
      intro i hi hij
      unfold flowOf
      apply rc_push_flow_other
      · exact slot_inj net hval hi hj (Or.inr rfl) (Or.inl rfl) hij
      · rw [htw]
        exact slot_inj net hval hi hj (Or.inr rfl) (Or.inr rfl) hij
    have hterm : ∀ i ∈ Finset.range net.arcs.length,
        ((if (arcAt net i).head = v then (flowOf net (push_flow adj (fs net j) f) i : Int) else 0)
          - (if (arcAt net i).tail = v then (flowOf net (push_flow adj (fs net j) f) i : Int) else 0))
        = ((if (arcAt net i).head = v then (flowOf net adj i : Int) else 0)
            - (if (arcAt net i).tail = v then (flowOf net adj i : Int) else 0))
          + (if i = j then
              ((if (arcAt net j).head = v then (f : Int) else 0)
                - (if (arcAt net j).tail = v then (f : Int) else 0)) else 0) := by
      intro i hir
      have hi := Finset.mem_range.mp hir
      rcases eq_or_ne i j with hij | hij
      · subst hij
        rw [hfj]
        push_cast
        by_cases h1 : (arcAt net i).head = v <;> by_cases h2 : (arcAt net i).tail = v <;>
          simp [h1, h2] <;> ring
      · rw [hother i hi hij]
        simp [hij]
    unfold excess
    rw [Finset.sum_congr rfl hterm, Finset.sum_add_distrib, Finset.sum_ite_eq']
    rw [if_pos hjr, g1]
    have htail : tailOf adj (fs net j) = (arcAt net j).tail := by
      unfold tailOf
      rw [htw, g3]
    rw [htail]
    ring
  · -- push on the backward slot of arc j: flow on j decreases by f
    have htw : twinOf adj (bs net j) = fs net j := g4
    have hflej : f ≤ flowOf net adj j := hf
    have hfj : flowOf net (push_flow adj (bs net j) f) j = flowOf net adj j - f := by
      unfold flowOf
      rw [rc_push_flow_self adj _ f (by omega)
        (by rw [htw]; exact fs_ne_bs_same net hval hj)]
    have hother : ∀ i, i < net.arcs.length → i ≠ j →
        flowOf net (push_flow adj (bs net j) f) i = flowOf net adj i := by
      intro i hi hij
      unfold flowOf
      apply rc_push_flow_other
      · exact slot_inj net hval hi hj (Or.inr rfl) (Or.inr rfl) hij
      · rw [htw]
        exact slot_inj net hval hi hj (Or.inr rfl) (Or.inl rfl) hij
    have hterm : ∀ i ∈ Finset.range net.arcs.length,
        ((if (arcAt net i).head = v then (flowOf net (push_flow adj (bs net j) f) i : Int) else 0)
          - (if (arcAt net i).tail = v then (flowOf net (push_flow adj (bs net j) f) i : Int) else 0))
        = ((if (arcAt net i).head = v then (flowOf net adj i : Int) else 0)
            - (if (arcAt net i).tail = v then (flowOf net adj i : Int) else 0))
          + (if i = j then
              ((if (arcAt net j).tail = v then (f : Int) else 0)
                - (if (arcAt net j).head = v then (f : Int) else 0)) else 0) := by
      intro i hir
      have hi := Finset.mem_range.mp hir
      rcases eq_or_ne i j with hij | hij
      · subst hij
        rw [hfj, Nat.cast_sub hflej]
        by_cases h1 : (arcAt net i).head = v <;> by_cases h2 : (arcAt net i).tail = v <;>
          simp [h1, h2] <;> ring
      · rw [hother i hi hij]
        simp [hij]
    unfold excess
    rw [Finset.sum_congr rfl hterm, Finset.sum_add_distrib, Finset.sum_ite_eq']
    rw [if_pos hjr, g3]
    have htail : tailOf adj (bs net j) = (arcAt net j).head := by
      unfold tailOf
      rw [htw, g1]
    rw [htail]
    ring

/-! ## Flow extraction (source: get_flow_arcs) -/

/-- Walk the original arcs with one cursor per vertex; emit the paired record's
residual capacity of the record under the tail's cursor, advancing both the
tail's and the head's cursor (body of get_flow_arcs). -/
def get_flow_arcs_aux (arcs : List CapacityArc) (cursor : Array Nat)
    (adj : Array ResidualArc) : List Nat :=
  match arcs with
  | [] => []
  | a :: rest =>
    (adj.getD (adj.getD (cursor.getD a.tail 0) default).twin default).residual_capacity
      :: get_flow_arcs_aux rest ((cursor.modify a.tail (· + 1)).modify a.head (· + 1)) adj

/-- Retrieve the flow value of each arc in the network given an associated
residual network, cursors starting at each vertex's sub-range start. -/
def get_flow_arcs (net : FlowNetwork) (rnet : ResidualNetwork) : List Nat :=
  get_flow_arcs_aux net.arcs (rnet.arcs_out_span.map Prod.fst) rnet.adjlist

/-- Shared cursor-advancement lemma: advancing the tail and head cursors of arc
k moves the cursor invariant from prefix k to prefix k+1. -/
theorem cursor_step (net : FlowNetwork) (hval : net.Valid) {k : Nat}
    (hkl : k < net.arcs.length) {cursor : Array Nat}
    (hcsize : cursor.size = net.n)
    (hcur : ∀ v, v < net.n → cursor.getD v 0 = startOf net v + incCount (net.arcs.take k) v) :
    ∀ v, v < net.n →
      ((cursor.modify net.arcs[k].tail (· + 1)).modify net.arcs[k].head (· + 1)).getD v 0
        = startOf net v + incCount (net.arcs.take (k+1)) v := by
  have hbounds := arc_bounds net hval hkl
  have harc : net.arcs[k] = arcAt net k := (arcAt_lt net hkl).symm
  have hne : (arcAt net k).tail ≠ (arcAt net k).head := hbounds.2.2
  intro v hv
  rw [incCount_take_succ net.arcs k v hkl]
  by_cases h1 : net.arcs[k].head = v
  · have h2 : net.arcs[k].tail ≠ v := by
      rw [harc]
      rw [harc] at h1
      exact fun hc => hne (hc.trans h1.symm)
    subst h1
    rw [Array.getD_modify_self _ _ _ _ (by rw [Array.size_modify, hcsize]; exact hv),
      Array.getD_modify_ne _ _ _ _ _ h2, hcur _ hv]
    simp
    omega
  · by_cases h2 : net.arcs[k].tail = v
    · subst h2
      rw [Array.getD_modify_ne _ _ _ _ _ h1,
        Array.getD_modify_self _ _ _ _ (by rw [hcsize]; exact hv), hcur _ hv]
      simp [h1]
      omega
    · rw [Array.getD_modify_ne _ _ _ _ _ h1, Array.getD_modify_ne _ _ _ _ _ h2,
        hcur v hv]
      simp [h1, h2]

theorem get_flow_arcs_aux_spec (net : FlowNetwork) (hval : net.Valid)
    {adj : Array ResidualArc} (hsh : Shape net adj) :
    ∀ (d k : Nat) (cursor : Array Nat),
      d = net.arcs.length - k →
      k ≤ net.arcs.length →
      cursor.size = net.n →
      (∀ v, v < net.n → cursor.getD v 0 = startOf net v + incCount (net.arcs.take k) v) →
      get_flow_arcs_aux (net.arcs.drop k) cursor adj
        = (List.range' k (net.arcs.length - k)).map (flowOf net adj) := by
  intro d
  induction d with
  | zero =>
    intro k cursor hd hk hcs hcur
    have hkl : k = net.arcs.length := by omega
    rw [List.drop_eq_nil_of_le (by omega), hkl, Nat.sub_self]
    rfl
  | succ d ih =>
    intro k cursor hd hk hcs hcur
    have hkl : k < net.arcs.length := by omega
    rw [List.drop_eq_getElem_cons hkl]
    show (adj.getD (adj.getD (cursor.getD net.arcs[k].tail 0) default).twin
        default).residual_capacity
      :: get_flow_arcs_aux (net.arcs.drop (k+1))
        ((cursor.modify net.arcs[k].tail (· + 1)).modify net.arcs[k].head (· + 1)) adj
      = (List.range' k (net.arcs.length - k)).map (flowOf net adj)
    have hbounds := arc_bounds net hval hkl
    have harc : net.arcs[k] = arcAt net k := (arcAt_lt net hkl).symm
    have hsu : cursor.getD net.arcs[k].tail 0 = fs net k := by
      rw [harc, hcur _ hbounds.1]
      rfl
    have hhead : (adj.getD (adj.getD (cursor.getD net.arcs[k].tail 0) default).twin
        default).residual_capacity = flowOf net adj k := by
      rw [hsu]
      have htw : (adj.getD (fs net k) default).twin = bs net k := (hsh.2 k hkl).2.1
      rw [htw]
      rfl
    rw [hhead, ih (k+1) _ (by omega) (by omega)
      (by rw [Array.size_modify, Array.size_modify]; exact hcs)
      (cursor_step net hval hkl hcs hcur)]
    have hlen : net.arcs.length - k = (net.arcs.length - (k+1)) + 1 := by omega
    rw [hlen, List.range'_succ]
    rfl

/-- Flow extraction over any shape-preserving mutation of the constructed
residual network yields exactly the per-arc backward residual capacities. -/
theorem get_flow_arcs_spec (net : FlowNetwork) (hval : net.Valid)
    {adj : Array ResidualArc} (hsh : Shape net adj) :
    get_flow_arcs net
        { ResidualNetwork.ofNetwork net with adjlist := adj }
      = (List.range net.arcs.length).map (flowOf net adj) := by
  unfold get_flow_arcs
  have h := get_flow_arcs_aux_spec net hval hsh net.arcs.length 0
    ((ResidualNetwork.ofNetwork net).arcs_out_span.map Prod.fst) (by omega) (by omega)
    (by rw [Array.size_map, (ofNetwork_spans net hval).1])
    (by
      intro v hv
      have hvs : v < (ResidualNetwork.ofNetwork net).arcs_out_span.size := by
        rw [(ofNetwork_spans net hval).1]; exact hv
      rw [Array.getD_lt _ _ _ (by rw [Array.size_map]; exact hvs), Array.getElem_map,
        ← Array.getD_lt _ _ (0, 0) hvs, (ofNetwork_spans net hval).2 v hv]
      simp [incCount])
  rw [List.range_eq_range']
  exact h

/-! ## Edmonds-Karp solver (source: edmonds_karp) -/

/-- Arena indices of vertex u's outgoing residual arcs (its span, as a list). -/
def slotsOf (spans : Array (Nat × Nat)) (u : Nat) : List Nat :=
  List.range' (spans.getD u (0, 0)).1 ((spans.getD u (0, 0)).2 - (spans.getD u (0, 0)).1)

/-- Inner loop of the BFS: scan the outgoing arcs of the dequeued vertex; mark
the head of every unvisited residual arc (never re-marking the source), stopping
with success the instant the sink is discovered, otherwise appending the head to
the worklist. -/
def bfs_scan (adj : Array ResidualArc) (source sink : Nat) :
    List Nat → Array (Option Nat) → List Nat → Array (Option Nat) × List Nat × Bool
  | [], pred, queue => (pred, queue, false)
  | s :: rest, pred, queue =>
    if pred.getD (headOf adj s) none = none ∧ 0 < rc adj s ∧ headOf adj s ≠ source then
      if headOf adj s = sink then (pred.setD (headOf adj s) (some s), queue, true)
      else bfs_scan adj source sink rest (pred.setD (headOf adj s) (some s))
        (queue ++ [headOf adj s])
    else bfs_scan adj source sink rest pred queue

/-- Outer loop of the BFS over the worklist (the queue-less buffer consumed by a
cursor, modelled as the unprocessed suffix). -/
def bfs_loop (adj : Array ResidualArc) (spans : Array (Nat × Nat)) (source sink : Nat) :
    Nat → List Nat → Array (Option Nat) → Array (Option Nat) × Bool
  | 0, _, pred => (pred, false)
  | _ + 1, [], pred => (pred, false)
  | fuel + 1, u :: rest, pred =>
    match bfs_scan adj source sink (slotsOf spans u) pred rest with
    | (pred2, _, true) => (pred2, true)
    | (pred2, queue2, false) => bfs_loop adj spans source sink fuel queue2 pred2

/-- One BFS from the source over the residual network, reporting whether the sink
is reachable and the predecessor-arc array (bfs_find_augmenting_path). -/
def bfs_find_augmenting_path (net : FlowNetwork) (spans : Array (Nat × Nat))
    (adj : Array ResidualArc) : Array (Option Nat) × Bool :=
  bfs_loop adj spans net.source net.sink (net.n + 1) [net.source]
    (Array.mkArray net.n (none : Option Nat))

/-- Walk the predecessor chain from a vertex back towards the source, collecting
the arena indices of the path's arcs (the two path walks of edmonds_karp). -/
def walk_path (adj : Array ResidualArc) (pred : Array (Option Nat)) :
    Nat → Nat → List Nat
  | 0, _ => []
  | fuel + 1, v =>
    match pred.getD v none with
    | none => []
    | some s => s :: walk_path adj pred fuel (tailOf adj s)

/-- Bottleneck residual capacity along a list of path arcs. -/
def bottleneck (adj : Array ResidualArc) : List Nat → Nat
  | [] => 0
  | s :: rest => rest.foldl (fun acc t => Nat.min acc (rc adj t)) (rc adj s)

/-- Push the given amount of flow on every arc of the path. -/
def push_path (adj : Array ResidualArc) (f : Nat) : List Nat → Array ResidualArc
  | [] => adj
  | s :: rest => push_path (push_flow adj s f) f rest

/-- Total residual capacity on the arcs out of a vertex (used as the termination
measure of the augmentation loops: every augmentation removes at least one unit). -/
def sourceOutRC (spans : Array (Nat × Nat)) (adj : Array ResidualArc) (u : Nat) : Nat :=
  ((slotsOf spans u).map (rc adj)).sum

/-- Ford-Fulkerson outer loop specialised to shortest augmenting paths: while the
BFS finds the sink, push the bottleneck along the predecessor path and accumulate
it into the running maximum-flow value. -/
def ek_loop (net : FlowNetwork) (spans : Array (Nat × Nat)) :
    Nat → Array ResidualArc → Nat → Array ResidualArc × Nat
  | 0, adj, maxflow => (adj, maxflow)
  | fuel + 1, adj, maxflow =>
    match bfs_find_augmenting_path net spans adj with
    | (_, false) => (adj, maxflow)
    | (pred, true) =>
      let path := walk_path adj pred (net.n + 1) net.sink
      let f := bottleneck adj path
      ek_loop net spans fuel (push_path adj f path) (maxflow + f)

/-- Arena and value after running Edmonds-Karp to exhaustion. -/
def ekFinal (net : FlowNetwork) : Array ResidualArc × Nat :=
  let rnet := ResidualNetwork.ofNetwork net
  ek_loop net rnet.arcs_out_span
    (sourceOutRC rnet.arcs_out_span rnet.adjlist net.source + 1) rnet.adjlist 0

/-- Edmonds-Karp algorithm for computing the maximum flow of the given flow
network. -/
def edmonds_karp (net : FlowNetwork) : Flow :=
  { value := (ekFinal net).2,
    flow_arcs := get_flow_arcs net
      { ResidualNetwork.ofNetwork net with adjlist := (ekFinal net).1 } }

/-! ## Facts about spans and slots -/

theorem slotsOf_ofNetwork (net : FlowNetwork) (hval : net.Valid) {u : Nat}
    (hu : u < net.n) :
    slotsOf (ResidualNetwork.ofNetwork net).arcs_out_span u
      = List.range' (startOf net u) (incCount net.arcs u) := by
  unfold slotsOf
  rw [(ofNetwork_spans net hval).2 u hu]
  simp

theorem slotsOf_ofNetwork_oob (net : FlowNetwork) (hval : net.Valid) {u : Nat}
    (hu : net.n ≤ u) :
    slotsOf (ResidualNetwork.ofNetwork net).arcs_out_span u = [] := by
  unfold slotsOf
  rw [Array.getD_oob _ _ _ (by rw [(ofNetwork_spans net hval).1]; exact hu)]
  rfl

theorem mem_slotsOf (net : FlowNetwork) (hval : net.Valid) {u s : Nat}
    (hu : u < net.n) :
    s ∈ slotsOf (ResidualNetwork.ofNetwork net).arcs_out_span u ↔ SlotIn net s u := by
  rw [slotsOf_ofNetwork net hval hu, List.mem_range'_1]
  unfold SlotIn
  constructor
  · rintro ⟨h1, h2⟩
    exact ⟨hu, by omega, by omega⟩
  · rintro ⟨_, h2, h3⟩
    omega

/-- Any slot of the arena belongs to the unique range of its tail vertex. -/
theorem slot_owner (net : FlowNetwork) (hval : net.Valid)
    {adj : Array ResidualArc} (hsh : Shape net adj) {s : Nat} (hs : s < 2 * net.m) :
    SlotIn net s (tailOf adj s) ∧ headOf adj s < net.n ∧
      headOf adj s ≠ tailOf adj s ∧ tailOf adj s < net.n := by
  obtain ⟨i, hi, hcase⟩ := slot_surj net hval hs
  obtain ⟨g1, g2, g3, g4⟩ := hsh.2 i hi
  have hb := arc_bounds net hval hi
  rcases hcase with h | h <;> subst h
  · have htail : tailOf adj (fs net i) = (arcAt net i).tail := by
      unfold tailOf
      rw [g2, g3]
    rw [htail, g1]
    exact ⟨slotIn_fs net hval hi, hb.2.1, fun hc => hb.2.2 hc.symm, hb.1⟩
  · have htail : tailOf adj (bs net i) = (arcAt net i).head := by
      unfold tailOf
      rw [g4, g1]
    rw [htail, g3]
    exact ⟨slotIn_bs net hval hi, hb.1, hb.2.2, hb.2.1⟩

theorem mem_slotsOf_facts (net : FlowNetwork) (hval : net.Valid)
    {adj : Array ResidualArc} (hsh : Shape net adj) {u s : Nat} (hu : u < net.n)
    (hs : s ∈ slotsOf (ResidualNetwork.ofNetwork net).arcs_out_span u) :
    s < 2 * net.m ∧ tailOf adj s = u ∧ headOf adj s < net.n ∧ headOf adj s ≠ u := by
  have hin : SlotIn net s u := (mem_slotsOf net hval hu).mp hs
  have hlt : s < 2 * net.m := slotIn_lt_size net hval hin
  obtain ⟨howner, hh1, hh2, _⟩ := slot_owner net hval hsh hlt
  have heq : tailOf adj s = u := SlotIn.unique net howner hin
  rw [heq] at hh2
  exact ⟨hlt, heq, hh1, hh2⟩

/-! ## BFS invariants for the Edmonds-Karp solver -/

/-- Specification of one scan: marks grow monotonically, every new mark records a
residual arc out of u into the marked vertex, the worklist grows by exactly the
newly marked non-sink vertices, and on failure every residual arc out of u leads
to the source or a marked vertex. -/
theorem bfs_scan_spec (net : FlowNetwork) (adj : Array ResidualArc) (u : Nat) :
    ∀ (slots : List Nat) (pred : Array (Option Nat)) (queue : List Nat)
      (pred2 : Array (Option Nat)) (queue2 : List Nat) (found : Bool),
      bfs_scan adj net.source net.sink slots pred queue = (pred2, queue2, found) →
      (∀ s ∈ slots, s < 2 * net.m ∧ tailOf adj s = u ∧ headOf adj s < net.n) →
      pred.size = net.n →
      ∃ delta : List Nat,
        queue2 = queue ++ delta ∧
        pred2.size = pred.size ∧
        (∀ v s0, pred.getD v none = some s0 → pred2.getD v none = some s0) ∧
        (∀ v, pred2.getD v none ≠ pred.getD v none →
          pred.getD v none = none ∧ v ≠ net.source ∧ v < net.n ∧
          ∃ s, s ∈ slots ∧ pred2.getD v none = some s ∧ headOf adj s = v ∧
            0 < rc adj s ∧ tailOf adj s = u ∧ s < 2 * net.m) ∧
        delta.Nodup ∧
        (∀ w ∈ delta, w ≠ net.source ∧ w ≠ net.sink ∧ w < net.n ∧
          pred.getD w none = none ∧ pred2.getD w none ≠ none) ∧
        (found = true →
          ∃ s, s ∈ slots ∧ pred2.getD net.sink none = some s ∧
            headOf adj s = net.sink ∧ 0 < rc adj s ∧ tailOf adj s = u ∧
            s < 2 * net.m ∧ pred.getD net.sink none = none) ∧
        (found = false →
          pred2.getD net.sink none = pred.getD net.sink none ∧
          (∀ s ∈ slots, 0 < rc adj s →
            headOf adj s = net.source ∨ pred2.getD (headOf adj s) none ≠ none) ∧
          (∀ v, pred2.getD v none ≠ none → pred.getD v none ≠ none ∨ v ∈ delta)) := by
  intro slots
  induction slots with
  | nil =>
    intro pred queue pred2 queue2 found heq _ _
    have h : pred2 = pred ∧ queue2 = queue ∧ found = false := by
      unfold bfs_scan at heq
      exact ⟨congrArg (·.1) heq.symm, congrArg (·.2.1) heq.symm, congrArg (·.2.2) heq.symm⟩
    obtain ⟨h1, h2, h3⟩ := h
    subst h1; subst h2; subst h3
    refine ⟨[], by simp, rfl, fun v s0 h => h, fun v hne => absurd rfl hne, by simp,
      by simp, fun hc => absurd hc (by simp), fun _ => ?_⟩
    exact ⟨rfl, fun s hs => absurd hs (List.not_mem_nil s), fun v hv => Or.inl hv⟩
  | cons s rest ih =>
    intro pred queue pred2 queue2 found heq hslots hpsz
    have hsfacts := hslots s (List.mem_cons_self s rest)
    have hrest : ∀ t ∈ rest, t < 2 * net.m ∧ tailOf adj t = u ∧ headOf adj t < net.n :=
      fun t ht => hslots t (List.mem_cons_of_mem s ht)
    have hhead_lt : headOf adj s < pred.size := by rw [hpsz]; exact hsfacts.2.2
    by_cases hg : pred.getD (headOf adj s) none = none ∧ 0 < rc adj s ∧
        headOf adj s ≠ net.source
    · by_cases hsink : headOf adj s = net.sink
      · -- sink discovered: stop at once
        have heq2 : (pred.setD (headOf adj s) (some s), queue, true)
            = (pred2, queue2, found) := by
          unfold bfs_scan at heq
          rw [if_pos hg, if_pos hsink] at heq
          exact heq
        obtain ⟨h1, h2, h3⟩ : pred.setD (headOf adj s) (some s) = pred2 ∧
            queue = queue2 ∧ true = found :=
          ⟨congrArg (·.1) heq2, congrArg (·.2.1) heq2, congrArg (·.2.2) heq2⟩
        subst h1; subst h2; subst h3
        have hmark : (pred.setD (headOf adj s) (some s)).getD (headOf adj s) none
            = some s := Array.getD_setD_self _ _ _ _ hhead_lt
        have hmono : ∀ v s0, pred.getD v none = some s0 →
            (pred.setD (headOf adj s) (some s)).getD v none = some s0 := by
          intro v s0 h
          rcases eq_or_ne (headOf adj s) v with hv | hv
          · rw [hv] at hg
            rw [hg.1] at h
            exact absurd h (by simp)
          · rw [Array.getD_setD_ne _ _ _ _ _ hv]
            exact h
        refine ⟨[], by simp, Array.size_setD _ _ _, hmono, ?_, by simp, by simp,
          fun _ => ?_, fun hc => absurd hc (by simp)⟩
        · intro v hne
          have hv : v = headOf adj s := by
            by_contra hc
            exact hne (Array.getD_setD_ne _ _ _ _ _ (fun h => hc h.symm))
          subst hv
          exact ⟨hg.1, hg.2.2, hsfacts.2.2, s, List.mem_cons_self s rest, hmark,
            rfl, hg.2.1, hsfacts.2.1, hsfacts.1⟩
        · refine ⟨s, List.mem_cons_self s rest, by rw [← hsink]; exact hmark, hsink,
            hg.2.1, hsfacts.2.1, hsfacts.1, by rw [← hsink]; exact hg.1⟩
      · -- new mark, appended to the worklist
        have heq2 : bfs_scan adj net.source net.sink rest
            (pred.setD (headOf adj s) (some s)) (queue ++ [headOf adj s])
            = (pred2, queue2, found) := by
          unfold bfs_scan at heq
          rw [if_pos hg, if_neg hsink] at heq
          exact heq
        obtain ⟨delta, hq, hsz, hmono, hnew, hnd, hdf, hftrue, hffalse⟩ :=
          ih (pred.setD (headOf adj s) (some s)) (queue ++ [headOf adj s])
            pred2 queue2 found heq2 hrest (by rw [Array.size_setD]; exact hpsz)
        have hmark : (pred.setD (headOf adj s) (some s)).getD (headOf adj s) none
            = some s := Array.getD_setD_self _ _ _ _ hhead_lt
        have hmono0 : ∀ v s0, pred.getD v none = some s0 →
            (pred.setD (headOf adj s) (some s)).getD v none = some s0 := by
          intro v s0 h
          rcases eq_or_ne (headOf adj s) v with hv | hv
          · rw [hv] at hg
            rw [hg.1] at h
            exact absurd h (by simp)
          · rw [Array.getD_setD_ne _ _ _ _ _ hv]
            exact h
        have hheadmarked : pred2.getD (headOf adj s) none = some s :=
          hmono (headOf adj s) s hmark
        refine ⟨headOf adj s :: delta, by simp [hq], by rw [hsz, Array.size_setD],
          fun v s0 h => hmono v s0 (hmono0 v s0 h), ?_, ?_, ?_, ?_, ?_⟩
        · -- new marks
          intro v hne
          rcases eq_or_ne v (headOf adj s) with hv | hv
          · subst hv
            exact ⟨hg.1, hg.2.2, hsfacts.2.2, s, List.mem_cons_self s rest,
              hheadmarked, rfl, hg.2.1, hsfacts.2.1, hsfacts.1⟩
          · have h1 : (pred.setD (headOf adj s) (some s)).getD v none
                = pred.getD v none := Array.getD_setD_ne _ _ _ _ _ (fun h => hv h.symm)
            have h2 : pred2.getD v none ≠ (pred.setD (headOf adj s) (some s)).getD v none := by
              rw [h1]; exact hne
            obtain ⟨hn1, hn2, hn3, t, ht, hrest2⟩ := hnew v h2
            rw [h1] at hn1
            exact ⟨hn1, hn2, hn3, t, List.mem_cons_of_mem s ht, hrest2⟩
        · -- Nodup
          refine List.Nodup.cons ?_ hnd
          intro hmem
          obtain ⟨_, _, _, hw, _⟩ := hdf (headOf adj s) hmem
          rw [hmark] at hw
          exact absurd hw (by simp)
        · -- delta facts
          intro w hw
          rcases List.mem_cons.mp hw with hv | hv
          · subst hv
            exact ⟨hg.2.2, hsink, hsfacts.2.2, hg.1, by rw [hheadmarked]; simp⟩
          · obtain ⟨d1, d2, d3, d4, d5⟩ := hdf w hv
            have hne : w ≠ headOf adj s := by
              intro hc
              rw [hc, hmark] at d4
              exact absurd d4 (by simp)
            rw [Array.getD_setD_ne _ _ _ _ _ (fun h => hne h.symm)] at d4
            exact ⟨d1, d2, d3, d4, d5⟩
        · -- found = true
          intro hf
          obtain ⟨t, ht, hrest2⟩ := hftrue hf
          have hts : pred.getD net.sink none = none := by
            have h5 := hrest2.2.2.2.2.2
            rcases eq_or_ne net.sink (headOf adj s) with he | he
            · exact absurd he.symm hsink
            · rw [Array.getD_setD_ne _ _ _ _ _ (fun h => he h.symm)] at h5
              exact h5
          exact ⟨t, List.mem_cons_of_mem s ht, hrest2.1, hrest2.2.1, hrest2.2.2.1,
            hrest2.2.2.2.1, hrest2.2.2.2.2.1, hts⟩
        · -- found = false
          intro hf
          obtain ⟨hb1, hb2, hb3⟩ := hffalse hf
          refine ⟨?_, ?_, ?_⟩
          · rw [hb1, Array.getD_setD_ne _ _ _ _ _ (fun h => hsink h)]
          · intro t ht hrc
            rcases List.mem_cons.mp ht with hv | hv
            · subst hv
              exact Or.inr (by rw [hheadmarked]; simp)
            · exact hb2 t hv hrc
          · intro v hv
            rcases hb3 v hv with hcase | hcase
            · rcases eq_or_ne v (headOf adj s) with he | he
              · subst he
                exact Or.inr (List.mem_cons_self _ _)
              · rw [Array.getD_setD_ne _ _ _ _ _ (fun h => he h.symm)] at hcase
                exact Or.inl hcase
            · exact Or.inr (List.mem_cons_of_mem _ hcase)
    · -- guard failed: the arc is skipped
      have heq2 : bfs_scan adj net.source net.sink rest pred queue
          = (pred2, queue2, found) := by
        unfold bfs_scan at heq
        rw [if_neg hg] at heq
        exact heq
      obtain ⟨delta, hq, hsz, hmono, hnew, hnd, hdf, hftrue, hffalse⟩ :=
        ih pred queue pred2 queue2 found heq2 hrest hpsz
      refine ⟨delta, hq, hsz, hmono, ?_, hnd, hdf, ?_, ?_⟩
      · intro v hne
        obtain ⟨hn1, hn2, hn3, t, ht, hrest2⟩ := hnew v hne
        exact ⟨hn1, hn2, hn3, t, List.mem_cons_of_mem s ht, hrest2⟩
      · intro hf
        obtain ⟨t, ht, hrest2⟩ := hftrue hf
        exact ⟨t, List.mem_cons_of_mem s ht, hrest2⟩
      · intro hf
        obtain ⟨hb1, hb2, hb3⟩ := hffalse hf
        refine ⟨hb1, ?_, hb3⟩
        intro t ht hrc
        rcases List.mem_cons.mp ht with hv | hv
        · subst hv
          by_cases h1 : pred.getD (headOf adj t) none = none
          · by_cases h2 : headOf adj t = net.source
            · exact Or.inl h2
            · exact absurd ⟨h1, hrc, h2⟩ hg
          · right
            rcases hM : pred.getD (headOf adj t) none with _ | s0
            · exact absurd hM h1
            · rw [hmono (headOf adj t) s0 hM]
              simp
        · exact hb2 t hv hrc

/-! ## BFS worklist invariant and loop specification -/

theorem nodup_length_le {l : List Nat} {n : Nat} (h : l.Nodup)
    (hm : ∀ v ∈ l, v < n) : l.length ≤ n := by
  classical
  have h1 : l.toFinset.card = l.length := List.toFinset_card_of_nodup h
  have h2 : l.toFinset ⊆ Finset.range n := by
    intro v hv
    rw [Finset.mem_range]
    exact hm v (List.mem_toFinset.mp hv)
  have h3 := Finset.card_le_card h2
  rw [h1, Finset.card_range] at h3
  exact h3

theorem nodup_get?_inj {l : List Nat} (h : l.Nodup) {i j v : Nat}
    (hi : l.get? i = some v) (hj : l.get? j = some v) : i = j := by
  rw [List.get?_eq_getElem?, List.getElem?_eq_some] at hi hj
  obtain ⟨hi1, hi2⟩ := hi
  obtain ⟨hj1, hj2⟩ := hj
  exact (List.Nodup.getElem_inj_iff h).mp (hi2.trans hj2.symm)

theorem get?_append_cons (l1 l2 : List Nat) (x : Nat) :
    (l1 ++ x :: l2).get? l1.length = some x := by
  rw [List.get?_append_right (le_refl _)]
  simp

/-- Invariant of the BFS worklist: done lists the fully scanned vertices, todo
the pending ones; their concatenation is the discovery order, starting with the
source, without duplicates and without the sink; every mark records a residual
arc from an earlier-discovered vertex. -/
structure BfsInv (net : FlowNetwork) (adj : Array ResidualArc)
    (done todo : List Nat) (pred : Array (Option Nat)) : Prop where
  psize : pred.size = net.n
  source0 : (done ++ todo).get? 0 = some net.source
  nodup : (done ++ todo).Nodup
  mem_lt : ∀ v ∈ done ++ todo, v < net.n
  sink_not : net.sink ∉ done ++ todo
  src_unmarked : pred.getD net.source none = none
  marked_mem : ∀ v, pred.getD v none ≠ none → v ∈ done ++ todo
  mem_marked : ∀ v ∈ done ++ todo, v = net.source ∨ pred.getD v none ≠ none
  marked_good : ∀ v s, pred.getD v none = some s →
      s < 2 * net.m ∧ headOf adj s = v ∧ 0 < rc adj s ∧ v ≠ net.source ∧
      ∃ i j, i < j ∧ (done ++ todo).get? j = some v ∧
        (done ++ todo).get? i = some (tailOf adj s)
  scanned : ∀ u ∈ done, ∀ s ∈ slotsOf (ResidualNetwork.ofNetwork net).arcs_out_span u,
      0 < rc adj s → headOf adj s = net.source ∨ pred.getD (headOf adj s) none ≠ none

/-- Postcondition of a failing BFS: the sink is unmarked and the set of marked
vertices together with the source is closed under residual arcs. -/
def BfsFalsePost (net : FlowNetwork) (adj : Array ResidualArc)
    (pred : Array (Option Nat)) : Prop :=
  pred.size = net.n ∧
  pred.getD net.sink none = none ∧
  pred.getD net.source none = none ∧
  ∀ u, (u = net.source ∨ pred.getD u none ≠ none) → u < net.n →
    ∀ s ∈ slotsOf (ResidualNetwork.ofNetwork net).arcs_out_span u,
      0 < rc adj s → headOf adj s = net.source ∨ pred.getD (headOf adj s) none ≠ none

/-- Postcondition of a successful BFS: a duplicate-free discovery list starting
at the source indexes every marked vertex after its predecessor's tail, and the
sink's mark records a residual arc whose tail is in the list. -/
def BfsTruePost (net : FlowNetwork) (adj : Array ResidualArc)
    (pred : Array (Option Nat)) : Prop :=
  pred.size = net.n ∧
  pred.getD net.source none = none ∧
  ∃ L : List Nat,
    L.get? 0 = some net.source ∧ L.Nodup ∧ net.sink ∉ L ∧ (∀ v ∈ L, v < net.n) ∧
    L.length ≤ net.n ∧
    (∀ j v, L.get? j = some v → v ≠ net.source →
      ∃ s, pred.getD v none = some s ∧ s < 2 * net.m ∧ headOf adj s = v ∧
        0 < rc adj s ∧ ∃ i, i < j ∧ L.get? i = some (tailOf adj s)) ∧
    (∃ s, pred.getD net.sink none = some s ∧ s < 2 * net.m ∧
      headOf adj s = net.sink ∧ 0 < rc adj s ∧ ∃ i, L.get? i = some (tailOf adj s))

theorem bfs_loop_spec (net : FlowNetwork) (hval : net.Valid)
    {adj : Array ResidualArc} (hsh : Shape net adj) :
    ∀ (fuel : Nat) (done todo : List Nat) (pred : Array (Option Nat))
      (predT : Array (Option Nat)) (found : Bool),
      BfsInv net adj done todo pred →
      net.n + 1 ≤ fuel + done.length →
      bfs_loop adj (ResidualNetwork.ofNetwork net).arcs_out_span net.source net.sink
        fuel todo pred = (predT, found) →
      (found = true → BfsTruePost net adj predT) ∧
      (found = false → BfsFalsePost net adj predT) := by
  intro fuel
  induction fuel with
  | zero =>
    intro done todo pred predT found hinv hfuel _
    exfalso
    have h1 : done.length ≤ (done ++ todo).length := by
      rw [List.length_append]; omega
    have h2 : (done ++ todo).length ≤ net.n := nodup_length_le hinv.nodup hinv.mem_lt
    omega
  | succ fuel ih =>
    intro done todo pred predT found hinv hfuel heq
    cases todo with
    | nil =>
      -- worklist exhausted: BFS reports failure
      have h : predT = pred ∧ found = false := by
        unfold bfs_loop at heq
        exact ⟨congrArg (·.1) heq.symm, congrArg (·.2) heq.symm⟩
      obtain ⟨h1, h2⟩ := h
      subst h2
      refine ⟨fun hc => absurd hc (by simp), fun _ => ?_⟩
      rw [h1]
      have hsink_unmarked : pred.getD net.sink none = none := by
        by_contra hc
        exact hinv.sink_not (hinv.marked_mem net.sink hc)
      refine ⟨hinv.psize, hsink_unmarked, hinv.src_unmarked, ?_⟩
      intro u hu hun s hs hrc
      have humem : u ∈ done ++ ([] : List Nat) := by
        rcases hu with hu | hu
        · subst hu
          exact List.mem_iff_get?.mpr ⟨0, hinv.source0⟩
        · exact hinv.marked_mem u hu
      rw [List.append_nil] at humem
      exact hinv.scanned u humem s hs hrc
    | cons u rest =>
      have humem : u ∈ done ++ u :: rest := by
        exact List.mem_iff_get?.mpr ⟨done.length, get?_append_cons done rest u⟩
      have hult : u < net.n := hinv.mem_lt u humem
      have hslotfacts : ∀ s ∈ slotsOf (ResidualNetwork.ofNetwork net).arcs_out_span u,
          s < 2 * net.m ∧ tailOf adj s = u ∧ headOf adj s < net.n := by
        intro s hs
        obtain ⟨a, b, c, _⟩ := mem_slotsOf_facts net hval hsh hult hs
        exact ⟨a, b, c⟩
      rcases hscan : bfs_scan adj net.source net.sink
          (slotsOf (ResidualNetwork.ofNetwork net).arcs_out_span u) pred rest with
        ⟨pred2, queue2, found2⟩
      obtain ⟨delta, hq, hsz, hmono, hnew, hnd, hdf, hftrue, hffalse⟩ :=
        bfs_scan_spec net adj u _ pred rest pred2 queue2 found2 hscan hslotfacts hinv.psize
      have hsrc2 : pred2.getD net.source none = none := by
        by_cases hch : pred2.getD net.source none = pred.getD net.source none
        · rw [hch]; exact hinv.src_unmarked
        · exact absurd rfl (hnew net.source hch).2.1
      cases found2 with
      | true =>
        -- sink found: the loop stops at once
        have h : predT = pred2 ∧ found = true := by
          unfold bfs_loop at heq
          rw [hscan] at heq
          exact ⟨congrArg (·.1) heq.symm, congrArg (·.2) heq.symm⟩
        obtain ⟨h1, h2⟩ := h
        subst h2
        refine ⟨fun _ => ?_, fun hc => absurd hc (by simp)⟩
        rw [h1]
        refine ⟨by rw [hsz]; exact hinv.psize, hsrc2, done ++ u :: rest,
          hinv.source0, hinv.nodup, hinv.sink_not, hinv.mem_lt,
          nodup_length_le hinv.nodup hinv.mem_lt, ?_, ?_⟩
        · intro j v hj hvs
          rcases hinv.mem_marked v (List.mem_iff_get?.mpr ⟨j, hj⟩) with hc | hc
          · exact absurd hc hvs
          · rcases hM : pred.getD v none with _ | s0
            · exact absurd hM hc
            · obtain ⟨m1, m2, m3, _, i0, j0, hij0, hj0, hi0⟩ := hinv.marked_good v s0 hM
              have hjj : j0 = j := nodup_get?_inj hinv.nodup hj0 hj
              subst hjj
              exact ⟨s0, hmono v s0 hM, m1, m2, m3, i0, hij0, hi0⟩
        · obtain ⟨s, hsmem, hsink2, hh, hrc, htl, hslt, _⟩ := hftrue rfl
          exact ⟨s, hsink2, hslt, hh, hrc, done.length,
            by rw [htl]; exact get?_append_cons done rest u⟩
      | false =>
        -- vertex fully scanned: continue with the enlarged worklist
        have heq2 : bfs_loop adj (ResidualNetwork.ofNetwork net).arcs_out_span
            net.source net.sink fuel queue2 pred2 = (predT, found) := by
          unfold bfs_loop at heq
          rw [hscan] at heq
          exact heq
        obtain ⟨hb1, hb2, hb3⟩ := hffalse rfl
        -- the new discovery list
        have hL : done ++ [u] ++ queue2 = (done ++ u :: rest) ++ delta := by
          rw [hq]
          simp
        have hdis : ∀ w ∈ delta, w ∉ done ++ u :: rest := by
          intro w hw hmem
          obtain ⟨w1, w2, w3, w4, w5⟩ := hdf w hw
          rcases hinv.mem_marked w hmem with hc | hc
          · exact w1 hc
          · exact hc w4
        have hnodup2 : (done ++ [u] ++ queue2).Nodup := by
          rw [hL, List.nodup_append]
          exact ⟨hinv.nodup, hnd, fun w hw hwd => hdis w hwd hw⟩
        have hinv2 : BfsInv net adj (done ++ [u]) queue2 pred2 := by
          refine ⟨by rw [hsz]; exact hinv.psize, ?_, hnodup2, ?_, ?_, hsrc2, ?_, ?_, ?_, ?_⟩
          · rw [hL, List.get?_append (by
              have := List.get?_eq_some.mp hinv.source0
              exact this.1)]
            exact hinv.source0
          · intro v hv
            rw [hL] at hv
            rcases List.mem_append.mp hv with hc | hc
            · exact hinv.mem_lt v hc
            · exact (hdf v hc).2.2.1
          · rw [hL]
            intro hc
            rcases List.mem_append.mp hc with hc2 | hc2
            · exact hinv.sink_not hc2
            · exact (hdf net.sink hc2).2.1 rfl
          · intro v hv
            rw [hL]
            rcases hb3 v hv with hc | hc
            · exact List.mem_append.mpr (Or.inl (hinv.marked_mem v hc))
            · exact List.mem_append.mpr (Or.inr hc)
          · intro v hv
            rw [hL] at hv
            rcases List.mem_append.mp hv with hc | hc
            · rcases hinv.mem_marked v hc with hc2 | hc2
              · exact Or.inl hc2
              · right
                rcases hM : pred.getD v none with _ | s0
                · exact absurd hM hc2
                · rw [hmono v s0 hM]
                  simp
            · exact Or.inr (hdf v hc).2.2.2.2
          · intro v s hv
            by_cases hch : pred2.getD v none = pred.getD v none
            · rw [hch] at hv
              obtain ⟨m1, m2, m3, m4, i0, j0, hij0, hj0, hi0⟩ := hinv.marked_good v s hv
              refine ⟨m1, m2, m3, m4, i0, j0, hij0, ?_, ?_⟩
              · rw [hL, List.get?_append (List.get?_eq_some.mp hj0).1]
                exact hj0
              · rw [hL, List.get?_append (List.get?_eq_some.mp hi0).1]
                exact hi0
            · obtain ⟨hn1, hn2, hn3, t, htmem, ht2, ht3, ht4, ht5, ht6⟩ := hnew v hch
              have hts : t = s := by
                rw [hv] at ht2
                exact (Option.some_inj.mp ht2).symm
              subst hts
              have hvdelta : v ∈ delta := by
                rcases hb3 v (by rw [hv]; simp) with hc | hc
                · exact absurd hn1 hc
                · exact hc
              obtain ⟨p, hp⟩ := List.mem_iff_get?.mp hvdelta
              refine ⟨ht6, ht3, ht4, hn2, done.length,
                (done ++ u :: rest).length + p, ?_, ?_, ?_⟩
              · rw [List.length_append]
                simp
                omega
              · rw [hL, List.get?_append_right (by omega)]
                rw [show (done ++ u :: rest).length + p - (done ++ u :: rest).length
                  = p by omega]
                exact hp
              · rw [hL, List.get?_append
                  (by rw [List.length_append, List.length_cons]; omega), ht5]
                exact get?_append_cons done rest u
          · intro w hw s hs hrc
            rcases List.mem_append.mp hw with hc | hc
            · rcases hinv.scanned w hc s hs hrc with hc2 | hc2
              · exact Or.inl hc2
              · right
                rcases hM : pred.getD (headOf adj s) none with _ | s0
                · exact absurd hM hc2
                · rw [hmono _ s0 hM]
                  simp
            · have hwu : w = u := by
                rcases List.mem_singleton.mp hc with h
                exact h
              subst hwu
              exact hb2 s hs hrc
        have hfuel2 : net.n + 1 ≤ fuel + (done ++ [u]).length := by
          rw [List.length_append]
          simp
          omega
        exact ih (done ++ [u]) queue2 pred2 predT found hinv2 hfuel2 heq2

/-! ## Specification of one full BFS call -/

theorem bfs_find_augmenting_path_spec (net : FlowNetwork) (hval : net.Valid)
    {adj : Array ResidualArc} (hsh : Shape net adj)
    {predT : Array (Option Nat)} {found : Bool}
    (heq : bfs_find_augmenting_path net (ResidualNetwork.ofNetwork net).arcs_out_span adj
      = (predT, found)) :
    (found = true → BfsTruePost net adj predT) ∧
    (found = false → BfsFalsePost net adj predT) := by
  have hinv : BfsInv net adj [] [net.source] (Array.mkArray net.n (none : Option Nat)) := by
    refine ⟨by simp, by simp, by simp, ?_, ?_, ?_, ?_, ?_, ?_, ?_⟩
    · intro v hv
      simp at hv
      rw [hv]
      exact hval.2.1
    · simp
      exact fun hc => hval.2.2.2.1 hc.symm
    · by_cases h : net.source < net.n
      · rw [Array.getD_mkArray _ _ _ _ h]
      · rw [Array.getD_oob _ _ _ (by simp; omega)]
    · intro v hv
      exfalso
      by_cases h : v < net.n
      · rw [Array.getD_mkArray _ _ _ _ h] at hv
        exact hv rfl
      · rw [Array.getD_oob _ _ _ (by simp; omega)] at hv
        exact hv rfl
    · intro v hv
      simp at hv
      exact Or.inl hv
    · intro v s hv
      exfalso
      by_cases h : v < net.n
      · rw [Array.getD_mkArray _ _ _ _ h] at hv
        exact absurd hv (by simp)
      · rw [Array.getD_oob _ _ _ (by simp; omega)] at hv
        exact absurd hv (by simp)
    · intro u hu
      exact absurd hu (List.not_mem_nil u)
  exact bfs_loop_spec net hval hsh (net.n + 1) [] [net.source] _ predT found hinv
    (by simp) heq

/-! ## Predecessor chains and the path walk -/

/-- A chain of arena slots leading from vertex v back to src: each slot's head is
the previous vertex, its tail the next. -/
def ChainTo (adj : Array ResidualArc) : List Nat → Nat → Nat → Prop
  | [], v, src => v = src
  | s :: rest, v, src => headOf adj s = v ∧ ChainTo adj rest (tailOf adj s) src

/-- Vertices visited by a chain, in order. -/
def chainVerts (adj : Array ResidualArc) (P : List Nat) (v : Nat) : List Nat :=
  v :: P.map (tailOf adj)

theorem chain_src_mem (adj : Array ResidualArc) :
    ∀ (P : List Nat) (v src : Nat), ChainTo adj P v src → src ∈ chainVerts adj P v := by
  intro P
  induction P with
  | nil =>
    intro v src h
    rw [show v = src from h]
    exact List.mem_cons_self _ _
  | cons s rest ih =>
    intro v src h
    have h2 := ih (tailOf adj s) src h.2
    unfold chainVerts at h2 ⊢
    simp only [List.map_cons]
    rcases List.mem_cons.mp h2 with hc | hc
    · exact List.mem_cons_of_mem _ (by rw [hc]; exact List.mem_cons_self _ _)
    · exact List.mem_cons_of_mem _ (List.mem_cons_of_mem _ hc)

theorem chain_head_mem (adj : Array ResidualArc) :
    ∀ (P : List Nat) (v src : Nat), ChainTo adj P v src →
      ∀ t ∈ P, headOf adj t ∈ chainVerts adj P v := by
  intro P
  induction P with
  | nil =>
    intro v src _ t ht
    exact absurd ht (List.not_mem_nil t)
  | cons s rest ih =>
    intro v src h t ht
    rcases List.mem_cons.mp ht with hc | hc
    · subst hc
      rw [h.1]
      exact List.mem_cons_self _ _
    · have h2 := ih (tailOf adj s) src h.2 t hc
      unfold chainVerts at h2 ⊢
      simp only [List.map_cons]
      rcases List.mem_cons.mp h2 with hd | hd
      · exact List.mem_cons_of_mem _ (by rw [hd]; exact List.mem_cons_self _ _)
      · exact List.mem_cons_of_mem _ (List.mem_cons_of_mem _ hd)

/-- On a duplicate-free chain no slot's head is the chain's final vertex. -/
theorem chain_head_ne_src (adj : Array ResidualArc) :
    ∀ (P : List Nat) (v src : Nat), ChainTo adj P v src →
      (chainVerts adj P v).Nodup → ∀ t ∈ P, headOf adj t ≠ src := by
  intro P
  induction P with
  | nil =>
    intro v src _ _ t ht
    exact absurd ht (List.not_mem_nil t)
  | cons s rest ih =>
    intro v src h hnd t ht
    have hnd' : (v :: ((s :: rest).map (tailOf adj))).Nodup := hnd
    have hvnotin : v ∉ chainVerts adj rest (tailOf adj s) := by
      have h1 := (List.nodup_cons.mp hnd').1
      intro hc
      exact h1 (by simpa [chainVerts, List.map_cons] using hc)
    have hvne : v ≠ src := by
      intro hc
      subst hc
      exact hvnotin (chain_src_mem adj rest (tailOf adj s) v h.2)
    rcases List.mem_cons.mp ht with hc | hc
    · subst hc
      rw [h.1]
      exact hvne
    · have hnd2 : (chainVerts adj rest (tailOf adj s)).Nodup := (List.nodup_cons.mp hnd').2
      exact ih (tailOf adj s) src h.2 hnd2 t hc

/-- A nonempty chain contains a slot whose tail is the final vertex. -/
theorem chain_last_tail (adj : Array ResidualArc) :
    ∀ (P : List Nat) (v src : Nat), ChainTo adj P v src → P ≠ [] →
      ∃ s ∈ P, tailOf adj s = src := by
  intro P
  induction P with
  | nil => intro v src _ hne; exact absurd rfl hne
  | cons s rest ih =>
    intro v src h _
    rcases hrest : rest with _ | ⟨t, rest2⟩
    · rw [hrest] at h
      exact ⟨s, List.mem_cons_self _ _, h.2⟩
    · rw [← hrest]
      have h2 := ih (tailOf adj s) src h.2 (by rw [hrest]; simp)
      obtain ⟨t0, ht0, htail⟩ := h2
      exact ⟨t0, List.mem_cons_of_mem _ ht0, htail⟩

/-- Walking the predecessor chain from any vertex of the discovery list yields a
chain of residual arcs to the source through distinct vertices. -/
theorem walk_from_index (net : FlowNetwork) {adj : Array ResidualArc}
    {pred : Array (Option Nat)} {L : List Nat}
    (hsrc_unmarked : pred.getD net.source none = none)
    (hnodupL : L.Nodup)
    (hgood : ∀ j v, L.get? j = some v → v ≠ net.source →
      ∃ s, pred.getD v none = some s ∧ s < 2 * net.m ∧ headOf adj s = v ∧
        0 < rc adj s ∧ ∃ i, i < j ∧ L.get? i = some (tailOf adj s)) :
    ∀ j : Nat, ∀ v, L.get? j = some v → ∀ fuel, j + 1 ≤ fuel →
      ChainTo adj (walk_path adj pred fuel v) v net.source ∧
      (∀ s ∈ walk_path adj pred fuel v, s < 2 * net.m ∧ 0 < rc adj s) ∧
      (chainVerts adj (walk_path adj pred fuel v) v).Nodup ∧
      (∀ w ∈ chainVerts adj (walk_path adj pred fuel v) v,
        ∃ i, i ≤ j ∧ L.get? i = some w) := by
  intro j
  induction j using Nat.strong_induction_on with
  | _ j ih =>
    intro v hj fuel hfuel
    rcases fuel with _ | fuel
    · omega
    by_cases hv : v = net.source
    · subst hv
      have hwalk : walk_path adj pred (fuel + 1) net.source = [] := by
        unfold walk_path
        rw [hsrc_unmarked]
      rw [hwalk]
      refine ⟨rfl, fun s hs => absurd hs (List.not_mem_nil s), by simp [chainVerts], ?_⟩
      intro w hw
      have : w = net.source := by simpa [chainVerts] using hw
      subst this
      exact ⟨j, le_refl j, hj⟩
    · obtain ⟨s, hps, hslt, hhead, hrc, i, hij, hi⟩ := hgood j v hj hv
      have hwalk : walk_path adj pred (fuel + 1) v
          = s :: walk_path adj pred fuel (tailOf adj s) := by
        show (match pred.getD v none with
          | none => []
          | some s => s :: walk_path adj pred fuel (tailOf adj s)) = _
        rw [hps]
      obtain ⟨c1, c2, c3, c4⟩ := ih i hij (tailOf adj s) hi fuel (by omega)
      rw [hwalk]
      refine ⟨⟨hhead, c1⟩, ?_, ?_, ?_⟩
      · intro t ht
        rcases List.mem_cons.mp ht with hc | hc
        · subst hc
          exact ⟨hslt, hrc⟩
        · exact c2 t hc
      · unfold chainVerts
        simp only [List.map_cons]
        refine List.Nodup.cons ?_ c3
        intro hmem
        obtain ⟨i0, hi0le, hi0⟩ := c4 v hmem
        have : i0 = j := nodup_get?_inj hnodupL hi0 hj
        omega
      · intro w hw
        unfold chainVerts at hw
        simp only [List.map_cons] at hw
        rcases List.mem_cons.mp hw with hc | hc
        · subst hc
          exact ⟨j, le_refl j, hj⟩
        · obtain ⟨i0, hi0le, hi0⟩ := c4 w hc
          exact ⟨i0, by omega, hi0⟩

/-! ## Pushing along a path: accounting lemmas -/

/-- Side conditions under which pushing f on every slot of P is exact Nat
arithmetic: slots are in range, carry at least f residual capacity, are pairwise
distinct and never each other's twins. -/
structure PathOk (net : FlowNetwork) (adj : Array ResidualArc) (f : Nat)
    (P : List Nat) : Prop where
  bound : ∀ s ∈ P, s < 2 * net.m
  resid : ∀ s ∈ P, f ≤ rc adj s
  nodupP : P.Nodup
  nottwin : ∀ s ∈ P, ∀ t ∈ P, s ≠ twinOf adj t

theorem tailOf_congr {adj adj2 : Array ResidualArc} (h : SameShapeArr adj adj2)
    (s : Nat) : tailOf adj2 s = tailOf adj s := by
  unfold tailOf
  rw [(h.2 s).2, (h.2 _).1]

theorem chainTo_congr {adj adj2 : Array ResidualArc} (h : SameShapeArr adj adj2) :
    ∀ (P : List Nat) (v src : Nat), ChainTo adj P v src → ChainTo adj2 P v src := by
  intro P
  induction P with
  | nil => intro v src hc; exact hc
  | cons s rest ih =>
    intro v src hc
    refine ⟨by rw [(h.2 s).1]; exact hc.1, ?_⟩
    rw [tailOf_congr h s]
    exact ih (tailOf adj s) src hc.2

theorem push_path_sameShape (f : Nat) :
    ∀ (P : List Nat) (adj : Array ResidualArc), SameShapeArr adj (push_path adj f P) := by
  intro P
  induction P with
  | nil => intro adj; exact SameShapeArr.refl adj
  | cons s rest ih =>
    intro adj
    exact sameShapeArr_trans (push_flow_sameShape adj s f) (ih (push_flow adj s f))

theorem pathOk_tail_push (net : FlowNetwork) {adj : Array ResidualArc} {f s : Nat}
    {P : List Nat} (hok : PathOk net adj f (s :: P)) :
    PathOk net (push_flow adj s f) f P := by
  have hsh := push_flow_sameShape adj s f
  have hmem : s ∈ s :: P := List.mem_cons_self s P
  refine ⟨fun t ht => hok.bound t (List.mem_cons_of_mem s ht), ?_,
    (List.nodup_cons.mp hok.nodupP).2, ?_⟩
  · intro t ht
    have h1 : t ≠ s := fun hc => (List.nodup_cons.mp hok.nodupP).1 (hc ▸ ht)
    have h2 : t ≠ twinOf adj s := hok.nottwin t (List.mem_cons_of_mem s ht) s hmem
    rw [rc_push_flow_other adj s f t h1 h2]
    exact hok.resid t (List.mem_cons_of_mem s ht)
  · intro a ha b hb
    rw [(hsh.2 b).2]
    exact hok.nottwin a (List.mem_cons_of_mem s ha) b (List.mem_cons_of_mem s hb)

theorem rc_push_path_other (f : Nat) :
    ∀ (P : List Nat) (adj : Array ResidualArc) (x : Nat),
      (∀ s ∈ P, x ≠ s ∧ x ≠ twinOf adj s) →
      rc (push_path adj f P) x = rc adj x := by
  intro P
  induction P with
  | nil => intro adj x _; rfl
  | cons s rest ih =>
    intro adj x hx
    have h1 := hx s (List.mem_cons_self s rest)
    show rc (push_path (push_flow adj s f) f rest) x = rc adj x
    rw [ih (push_flow adj s f) x (by
      intro t ht
      have h2 := hx t (List.mem_cons_of_mem s ht)
      exact ⟨h2.1, by rw [((push_flow_sameShape adj s f).2 t).2]; exact h2.2⟩)]
    exact rc_push_flow_other adj s f x h1.1 h1.2

theorem rc_push_path_mem (net : FlowNetwork) (f : Nat) :
    ∀ (P : List Nat) (adj : Array ResidualArc), PathOk net adj f P →
      adj.size = 2 * net.m →
      ∀ s ∈ P, rc (push_path adj f P) s = rc adj s - f := by
  intro P
  induction P with
  | nil => intro adj _ _ s hs; exact absurd hs (List.not_mem_nil s)
  | cons t rest ih =>
    intro adj hok hsz s hs
    show rc (push_path (push_flow adj t f) f rest) s = rc adj s - f
    rcases List.mem_cons.mp hs with hc | hc
    · subst hc
      rw [rc_push_path_other f rest (push_flow adj s f) s (by
        intro r hr
        refine ⟨fun hc2 => (List.nodup_cons.mp hok.nodupP).1 (hc2 ▸ hr), ?_⟩
        rw [((push_flow_sameShape adj s f).2 r).2]
        exact hok.nottwin s hs r (List.mem_cons_of_mem s hr))]
      exact rc_push_flow_self adj s f (by rw [hsz]; exact hok.bound s hs)
        (fun hc => hok.nottwin s hs s hs hc.symm)
    · rw [ih (push_flow adj t f) (pathOk_tail_push net hok)
        (by rw [size_push_flow]; exact hsz) s hc,
        rc_push_flow_other adj t f s
          (fun hc2 => (List.nodup_cons.mp hok.nodupP).1 (hc2 ▸ hc))
          (hok.nottwin s (List.mem_cons_of_mem t hc) t (List.mem_cons_self t rest))]

theorem validReach_push_path (net : FlowNetwork) (f : Nat) (hf : 0 < f) :
    ∀ (P : List Nat) (adj : Array ResidualArc), PathOk net adj f P →
      adj.size = 2 * net.m →
      ValidReach net adj (push_path adj f P) := by
  intro P
  induction P with
  | nil => intro adj _ _; exact ValidReach.refl
  | cons s rest ih =>
    intro adj hok hsz
    have hstep : ValidReach net adj (push_flow adj s f) :=
      ValidReach.snoc adj s f ValidReach.refl
        (by rw [hsz]; exact hok.bound s (List.mem_cons_self s rest)) hf
        (hok.resid s (List.mem_cons_self s rest))
    exact validReach_trans hstep (ih (push_flow adj s f) (pathOk_tail_push net hok)
      (by rw [size_push_flow]; exact hsz))

theorem excess_push_path (net : FlowNetwork) (hval : net.Valid) (f : Nat) :
    ∀ (P : List Nat) (adj : Array ResidualArc) (vtop : Nat),
      Shape net adj → PathOk net adj f P → ChainTo adj P vtop net.source →
      ∀ v, excess net (flowOf net (push_path adj f P)) v
        = excess net (flowOf net adj) v
          + (if vtop = v then (f : Int) else 0)
          - (if net.source = v then (f : Int) else 0) := by
  intro P
  induction P with
  | nil =>
    intro adj vtop hsh hok hchain v
    have hv : vtop = net.source := hchain
    subst hv
    show excess net (flowOf net adj) v = _
    ring
  | cons s rest ih =>
    intro adj vtop hsh hok hchain v
    have hsmem : s ∈ s :: rest := List.mem_cons_self s rest
    have hshape2 : Shape net (push_flow adj s f) :=
      shape_of_sameShape hsh (push_flow_sameShape adj s f)
    have hchain2 : ChainTo (push_flow adj s f) rest (tailOf adj s) net.source := by
      have := chainTo_congr (push_flow_sameShape adj s f) rest (tailOf adj s)
        net.source hchain.2
      exact this
    show excess net (flowOf net (push_path (push_flow adj s f) f rest)) v = _
    rw [ih (push_flow adj s f) (tailOf adj s) hshape2 (pathOk_tail_push net hok) hchain2 v,
      excess_push net hval hsh (hok.bound s hsmem) (hok.resid s hsmem) v,
      hchain.1]
    ring

/-- Building the PathOk bundle from a duplicate-free chain. -/
theorem chain_pathOk (net : FlowNetwork) (hval : net.Valid) (f : Nat) :
    ∀ (P : List Nat) (adj : Array ResidualArc) (vtop : Nat),
      Shape net adj → ChainTo adj P vtop net.source →
      (chainVerts adj P vtop).Nodup →
      (∀ s ∈ P, s < 2 * net.m ∧ f ≤ rc adj s) →
      PathOk net adj f P := by
  intro P
  induction P with
  | nil =>
    intro adj vtop _ _ _ _
    exact ⟨fun s hs => absurd hs (List.not_mem_nil s),
      fun s hs => absurd hs (List.not_mem_nil s), List.nodup_nil,
      fun s hs => absurd hs (List.not_mem_nil s)⟩
  | cons s rest ih =>
    intro adj vtop hsh hchain hnd hfacts
    have hnd' : (vtop :: ((s :: rest).map (tailOf adj))).Nodup := hnd
    have hvnotin : vtop ∉ chainVerts adj rest (tailOf adj s) := by
      have h1 := (List.nodup_cons.mp hnd').1
      intro hc
      exact h1 (by simpa [chainVerts, List.map_cons] using hc)
    have hndrest : (chainVerts adj rest (tailOf adj s)).Nodup :=
      (List.nodup_cons.mp hnd').2
    have ihok := ih adj (tailOf adj s) hsh hchain.2 hndrest
      (fun t ht => hfacts t (List.mem_cons_of_mem s ht))
    have hslt : s < 2 * net.m := (hfacts s (List.mem_cons_self s rest)).1
    have htwin := twinOf_involution net hval hsh hslt
    refine ⟨fun t ht => (hfacts t ht).1, fun t ht => (hfacts t ht).2, ?_, ?_⟩
    · refine List.Nodup.cons ?_ ihok.nodupP
      intro hmem
      have hhd := chain_head_mem adj rest (tailOf adj s) net.source hchain.2 s hmem
      rw [hchain.1] at hhd
      exact hvnotin hhd
    · intro a ha b hb
      rcases List.mem_cons.mp ha with ha2 | ha2 <;> rcases List.mem_cons.mp hb with hb2 | hb2
      · subst ha2; subst hb2
        exact fun hc => htwin.2.2 hc.symm
      · subst ha2
        intro hc
        -- head of twin b is the tail of b, which lies among the rest's tails
        have h1 : headOf adj a = tailOf adj b := by rw [hc]; rfl
        rw [hchain.1] at h1
        apply hvnotin
        unfold chainVerts
        rw [h1]
        exact List.mem_cons_of_mem _ (List.mem_map_of_mem (tailOf adj) hb2)
      · subst hb2
        intro hc
        have hblt : a < 2 * net.m := (hfacts a (List.mem_cons_of_mem b ha2)).1
        -- the tail of a is then the head of b, the chain's top
        have h1 : tailOf adj a = headOf adj b := by
          unfold tailOf
          rw [hc, htwin.1]
        rw [hchain.1] at h1
        apply hvnotin
        unfold chainVerts
        rw [← h1]
        exact List.mem_cons_of_mem _ (List.mem_map_of_mem (tailOf adj) ha2)
      · exact ihok.nottwin a ha2 b hb2

/-- Pushing a positive amount along a path ending at the source strictly
decreases the total residual capacity out of the source. -/
theorem sourceOut_push_path_dec (net : FlowNetwork) (hval : net.Valid)
    {adj : Array ResidualArc} (hsh : Shape net adj) {f : Nat} {P : List Nat}
    {vtop : Nat} (hok : PathOk net adj f P) (hf : 0 < f)
    (hchain : ChainTo adj P vtop net.source)
    (hnd : (chainVerts adj P vtop).Nodup) (hPne : P ≠ []) :
    sourceOutRC (ResidualNetwork.ofNetwork net).arcs_out_span (push_path adj f P)
        net.source + 1
      ≤ sourceOutRC (ResidualNetwork.ofNetwork net).arcs_out_span adj net.source := by
  obtain ⟨sstar, hsmem, hstail⟩ := chain_last_tail adj P vtop net.source hchain hPne
  have hslt : sstar < 2 * net.m := hok.bound sstar hsmem
  have hsrc_lt : net.source < net.n := hval.2.1
  have hsin : sstar ∈ slotsOf (ResidualNetwork.ofNetwork net).arcs_out_span net.source := by
    rw [mem_slotsOf net hval hsrc_lt]
    have h := (slot_owner net hval hsh hslt).1
    rw [hstail] at h
    exact h
  -- pointwise: no slot out of the source gains residual capacity
  have hpt : ∀ x ∈ slotsOf (ResidualNetwork.ofNetwork net).arcs_out_span net.source,
      rc (push_path adj f P) x ≤ rc adj x := by
    intro x hx
    by_cases hxP : x ∈ P
    · rw [rc_push_path_mem net f P adj hok hsh.1 x hxP]
      omega
    · rw [rc_push_path_other f P adj x ?_]
      intro t ht
      refine ⟨fun hc => hxP (hc ▸ ht), ?_⟩
      intro hc
      -- x in the source's range, yet equal to the twin of a path slot
      have htlt : t < 2 * net.m := hok.bound t ht
      have htw := twinOf_involution net hval hsh htlt
      have hxlt : x < 2 * net.m := by rw [hc]; exact htw.2.1
      have hxowner := (slot_owner net hval hsh hxlt).1
      have hxin : SlotIn net x net.source := (mem_slotsOf net hval hsrc_lt).mp hx
      have hxtail : tailOf adj x = net.source := SlotIn.unique net hxowner hxin
      have hhead : headOf adj t = net.source := by
        rw [← hxtail, hc]
        unfold tailOf
        rw [htw.1]
      exact chain_head_ne_src adj P vtop net.source hchain hnd t ht hhead
  -- the last slot loses at least one unit
  have hstar : rc (push_path adj f P) sstar + 1 ≤ rc adj sstar := by
    rw [rc_push_path_mem net f P adj hok hsh.1 sstar hsmem]
    have := hok.resid sstar hsmem
    omega
  obtain ⟨l1, l2, hsplit⟩ := List.append_of_mem hsin
  unfold sourceOutRC
  rw [hsplit]
  rw [List.map_append, List.map_cons, List.sum_append, List.sum_cons,
    List.map_append, List.map_cons, List.sum_append, List.sum_cons]
  have h1 : ((l1.map (rc (push_path adj f P))).sum ≤ (l1.map (rc adj)).sum) :=
    List.sum_le_sum (fun x hx => hpt x (by rw [hsplit]; exact List.mem_append_left _ hx))
  have h2 : ((l2.map (rc (push_path adj f P))).sum ≤ (l2.map (rc adj)).sum) :=
    List.sum_le_sum (fun x hx => hpt x (by
      rw [hsplit]
      exact List.mem_append_right _ (List.mem_cons_of_mem _ hx)))
  omega

/-! ## The augmenting path of a successful BFS and the Edmonds-Karp loop -/

theorem foldl_min_le_init (adj : Array ResidualArc) :
    ∀ (l : List Nat) (a : Nat), l.foldl (fun acc t => Nat.min acc (rc adj t)) a ≤ a := by
  intro l
  induction l with
  | nil => intro a; exact le_refl a
  | cons t rest ih =>
    intro a
    exact le_trans (ih (Nat.min a (rc adj t))) (Nat.min_le_left _ _)

theorem foldl_min_le_mem (adj : Array ResidualArc) :
    ∀ (l : List Nat) (a t : Nat), t ∈ l →
      l.foldl (fun acc t => Nat.min acc (rc adj t)) a ≤ rc adj t := by
  intro l
  induction l with
  | nil => intro a t ht; exact absurd ht (List.not_mem_nil t)
  | cons u rest ih =>
    intro a t ht
    rcases List.mem_cons.mp ht with hc | hc
    · subst hc
      exact le_trans (foldl_min_le_init adj rest _) (Nat.min_le_right _ _)
    · exact ih _ t hc

theorem foldl_min_pos (adj : Array ResidualArc) :
    ∀ (l : List Nat) (a : Nat), 0 < a → (∀ t ∈ l, 0 < rc adj t) →
      0 < l.foldl (fun acc t => Nat.min acc (rc adj t)) a := by
  intro l
  induction l with
  | nil => intro a ha _; exact ha
  | cons u rest ih =>
    intro a ha hl
    exact ih _ (lt_min ha (hl u (List.mem_cons_self u rest)))
      (fun t ht => hl t (List.mem_cons_of_mem u ht))

theorem bottleneck_le_mem (adj : Array ResidualArc) {P : List Nat} {t : Nat}
    (ht : t ∈ P) : bottleneck adj P ≤ rc adj t := by
  rcases P with _ | ⟨s, rest⟩
  · exact absurd ht (List.not_mem_nil t)
  · show (rest.foldl (fun acc t => Nat.min acc (rc adj t)) (rc adj s)) ≤ rc adj t
    rcases List.mem_cons.mp ht with hc | hc
    · subst hc
      exact foldl_min_le_init adj rest _
    · exact foldl_min_le_mem adj rest _ t hc

theorem bottleneck_pos (adj : Array ResidualArc) {P : List Nat}
    (hne : P ≠ []) (hpos : ∀ t ∈ P, 0 < rc adj t) : 0 < bottleneck adj P := by
  rcases P with _ | ⟨s, rest⟩
  · exact absurd rfl hne
  · show 0 < rest.foldl (fun acc t => Nat.min acc (rc adj t)) (rc adj s)
    exact foldl_min_pos adj rest _ (hpos s (List.mem_cons_self s rest))
      (fun t ht => hpos t (List.mem_cons_of_mem s ht))

/-- From a successful BFS, the walked predecessor path is a duplicate-free chain
of residual arcs from the sink back to the source. -/
theorem augmenting_path_facts (net : FlowNetwork) (hval : net.Valid)
    {adj : Array ResidualArc} {pred : Array (Option Nat)}
    (hpost : BfsTruePost net adj pred) :
    ChainTo adj (walk_path adj pred (net.n + 1) net.sink) net.sink net.source ∧
    (∀ s ∈ walk_path adj pred (net.n + 1) net.sink, s < 2 * net.m ∧ 0 < rc adj s) ∧
    (chainVerts adj (walk_path adj pred (net.n + 1) net.sink) net.sink).Nodup ∧
    walk_path adj pred (net.n + 1) net.sink ≠ [] := by
  obtain ⟨hps, hsrcun, L, hL0, hLnd, hLsink, hLlt, hLlen, hgood, s0, hs0, hs0lt,
    hs0head, hs0rc, i0, hi0⟩ := hpost
  have hwalk : walk_path adj pred (net.n + 1) net.sink
      = s0 :: walk_path adj pred net.n (tailOf adj s0) := by
    show (match pred.getD net.sink none with
      | none => []
      | some s => s :: walk_path adj pred net.n (tailOf adj s)) = _
    rw [hs0]
  have hi0len : i0 < L.length := (List.get?_eq_some.mp hi0).1
  have hfuel : i0 + 1 ≤ net.n := by omega
  obtain ⟨c1, c2, c3, c4⟩ := walk_from_index net hsrcun hLnd hgood i0 (tailOf adj s0)
    hi0 net.n hfuel
  rw [hwalk]
  refine ⟨⟨hs0head, c1⟩, ?_, ?_, by simp⟩
  · intro t ht
    rcases List.mem_cons.mp ht with hc | hc
    · subst hc
      exact ⟨hs0lt, hs0rc⟩
    · exact c2 t hc
  · show (net.sink :: ((s0 :: walk_path adj pred net.n (tailOf adj s0)).map
      (tailOf adj))).Nodup
    simp only [List.map_cons]
    refine List.Nodup.cons ?_ c3
    intro hmem
    obtain ⟨i, _, hi⟩ := c4 net.sink (by
      show net.sink ∈ chainVerts adj (walk_path adj pred net.n (tailOf adj s0))
        (tailOf adj s0)
      exact hmem)
    exact hLsink (List.mem_iff_get?.mpr ⟨i, hi⟩)

/-- Invariant of the Edmonds-Karp main loop: the arena keeps its shape, pair sums
and valid-push reachability, the flow is conserved off the terminals, and the
accumulated value is the sink's excess. -/
def EKGood (net : FlowNetwork) (adj0 adj : Array ResidualArc) (mf : Nat) : Prop :=
  Shape net adj ∧ SumInv net adj ∧ ValidReach net adj0 adj ∧
  (∀ v, v ≠ net.source → v ≠ net.sink → excess net (flowOf net adj) v = 0) ∧
  excess net (flowOf net adj) net.sink = (mf : Int) ∧
  excess net (flowOf net adj) net.source = -(mf : Int)

theorem ekGood_init (net : FlowNetwork) (hval : net.Valid) :
    EKGood net (ResidualNetwork.ofNetwork net).adjlist
      (ResidualNetwork.ofNetwork net).adjlist 0 := by
  refine ⟨shape_ofNetwork net hval, sumInv_ofNetwork net hval, ValidReach.refl,
    fun v _ _ => excess_ofNetwork net hval v, ?_, ?_⟩
  · rw [excess_ofNetwork net hval]
    simp
  · rw [excess_ofNetwork net hval]
    simp

/-- One augmentation: push the bottleneck along the walked path. -/
theorem ek_augment (net : FlowNetwork) (hval : net.Valid)
    {adj0 adj : Array ResidualArc} {mf : Nat} (hgood : EKGood net adj0 adj mf)
    {pred : Array (Option Nat)} (hpost : BfsTruePost net adj pred) :
    EKGood net adj0
      (push_path adj (bottleneck adj (walk_path adj pred (net.n + 1) net.sink))
        (walk_path adj pred (net.n + 1) net.sink))
      (mf + bottleneck adj (walk_path adj pred (net.n + 1) net.sink)) ∧
    sourceOutRC (ResidualNetwork.ofNetwork net).arcs_out_span
        (push_path adj (bottleneck adj (walk_path adj pred (net.n + 1) net.sink))
          (walk_path adj pred (net.n + 1) net.sink)) net.source + 1
      ≤ sourceOutRC (ResidualNetwork.ofNetwork net).arcs_out_span adj net.source := by
  obtain ⟨hsh, hsum, hreach, hcons, hsink, hsrc⟩ := hgood
  obtain ⟨hchain, hfacts, hnd, hne⟩ := augmenting_path_facts net hval hpost
  set P := walk_path adj pred (net.n + 1) net.sink with hP
  set f := bottleneck adj P with hf
  have hfpos : 0 < f := bottleneck_pos adj hne (fun t ht => (hfacts t ht).2)
  have hok : PathOk net adj f P :=
    chain_pathOk net hval f P adj net.sink hsh hchain hnd
      (fun s hs => ⟨(hfacts s hs).1, bottleneck_le_mem adj hs⟩)
  have hreach2 : ValidReach net adj0 (push_path adj f P) :=
    validReach_trans hreach (validReach_push_path net f hfpos P adj hok hsh.1)
  have hsi := ValidReach.shape_sumInv hval
    (validReach_push_path net f hfpos P adj hok hsh.1) hsh hsum
  have hexc := excess_push_path net hval f P adj net.sink hsh hok hchain
  have hss : net.source ≠ net.sink := hval.2.2.2.1
  refine ⟨⟨hsi.1, hsi.2, hreach2, ?_, ?_, ?_⟩, ?_⟩
  · intro v hv1 hv2
    rw [hexc v, hcons v hv1 hv2, if_neg (fun hc => hv2 hc.symm),
      if_neg (fun hc => hv1 hc.symm)]
    ring
  · rw [hexc net.sink, hsink, if_pos rfl, if_neg hss]
    push_cast
    ring
  · rw [hexc net.source, hsrc, if_neg (fun hc => hss hc.symm), if_pos rfl]
    push_cast
    ring
  · exact sourceOut_push_path_dec net hval hsh hok hfpos hchain hnd hne

/-- The Edmonds-Karp loop runs to natural completion within its fuel: the final
state keeps the invariant and its BFS fails. -/
theorem ek_loop_spec (net : FlowNetwork) (hval : net.Valid)
    (adj0 : Array ResidualArc) :
    ∀ (fuel : Nat) (adj : Array ResidualArc) (mf : Nat)
      (adjT : Array ResidualArc) (mfT : Nat),
      EKGood net adj0 adj mf →
      sourceOutRC (ResidualNetwork.ofNetwork net).arcs_out_span adj net.source < fuel →
      ek_loop net (ResidualNetwork.ofNetwork net).arcs_out_span fuel adj mf = (adjT, mfT) →
      EKGood net adj0 adjT mfT ∧
      (bfs_find_augmenting_path net (ResidualNetwork.ofNetwork net).arcs_out_span adjT).2
        = false := by
  intro fuel
  induction fuel with
  | zero => intro adj mf adjT mfT _ hlt _; omega
  | succ fuel ih =>
    intro adj mf adjT mfT hgood hlt heq
    rcases hbfs : bfs_find_augmenting_path net
        (ResidualNetwork.ofNetwork net).arcs_out_span adj with ⟨pred, found⟩
    cases found with
    | false =>
      have h : adjT = adj ∧ mfT = mf := by
        unfold ek_loop at heq
        rw [hbfs] at heq
        exact ⟨congrArg (·.1) heq.symm, congrArg (·.2) heq.symm⟩
      obtain ⟨h1, h2⟩ := h
      refine ⟨by rw [h1, h2]; exact hgood, ?_⟩
      rw [h1, hbfs]
    | true =>
      have hpost : BfsTruePost net adj pred :=
        (bfs_find_augmenting_path_spec net hval hgood.1 hbfs).1 rfl
      have heq2 : ek_loop net (ResidualNetwork.ofNetwork net).arcs_out_span fuel
          (push_path adj (bottleneck adj (walk_path adj pred (net.n + 1) net.sink))
            (walk_path adj pred (net.n + 1) net.sink))
          (mf + bottleneck adj (walk_path adj pred (net.n + 1) net.sink))
          = (adjT, mfT) := by
        unfold ek_loop at heq
        rw [hbfs] at heq
        exact heq
      obtain ⟨hgood2, hdec⟩ := ek_augment net hval hgood hpost
      exact ih _ _ adjT mfT hgood2 (by omega) heq2

/-- Final state of Edmonds-Karp: invariant plus a failing BFS. -/
theorem ekFinal_spec (net : FlowNetwork) (hval : net.Valid) :
    EKGood net (ResidualNetwork.ofNetwork net).adjlist (ekFinal net).1 (ekFinal net).2 ∧
    (bfs_find_augmenting_path net (ResidualNetwork.ofNetwork net).arcs_out_span
      (ekFinal net).1).2 = false := by
  have heq : ek_loop net (ResidualNetwork.ofNetwork net).arcs_out_span
      (sourceOutRC (ResidualNetwork.ofNetwork net).arcs_out_span
        (ResidualNetwork.ofNetwork net).adjlist net.source + 1)
      (ResidualNetwork.ofNetwork net).adjlist 0
      = ((ekFinal net).1, (ekFinal net).2) := rfl
  exact ek_loop_spec net hval (ResidualNetwork.ofNetwork net).adjlist _ _ _ _ _
    (ekGood_init net hval) (by omega) heq


/-! ## Residual reachability, feasible flows, and max-flow optimality -/

/-- One residual step: an outgoing arc with positive residual capacity. -/
def resStep (net : FlowNetwork) (adj : Array ResidualArc) (u v : Nat) : Prop :=
  ∃ s ∈ slotsOf (ResidualNetwork.ofNetwork net).arcs_out_span u,
    headOf adj s = v ∧ 0 < rc adj s

/-- Residual reachability: reflexive-transitive closure of residual steps. -/
def ResReach (net : FlowNetwork) (adj : Array ResidualArc) : Nat → Nat → Prop :=
  Relation.ReflTransGen (resStep net adj)

/-- No augmenting path: the sink is not residually reachable from the source. -/
def NoAugPath (net : FlowNetwork) (adj : Array ResidualArc) : Prop :=
  ¬ ResReach net adj net.source net.sink

/-- A feasible conservative flow assignment on the original arcs. -/
def FeasibleFlow (net : FlowNetwork) (g : Nat → Nat) : Prop :=
  (∀ i, i < net.arcs.length → g i ≤ (arcAt net i).capacity) ∧
  (∀ v, v ≠ net.source → v ≠ net.sink → excess net g v = 0)

/-- Value of a flow assignment: net flow out of the source. -/
def flowValue (net : FlowNetwork) (g : Nat → Nat) : Int :=
  -excess net g net.source

/-- Total capacity of the arcs crossing a cut from inside to outside. -/
def cutCap (net : FlowNetwork) (S : Nat → Bool) : Int :=
  ∑ i ∈ Finset.range net.arcs.length,
    if S (arcAt net i).tail ∧ ¬ S (arcAt net i).head
    then ((arcAt net i).capacity : Int) else 0

/-- A residual-closed vertex set containing the source but not the sink blocks
every residual source-to-sink path. -/
theorem closed_noAugPath (net : FlowNetwork) {adj : Array ResidualArc}
    {S : Nat → Bool} (hSsrc : S net.source = true) (hSsink : S net.sink = false)
    (hclosed : ∀ u, S u = true →
      ∀ s ∈ slotsOf (ResidualNetwork.ofNetwork net).arcs_out_span u,
        0 < rc adj s → S (headOf adj s) = true) :
    NoAugPath net adj := by
  intro hreach
  have hstep : ∀ v, ResReach net adj net.source v → S v = true := by
    intro v hv
    induction hv with
    | refl => exact hSsrc
    | tail hseg hlast ih =>
      obtain ⟨s, hs, hhead, hrc⟩ := hlast
      rw [← hhead]
      exact hclosed _ ih s hs hrc
  have := hstep net.sink hreach
  rw [hSsink] at this
  exact absurd this (by simp)

/-- Excess summed over the source side of a cut reduces to the source's excess. -/
theorem sum_excess_cut (net : FlowNetwork) (hval : net.Valid) (g : Nat → Nat)
    (hcons : ∀ v, v ≠ net.source → v ≠ net.sink → excess net g v = 0)
    (S : Nat → Bool) (hSsrc : S net.source = true) (hSsink : S net.sink = false) :
    ∑ v ∈ (Finset.range net.n).filter (fun v => S v = true), excess net g v
      = excess net g net.source := by
  apply Finset.sum_eq_single_of_mem
  · rw [Finset.mem_filter, Finset.mem_range]
    exact ⟨hval.2.1, hSsrc⟩
  · intro v hv hne
    rw [Finset.mem_filter] at hv
    by_cases hsink : v = net.sink
    · subst hsink
      rw [hSsink] at hv
      exact absurd hv.2 (by simp)
    · exact hcons v hne hsink

/-- Interchange of summation: the cut-side excess sum seen arc by arc. -/
theorem sum_excess_interchange (net : FlowNetwork) (hval : net.Valid) (g : Nat → Nat)
    (S : Nat → Bool) :
    ∑ v ∈ (Finset.range net.n).filter (fun v => S v = true), excess net g v
      = ∑ i ∈ Finset.range net.arcs.length,
          ((if S (arcAt net i).head then (g i : Int) else 0)
            - (if S (arcAt net i).tail then (g i : Int) else 0)) := by
  unfold excess
  rw [Finset.sum_comm]
  apply Finset.sum_congr rfl
  intro i hi
  have hb := arc_bounds net hval (Finset.mem_range.mp hi)
  rw [Finset.sum_sub_distrib, Finset.sum_ite_eq, Finset.sum_ite_eq]
  simp [Finset.mem_filter, Finset.mem_range, hb.1, hb.2.1]

/-- Weak duality: any feasible conservative flow's value is at most the capacity
of any source-sink cut. -/
theorem flowValue_le_cutCap (net : FlowNetwork) (hval : net.Valid) (g : Nat → Nat)
    (hfeas : FeasibleFlow net g) (S : Nat → Bool)
    (hSsrc : S net.source = true) (hSsink : S net.sink = false) :
    flowValue net g ≤ cutCap net S := by
  have hkey : excess net g net.source
      = ∑ i ∈ Finset.range net.arcs.length,
          ((if S (arcAt net i).head then (g i : Int) else 0)
            - (if S (arcAt net i).tail then (g i : Int) else 0)) := by
    rw [← sum_excess_interchange net hval g S,
      sum_excess_cut net hval g hfeas.2 S hSsrc hSsink]
  unfold flowValue cutCap
  rw [hkey, ← Finset.sum_neg_distrib]
  apply Finset.sum_le_sum
  intro i hi
  have hcap := hfeas.1 i (Finset.mem_range.mp hi)
  by_cases h1 : S (arcAt net i).head <;> by_cases h2 : S (arcAt net i).tail <;>
    simp [h1, h2] <;> push_cast <;> omega

/-- At a saturated cut the flow's value equals the cut capacity exactly. -/
theorem flowValue_eq_cutCap (net : FlowNetwork) (hval : net.Valid) (g : Nat → Nat)
    (hcons : ∀ v, v ≠ net.source → v ≠ net.sink → excess net g v = 0)
    (S : Nat → Bool) (hSsrc : S net.source = true) (hSsink : S net.sink = false)
    (hsat1 : ∀ i, i < net.arcs.length → S (arcAt net i).tail = true →
      S (arcAt net i).head = false → g i = (arcAt net i).capacity)
    (hsat2 : ∀ i, i < net.arcs.length → S (arcAt net i).head = true →
      S (arcAt net i).tail = false → g i = 0) :
    flowValue net g = cutCap net S := by
  have hkey : excess net g net.source
      = ∑ i ∈ Finset.range net.arcs.length,
          ((if S (arcAt net i).head then (g i : Int) else 0)
            - (if S (arcAt net i).tail then (g i : Int) else 0)) := by
    rw [← sum_excess_interchange net hval g S,
      sum_excess_cut net hval g hcons S hSsrc hSsink]
  unfold flowValue cutCap
  rw [hkey, ← Finset.sum_neg_distrib]
  apply Finset.sum_congr rfl
  intro i hi
  have hil := Finset.mem_range.mp hi
  by_cases h1 : S (arcAt net i).head <;> by_cases h2 : S (arcAt net i).tail
  · simp [h1, h2]
  · rw [hsat2 i hil (by simp [h1]) (by simp [h2])]
    simp [h1, h2]
  · rw [hsat1 i hil (by simp [h2]) (by simp [h1])]
    simp [h1, h2]
  · simp [h1, h2]

/-- Main optimality lemma: a conservative arena flow whose source side of a
residual-closed cut starts at the source is maximum, with value the cut capacity. -/
theorem terminal_max (net : FlowNetwork) (hval : net.Valid)
    {adj : Array ResidualArc} {mf : Nat} (hsh : Shape net adj) (hsum : SumInv net adj)
    (hcons : ∀ v, v ≠ net.source → v ≠ net.sink → excess net (flowOf net adj) v = 0)
    (hsrcex : excess net (flowOf net adj) net.source = -(mf : Int))
    {S : Nat → Bool} (hSsrc : S net.source = true) (hSsink : S net.sink = false)
    (hclosed : ∀ u, S u = true →
      ∀ s ∈ slotsOf (ResidualNetwork.ofNetwork net).arcs_out_span u,
        0 < rc adj s → S (headOf adj s) = true) :
    (mf : Int) = cutCap net S ∧
    ∀ g, FeasibleFlow net g → flowValue net g ≤ (mf : Int) := by
  -- saturation across the cut
  have hsat1 : ∀ i, i < net.arcs.length → S (arcAt net i).tail = true →
      S (arcAt net i).head = false → flowOf net adj i = (arcAt net i).capacity := by
    intro i hil hT hH
    have hb := arc_bounds net hval hil
    have hfsmem : fs net i ∈ slotsOf (ResidualNetwork.ofNetwork net).arcs_out_span
        (arcAt net i).tail := by
      rw [mem_slotsOf net hval hb.1]
      exact slotIn_fs net hval hil
    have hhead : headOf adj (fs net i) = (arcAt net i).head := (hsh.2 i hil).1
    have hrc0 : rc adj (fs net i) = 0 := by
      by_contra hc
      have := hclosed _ hT (fs net i) hfsmem (by omega)
      rw [hhead, hH] at this
      exact absurd this (by simp)
    have := hsum i hil
    unfold flowOf
    omega
  have hsat2 : ∀ i, i < net.arcs.length → S (arcAt net i).head = true →
      S (arcAt net i).tail = false → flowOf net adj i = 0 := by
    intro i hil hH hT
    have hb := arc_bounds net hval hil
    have hbsmem : bs net i ∈ slotsOf (ResidualNetwork.ofNetwork net).arcs_out_span
        (arcAt net i).head := by
      rw [mem_slotsOf net hval hb.2.1]
      exact slotIn_bs net hval hil
    have hhead : headOf adj (bs net i) = (arcAt net i).tail := (hsh.2 i hil).2.2.1
    have hrc0 : rc adj (bs net i) = 0 := by
      by_contra hc
      have := hclosed _ hH (bs net i) hbsmem (by omega)
      rw [hhead, hT] at this
      exact absurd this (by simp)
    exact hrc0
  have hEq : flowValue net (flowOf net adj) = cutCap net S :=
    flowValue_eq_cutCap net hval _ hcons S hSsrc hSsink hsat1 hsat2
  have hV : flowValue net (flowOf net adj) = (mf : Int) := by
    unfold flowValue
    rw [hsrcex]
    ring
  constructor
  · rw [← hV, hEq]
  · intro g hg
    calc flowValue net g ≤ cutCap net S :=
          flowValue_le_cutCap net hval g hg S hSsrc hSsink
      _ = (mf : Int) := by rw [← hEq, hV]

/-! ## Optimality of the Edmonds-Karp terminal state -/

/-- Bundled facts about the Edmonds-Karp terminal state: state invariants, no
remaining augmenting path, and maximality of the returned value. -/
theorem ek_terminal (net : FlowNetwork) (hval : net.Valid) :
    EKGood net (ResidualNetwork.ofNetwork net).adjlist (ekFinal net).1 (ekFinal net).2 ∧
    NoAugPath net (ekFinal net).1 ∧
    (∀ g, FeasibleFlow net g → flowValue net g ≤ ((ekFinal net).2 : Int)) := by
  obtain ⟨hgood, hbfsF⟩ := ekFinal_spec net hval
  rcases hbfs : bfs_find_augmenting_path net
      (ResidualNetwork.ofNetwork net).arcs_out_span (ekFinal net).1 with ⟨pred, found⟩
  have hfoundF : found = false := by
    rw [hbfs] at hbfsF
    exact hbfsF
  subst hfoundF
  have hpost : BfsFalsePost net (ekFinal net).1 pred :=
    (bfs_find_augmenting_path_spec net hval hgood.1 hbfs).2 rfl
  obtain ⟨hpsz, hsinkun, hsrcun, hclosure⟩ := hpost
  set S : Nat → Bool :=
    fun v => decide (v = net.source ∨ pred.getD v none ≠ none) with hS
  have hSsrc : S net.source = true := by
    simp [hS]
  have hSsink : S net.sink = false := by
    have h1 : ¬(net.sink = net.source ∨ pred.getD net.sink none ≠ none) := by
      rintro (hc | hc)
      · exact hval.2.2.2.1 hc.symm
      · exact hc hsinkun
    show decide (net.sink = net.source ∨ pred.getD net.sink none ≠ none) = false
    rw [decide_eq_false_iff_not]
    exact h1
  have hSiff : ∀ v, S v = true ↔ (v = net.source ∨ pred.getD v none ≠ none) := by
    intro v
    simp [hS]
  have hclosed : ∀ u, S u = true →
      ∀ s ∈ slotsOf (ResidualNetwork.ofNetwork net).arcs_out_span u,
        0 < rc (ekFinal net).1 s → S (headOf (ekFinal net).1 s) = true := by
    intro u hu s hs hrc
    have hu2 := (hSiff u).mp hu
    have hun : u < net.n := by
      rcases hu2 with hc | hc
      · rw [hc]; exact hval.2.1
      · by_contra hnn
        rw [Array.getD_oob _ _ _ (by rw [hpsz]; omega)] at hc
        exact hc rfl
    rw [hSiff]
    exact hclosure u hu2 hun s hs hrc
  refine ⟨hgood, closed_noAugPath net hSsrc hSsink hclosed, ?_⟩
  exact (terminal_max net hval hgood.1 hgood.2.1 hgood.2.2.2.1 hgood.2.2.2.2.2
    hSsrc hSsink hclosed).2

/-! ## List-level flow readings for the claims -/

theorem map_range_getD (g : Nat → Nat) {len i : Nat} (h : i < len) :
    ((List.range len).map g).getD i 0 = g i := by
  rw [List.getD_eq_getElem _ _ (by simp; exact h)]
  simp

/-- Inflow of vertex v under a per-arc flow list. -/
def listInflow (net : FlowNetwork) (F : List Nat) (v : Nat) : Nat :=
  ∑ i ∈ Finset.range net.arcs.length,
    if (arcAt net i).head = v then F.getD i 0 else 0

/-- Outflow of vertex v under a per-arc flow list. -/
def listOutflow (net : FlowNetwork) (F : List Nat) (v : Nat) : Nat :=
  ∑ i ∈ Finset.range net.arcs.length,
    if (arcAt net i).tail = v then F.getD i 0 else 0

theorem excess_eq_list (net : FlowNetwork) (g : Nat → Nat) (v : Nat) :
    excess net g v
      = (listInflow net ((List.range net.arcs.length).map g) v : Int)
        - (listOutflow net ((List.range net.arcs.length).map g) v : Int) := by
  unfold excess listInflow listOutflow
  rw [Finset.sum_sub_distrib]
  push_cast
  congr 1
  · apply Finset.sum_congr rfl
    intro i hi
    rw [map_range_getD g (Finset.mem_range.mp hi)]
  · apply Finset.sum_congr rfl
    intro i hi
    rw [map_range_getD g (Finset.mem_range.mp hi)]

/-! ## Dinitz-Cherkassky solver (source: struct DinitzCherkassky) -/

/-- Symbolic infinite flow value (numeric_limits of the 32-bit flow type). -/
def InfiniteFlow : Nat := 2 ^ 32 - 1

/-- Admissibility test of an arc from u to h under the rank array: the C++
comparison rank[u] == rank[h] + 1, with the Unreached sentinel modelled as none
(an unreached endpoint is never admissible). -/
def admissibleB (rank : Array (Option Nat)) (u h : Nat) : Bool :=
  match rank.getD h none with
  | some rh => rank.getD u none == some (rh + 1)
  | none => false

/-- Inner loop of the reverse BFS of bfs_compute_rank: scanning the out-slots of
a dequeued vertex of rank ru, rank every unranked head whose paired arc is
residual and append it to the worklist. -/
def bfs_rank_scan (adj : Array ResidualArc) :
    List Nat → Array (Option Nat) → Nat → List Nat → Array (Option Nat) × List Nat
  | [], rank, _, queue => (rank, queue)
  | s :: rest, rank, ru, queue =>
    if rank.getD (headOf adj s) none = none ∧ 0 < rc adj (twinOf adj s) then
      bfs_rank_scan adj rest (rank.setD (headOf adj s) (some (ru + 1))) ru
        (queue ++ [headOf adj s])
    else bfs_rank_scan adj rest rank ru queue

/-- Outer loop of the reverse BFS over the worklist; every dequeued vertex holds
a rank (the default 0 of the lookup is never used on queued vertices). -/
def bfs_rank_loop (adj : Array ResidualArc) (spans : Array (Nat × Nat)) :
    Nat → List Nat → Array (Option Nat) → Array (Option Nat)
  | 0, _, rank => rank
  | _ + 1, [], rank => rank
  | fuel + 1, u :: rest, rank =>
    match bfs_rank_scan adj (slotsOf spans u) rank ((rank.getD u none).getD 0) rest with
    | (rank2, queue2) => bfs_rank_loop adj spans fuel queue2 rank2

/-- Layer computation of a phase: a single BFS from the sink on the unsaturated
arcs in reverse direction (bfs_compute_rank); the phase continues iff the source
received a finite rank. -/
def bfs_compute_rank (net : FlowNetwork) (spans : Array (Nat × Nat))
    (adj : Array ResidualArc) : Array (Option Nat) :=
  bfs_rank_loop adj spans (net.n + 1) [net.sink]
    ((Array.mkArray net.n (none : Option Nat)).setD net.sink (some 0))

/-- Saturating DFS of a phase (dfs_phase_loop): from vertex u under bound flow,
scan u's arcs from its persistent cursor, descending along admissible residual
arcs; on success push the routed amount on the arc used and return it, on
failure advance the cursor so the arc is never rescanned within the phase. -/
def dfs (spans : Array (Nat × Nat)) (rank : Array (Option Nat)) (sink : Nat) :
    Nat → Nat → Nat → Array ResidualArc → Array Nat →
      Nat × Array ResidualArc × Array Nat
  | 0, _, _, adj, cur => (0, adj, cur)
  | fuel + 1, u, flow, adj, cur =>
    if flow = 0 ∨ u = sink then (flow, adj, cur)
    else
      if cur.getD u 0 < (spans.getD u (0, 0)).2 then
        if admissibleB rank u (headOf adj (cur.getD u 0)) ∧ 0 < rc adj (cur.getD u 0) then
          match dfs spans rank sink fuel (headOf adj (cur.getD u 0))
              (Nat.min flow (rc adj (cur.getD u 0))) adj cur with
          | (df, adj2, cur2) =>
            if 0 < df then (df, push_flow adj2 (cur.getD u 0) df, cur2)
            else dfs spans rank sink fuel u flow adj2 (cur2.modify u (· + 1))
        else dfs spans rank sink fuel u flow adj (cur.modify u (· + 1))
      else (0, adj, cur)

/-- Reset every vertex's current-arc cursor to the start of its range
(reset_current_arc). -/
def reset_current_arc (spans : Array (Nat × Nat)) : Array Nat :=
  spans.map Prod.fst

/-- Repeated DFS invocations within one phase, accumulating the routed flow,
until an invocation returns 0. -/
def dfs_rounds (spans : Array (Nat × Nat)) (rank : Array (Option Nat))
    (source sink dfsFuel : Nat) :
    Nat → Array ResidualArc → Array Nat → Nat → Array ResidualArc × Array Nat × Nat
  | 0, adj, cur, acc => (adj, cur, acc)
  | fuel + 1, adj, cur, acc =>
    match dfs spans rank sink dfsFuel source InfiniteFlow adj cur with
    | (df, adj2, cur2) =>
      if df = 0 then (adj2, cur2, acc)
      else dfs_rounds spans rank source sink dfsFuel fuel adj2 cur2 (acc + df)

/-- Phase loop of the algorithm's main loop (operator()): while the reverse BFS
reaches the source, reset the cursors and saturate a blocking flow. -/
def dc_phases (net : FlowNetwork) (spans : Array (Nat × Nat)) (dfsFuel : Nat) :
    Nat → Array ResidualArc → Nat → Array ResidualArc × Nat
  | 0, adj, mf => (adj, mf)
  | fuel + 1, adj, mf =>
    let rank := bfs_compute_rank net spans adj
    if rank.getD net.source none ≠ none then
      match dfs_rounds spans rank net.source net.sink dfsFuel
          (sourceOutRC spans adj net.source + 1) adj (reset_current_arc spans) 0 with
      | (adj2, _, phaseFlow) => dc_phases net spans dfsFuel fuel adj2 (mf + phaseFlow)
    else (adj, mf)

/-- Arena and value after running Dinitz-Cherkassky to exhaustion. -/
def dcFinal (net : FlowNetwork) : Array ResidualArc × Nat :=
  let rnet := ResidualNetwork.ofNetwork net
  dc_phases net rnet.arcs_out_span (net.n + 4 * net.m + 4)
    (sourceOutRC rnet.arcs_out_span rnet.adjlist net.source + 1) rnet.adjlist 0

/-- Dinitz algorithm as recommended by Cherkassky (DinitzCherkassky::operator()). -/
def dinitz_cherkassky (net : FlowNetwork) : Flow :=
  { value := (dcFinal net).2,
    flow_arcs := get_flow_arcs net
      { ResidualNetwork.ofNetwork net with adjlist := (dcFinal net).1 } }

/-! ## Admissibility and admissible paths of a Dinitz phase -/

theorem admissibleB_iff (rank : Array (Option Nat)) (u h : Nat) :
    admissibleB rank u h = true ↔
      ∃ rh, rank.getD h none = some rh ∧ rank.getD u none = some (rh + 1) := by
  unfold admissibleB
  cases hh : rank.getD h none with
  | none => simp
  | some rh =>
    rw [beq_iff_eq]
    constructor
    · intro h1
      exact ⟨rh, rfl, h1⟩
    · rintro ⟨rh2, h1, h2⟩
      injection h1 with h1
      rw [← h1] at h2
      exact h2

theorem admissibleB_antisymm (rank : Array (Option Nat)) {a b : Nat}
    (h : admissibleB rank a b = true) : admissibleB rank b a = false := by
  obtain ⟨rh, h1, h2⟩ := (admissibleB_iff rank a b).mp h
  by_contra hc
  rw [Bool.not_eq_false] at hc
  obtain ⟨ra, g1, g2⟩ := (admissibleB_iff rank b a).mp hc
  rw [h2] at g1
  rw [h1] at g2
  injection g1 with g1
  injection g2 with g2
  omega

theorem admissibleB_mono {rank rank2 : Array (Option Nat)}
    (hmono : ∀ v k, rank.getD v none = some k → rank2.getD v none = some k)
    {a b : Nat} (h : admissibleB rank a b = true) : admissibleB rank2 a b = true := by
  obtain ⟨rh, h1, h2⟩ := (admissibleB_iff rank a b).mp h
  exact (admissibleB_iff rank2 a b).mpr ⟨rh, hmono b rh h1, hmono a (rh+1) h2⟩

/-- An admissible residual chain: successive out-slots from v to the sink, each
admissible under the rank array and carrying residual capacity (exactly the arcs
the saturating DFS of a phase descends along). -/
def AdmChain (net : FlowNetwork) (adj : Array ResidualArc)
    (rank : Array (Option Nat)) : List Nat → Nat → Prop
  | [], v => v = net.sink
  | s :: rest, v =>
    s ∈ slotsOf (ResidualNetwork.ofNetwork net).arcs_out_span v ∧
    admissibleB rank v (headOf adj s) = true ∧ 0 < rc adj s ∧
    AdmChain net adj rank rest (headOf adj s)

/-- Existence of an admissible residual path from v to the sink. -/
def AdmPath (net : FlowNetwork) (adj : Array ResidualArc)
    (rank : Array (Option Nat)) (v : Nat) : Prop :=
  ∃ P, AdmChain net adj rank P v

theorem admChain_mono_rank {net : FlowNetwork} {adj : Array ResidualArc}
    {rank rank2 : Array (Option Nat)}
    (hmono : ∀ v k, rank.getD v none = some k → rank2.getD v none = some k) :
    ∀ (P : List Nat) (v : Nat),
      AdmChain net adj rank P v → AdmChain net adj rank2 P v := by
  intro P
  induction P with
  | nil => exact fun v h => h
  | cons s rest ih =>
    intro v h
    exact ⟨h.1, admissibleB_mono hmono h.2.1, h.2.2.1, ih _ h.2.2.2⟩

/-- Transport of an admissible chain from a same-shaped arena whose admissible
slots kept at most their residual capacity back to the original arena. -/
theorem admChain_transport (net : FlowNetwork) (hval : net.Valid)
    {adj adj2 : Array ResidualArc} {rank : Array (Option Nat)}
    (hsh : Shape net adj) (hshape : SameShapeArr adj adj2)
    (hdec : ∀ s, s < 2 * net.m →
      admissibleB rank (tailOf adj s) (headOf adj s) = true → rc adj2 s ≤ rc adj s) :
    ∀ (P : List Nat) (v : Nat),
      AdmChain net adj2 rank P v → AdmChain net adj rank P v := by
  intro P
  induction P with
  | nil => exact fun v h => h
  | cons s rest ih =>
    intro v h
    obtain ⟨hmem, hadm, hrc, hrest⟩ := h
    have hv : v < net.n := by
      by_contra hc
      rw [slotsOf_ofNetwork_oob net hval (by omega)] at hmem
      exact List.not_mem_nil s hmem
    obtain ⟨hslt, htail, hhlt, hhne⟩ := mem_slotsOf_facts net hval hsh hv hmem
    have hhead : headOf adj2 s = headOf adj s := (hshape.2 s).1
    rw [hhead] at hadm hrest
    refine ⟨hmem, hadm, ?_, ih _ hrest⟩
    have := hdec s hslt (by rw [htail]; exact hadm)
    omega

theorem admPath_transport (net : FlowNetwork) (hval : net.Valid)
    {adj adj2 : Array ResidualArc} {rank : Array (Option Nat)}
    (hsh : Shape net adj) (hshape : SameShapeArr adj adj2)
    (hdec : ∀ s, s < 2 * net.m →
      admissibleB rank (tailOf adj s) (headOf adj s) = true → rc adj2 s ≤ rc adj s)
    {v : Nat} (h : AdmPath net adj2 rank v) : AdmPath net adj rank v := by
  obtain ⟨P, hP⟩ := h
  exact ⟨P, admChain_transport net hval hsh hshape hdec P v hP⟩

/-- An admissible push never increases the residual capacity of an admissible
slot: the slot gaining capacity is the pushed slot's twin, which is inadmissible. -/
theorem push_admissible_dec (net : FlowNetwork) (hval : net.Valid)
    {adj : Array ResidualArc} (hsh : Shape net adj) {rank : Array (Option Nat)}
    {c : Nat} (hc : c < 2 * net.m)
    (hadm : admissibleB rank (tailOf adj c) (headOf adj c) = true) (df : Nat) :
    ∀ s, s < 2 * net.m → admissibleB rank (tailOf adj s) (headOf adj s) = true →
      rc (push_flow adj c df) s ≤ rc adj s := by
  intro s hs hadms
  obtain ⟨hinv, htlt, htne⟩ := twinOf_involution net hval hsh hc
  rcases eq_or_ne s c with hsc | hsc
  · subst hsc
    rw [rc_push_flow_self adj s df (by rw [hsh.1]; exact hs) htne]
    omega
  · rcases eq_or_ne s (twinOf adj c) with hst | hst
    · subst hst
      have ht1 : tailOf adj (twinOf adj c) = headOf adj c := by
        unfold tailOf
        rw [hinv]
      have ht2 : headOf adj (twinOf adj c) = tailOf adj c := rfl
      rw [ht1, ht2] at hadms
      rw [admissibleB_antisymm rank hadm] at hadms
      exact absurd hadms (by simp)
    · rw [rc_push_flow_other adj c df s hsc hst]

/-! ## Cursor state of a phase: layout helpers, potential, dead-arc invariant -/

/-- End of vertex u's slot range in the constructed arena. -/
theorem spans_snd (net : FlowNetwork) (hval : net.Valid) {u : Nat} (hu : u < net.n) :
    ((ResidualNetwork.ofNetwork net).arcs_out_span.getD u (0, 0)).2
      = startOf net u + incCount net.arcs u := by
  rw [(ofNetwork_spans net hval).2 u hu]

theorem spans_snd_oob (net : FlowNetwork) (hval : net.Valid) {u : Nat}
    (hu : net.n ≤ u) :
    ((ResidualNetwork.ofNetwork net).arcs_out_span.getD u (0, 0)).2 = 0 := by
  rw [Array.getD_oob _ _ _ (by rw [(ofNetwork_spans net hval).1]; omega)]

theorem reset_size (net : FlowNetwork) (hval : net.Valid) :
    (reset_current_arc (ResidualNetwork.ofNetwork net).arcs_out_span).size = net.n := by
  unfold reset_current_arc
  rw [Array.size_map, (ofNetwork_spans net hval).1]

theorem reset_getD (net : FlowNetwork) (hval : net.Valid) {v : Nat} (hv : v < net.n) :
    (reset_current_arc (ResidualNetwork.ofNetwork net).arcs_out_span).getD v 0
      = startOf net v := by
  unfold reset_current_arc
  have hsz : v < (ResidualNetwork.ofNetwork net).arcs_out_span.size := by
    rw [(ofNetwork_spans net hval).1]; exact hv
  rw [Array.getD_lt _ _ _ (by rw [Array.size_map]; exact hsz), Array.getElem_map]
  rw [← Array.getD_lt _ _ (0, 0) hsz, (ofNetwork_spans net hval).2 v hv]

/-- Unscanned cursor work remaining in a phase, the potential of the DFS fuel. -/
def curPhi (net : FlowNetwork) (cur : Array Nat) : Nat :=
  ∑ v ∈ Finset.range net.n,
    (startOf net v + incCount net.arcs v - cur.getD v 0)

theorem curPhi_mono (net : FlowNetwork) {cur cur2 : Array Nat}
    (h : ∀ v, cur.getD v 0 ≤ cur2.getD v 0) : curPhi net cur2 ≤ curPhi net cur := by
  apply Finset.sum_le_sum
  intro v _
  have := h v
  omega

theorem curPhi_reset (net : FlowNetwork) (hval : net.Valid) :
    curPhi net (reset_current_arc (ResidualNetwork.ofNetwork net).arcs_out_span)
      = 2 * net.m := by
  unfold curPhi
  have hterm : ∀ v ∈ Finset.range net.n,
      startOf net v + incCount net.arcs v
        - (reset_current_arc (ResidualNetwork.ofNetwork net).arcs_out_span).getD v 0
      = incCount net.arcs v := by
    intro v hv
    rw [reset_getD net hval (Finset.mem_range.mp hv)]
    omega
  rw [Finset.sum_congr rfl hterm, sum_incCount net.n net.arcs hval.2.2.2.2, hval.1]

/-- Value view of the rank array (the raw rank[u] value read by the scans). -/
def rankValB (rank : Array (Option Nat)) (u : Nat) : Nat :=
  (rank.getD u none).getD 0

/-- Dead-arc invariant justifying the persistent cursors: every slot strictly
before its owner's cursor admits no admissible residual continuation to the sink. -/
def DAI (net : FlowNetwork) (adj : Array ResidualArc) (rank : Array (Option Nat))
    (cur : Array Nat) : Prop :=
  ∀ v, v < net.n → ∀ s, startOf net v ≤ s → s < cur.getD v 0 →
    s < startOf net v + incCount net.arcs v →
    ¬ (admissibleB rank v (headOf adj s) = true ∧ 0 < rc adj s ∧
        AdmPath net adj rank (headOf adj s))

/-- The dead-arc invariant holds trivially with freshly reset cursors. -/
theorem dai_reset (net : FlowNetwork) (hval : net.Valid) (adj : Array ResidualArc)
    (rank : Array (Option Nat)) :
    DAI net adj rank (reset_current_arc (ResidualNetwork.ofNetwork net).arcs_out_span) := by
  intro v hv s h1 h2 h3
  rw [reset_getD net hval hv] at h2
  omega

/-- Dead slots stay dead across an admissible push. -/
theorem dai_push_admissible (net : FlowNetwork) (hval : net.Valid)
    {adj : Array ResidualArc} (hsh : Shape net adj) {rank : Array (Option Nat)}
    {cur : Array Nat} (hdai : DAI net adj rank cur) {c df : Nat}
    (hc : c < 2 * net.m)
    (hadm : admissibleB rank (tailOf adj c) (headOf adj c) = true) :
    DAI net (push_flow adj c df) rank cur := by
  intro v hv s h1 h2 h3
  rintro ⟨hadms, hrc, hpath⟩
  have hin : SlotIn net s v := ⟨hv, h1, h3⟩
  have hs : s < 2 * net.m := slotIn_lt_size net hval hin
  have hmem : s ∈ slotsOf (ResidualNetwork.ofNetwork net).arcs_out_span v :=
    (mem_slotsOf net hval hv).mpr hin
  obtain ⟨_, htail, _, _⟩ := mem_slotsOf_facts net hval hsh hv hmem
  have hdec := push_admissible_dec net hval hsh hc hadm df
  have hheads : headOf (push_flow adj c df) s = headOf adj s :=
    ((push_flow_sameShape adj c df).2 s).1
  rw [hheads] at hadms hpath
  refine hdai v hv s h1 h2 h3 ⟨hadms, ?_, ?_⟩
  · have := hdec s hs (by rw [htail]; exact hadms)
    omega
  · exact admPath_transport net hval hsh (push_flow_sameShape adj c df) hdec hpath

/-- Summation helper: a list sum after lowering a single member. -/
theorem map_sum_single_update {l : List Nat} (f g : Nat → Nat) :
    ∀ {c : Nat}, l.Nodup → c ∈ l → (∀ s ∈ l, s ≠ c → g s = f s) → g c ≤ f c →
      (l.map g).sum + (f c - g c) = (l.map f).sum := by
  induction l with
  | nil => intro c _ hc; exact absurd hc (List.not_mem_nil c)
  | cons a t ih =>
    intro c hnd hc hoth hle
    rcases List.mem_cons.mp hc with hac | hct
    · subst hac
      have htf : ∀ s ∈ t, g s = f s := by
        intro s hs
        refine hoth s (List.mem_cons_of_mem c hs) ?_
        intro hcon
        subst hcon
        exact (List.nodup_cons.mp hnd).1 hs
      have hsum : (t.map g).sum = (t.map f).sum := by
        apply congrArg List.sum
        exact List.map_congr_left htf
      simp only [List.map_cons, List.sum_cons]
      rw [hsum]
      omega
    · have hac : a ≠ c := by
        intro hcon
        subst hcon
        exact (List.nodup_cons.mp hnd).1 hct
      have := ih (List.nodup_cons.mp hnd).2 hct
        (fun s hs hsne => hoth s (List.mem_cons_of_mem a hs) hsne) hle
      simp only [List.map_cons, List.sum_cons]
      rw [hoth a (List.mem_cons_self a t) hac]
      omega

theorem slotsOf_nodup (net : FlowNetwork) (u : Nat) :
    (slotsOf (ResidualNetwork.ofNetwork net).arcs_out_span u).Nodup := by
  unfold slotsOf
  exact List.nodup_range' _ _

/-! ## Reverse-BFS rank computation: scan and loop invariants -/

/-- Specification of one rank scan: ranks grow monotonically, every new rank is
ru+1 and records a residual twin arc from the slot list, the worklist grows by
exactly the newly ranked vertices, and afterwards every residual twin arc of the
list leads to a ranked head. -/
theorem bfs_rank_scan_spec (net : FlowNetwork) (adj : Array ResidualArc)
    (u ru : Nat) :
    ∀ (slots : List Nat) (rank : Array (Option Nat)) (queue : List Nat)
      (rank2 : Array (Option Nat)) (queue2 : List Nat),
      bfs_rank_scan adj slots rank ru queue = (rank2, queue2) →
      (∀ s ∈ slots, s < 2 * net.m ∧ tailOf adj s = u ∧ headOf adj s < net.n) →
      rank.size = net.n →
      ∃ delta : List Nat,
        queue2 = queue ++ delta ∧
        rank2.size = rank.size ∧
        (∀ v k, rank.getD v none = some k → rank2.getD v none = some k) ∧
        (∀ v, rank2.getD v none ≠ rank.getD v none →
          rank.getD v none = none ∧ v < net.n ∧
          rank2.getD v none = some (ru + 1) ∧
          ∃ s, s ∈ slots ∧ headOf adj s = v ∧ 0 < rc adj (twinOf adj s)) ∧
        delta.Nodup ∧
        (∀ w ∈ delta, w < net.n ∧ rank.getD w none = none ∧
          rank2.getD w none = some (ru + 1)) ∧
        (∀ v, rank2.getD v none ≠ none → rank.getD v none ≠ none ∨ v ∈ delta) ∧
        (∀ s ∈ slots, 0 < rc adj (twinOf adj s) →
          rank2.getD (headOf adj s) none ≠ none) := by
  intro slots
  induction slots with
  | nil =>
    intro rank queue rank2 queue2 heq _ _
    have h : rank2 = rank ∧ queue2 = queue := by
      unfold bfs_rank_scan at heq
      exact ⟨congrArg (·.1) heq.symm, congrArg (·.2) heq.symm⟩
    obtain ⟨h1, h2⟩ := h
    subst h1; subst h2
    refine ⟨[], by simp, rfl, fun v k h => h, fun v hne => absurd rfl hne, by simp,
      by simp, fun v hv => Or.inl hv, fun s hs => absurd hs (List.not_mem_nil s)⟩
  | cons s rest ih =>
    intro rank queue rank2 queue2 heq hslots hrsz
    have hsfacts := hslots s (List.mem_cons_self s rest)
    have hrest : ∀ t ∈ rest, t < 2 * net.m ∧ tailOf adj t = u ∧ headOf adj t < net.n :=
      fun t ht => hslots t (List.mem_cons_of_mem s ht)
    have hhead_lt : headOf adj s < rank.size := by rw [hrsz]; exact hsfacts.2.2
    by_cases hg : rank.getD (headOf adj s) none = none ∧ 0 < rc adj (twinOf adj s)
    · -- new rank assigned to the head, appended to the worklist
      have heq2 : bfs_rank_scan adj rest (rank.setD (headOf adj s) (some (ru + 1))) ru
          (queue ++ [headOf adj s]) = (rank2, queue2) := by
        unfold bfs_rank_scan at heq
        rw [if_pos hg] at heq
        exact heq
      obtain ⟨delta, hq, hsz, hmono, hnew, hnd, hdf, hrdelta, hclosure⟩ :=
        ih (rank.setD (headOf adj s) (some (ru + 1))) (queue ++ [headOf adj s])
          rank2 queue2 heq2 hrest (by rw [Array.size_setD]; exact hrsz)
      have hmark : (rank.setD (headOf adj s) (some (ru + 1))).getD (headOf adj s) none
          = some (ru + 1) := Array.getD_setD_self _ _ _ _ hhead_lt
      have hmono0 : ∀ v k, rank.getD v none = some k →
          (rank.setD (headOf adj s) (some (ru + 1))).getD v none = some k := by
        intro v k h
        rcases eq_or_ne (headOf adj s) v with hv | hv
        · rw [hv] at hg
          rw [hg.1] at h
          exact absurd h (by simp)
        · rw [Array.getD_setD_ne _ _ _ _ _ hv]
          exact h
      have hheadranked : rank2.getD (headOf adj s) none = some (ru + 1) :=
        hmono (headOf adj s) (ru + 1) hmark
      refine ⟨headOf adj s :: delta, by simp [hq], by rw [hsz, Array.size_setD],
        fun v k h => hmono v k (hmono0 v k h), ?_, ?_, ?_, ?_, ?_⟩
      · -- new ranks
        intro v hne
        rcases eq_or_ne v (headOf adj s) with hv | hv
        · subst hv
          exact ⟨hg.1, hsfacts.2.2, hheadranked,
            s, List.mem_cons_self s rest, rfl, hg.2⟩
        · have h1 : (rank.setD (headOf adj s) (some (ru + 1))).getD v none
              = rank.getD v none := Array.getD_setD_ne _ _ _ _ _ (fun h => hv h.symm)
          have h2 : rank2.getD v none
              ≠ (rank.setD (headOf adj s) (some (ru + 1))).getD v none := by
            rw [h1]; exact hne
          obtain ⟨hn1, hn2, hn3, t, ht, hrest2⟩ := hnew v h2
          rw [h1] at hn1
          exact ⟨hn1, hn2, hn3, t, List.mem_cons_of_mem s ht, hrest2⟩
      · -- Nodup of the appended vertices
        refine List.Nodup.cons ?_ hnd
        intro hmem
        obtain ⟨_, hw, _⟩ := hdf (headOf adj s) hmem
        rw [hmark] at hw
        exact absurd hw (by simp)
      · -- facts about the appended vertices
        intro w hw
        rcases List.mem_cons.mp hw with hv | hv
        · subst hv
          exact ⟨hsfacts.2.2, hg.1, hheadranked⟩
        · obtain ⟨d1, d2, d3⟩ := hdf w hv
          have hne : w ≠ headOf adj s := by
            intro hc
            rw [hc, hmark] at d2
            exact absurd d2 (by simp)
          rw [Array.getD_setD_ne _ _ _ _ _ (fun h => hne h.symm)] at d2
          exact ⟨d1, d2, d3⟩
      · -- every finally ranked vertex was ranked before or is newly appended
        intro v hv
        rcases hrdelta v hv with hold | hnewd
        · rcases eq_or_ne v (headOf adj s) with hveq | hvne
          · subst hveq
            exact Or.inr (List.mem_cons_self _ _)
          · rw [Array.getD_setD_ne _ _ _ _ _ (fun h => hvne h.symm)] at hold
            exact Or.inl hold
        · exact Or.inr (List.mem_cons_of_mem _ hnewd)
      · -- closure over the scanned slots
        intro t ht hrc
        rcases List.mem_cons.mp ht with hteq | htr
        · subst hteq
          rw [hheadranked]
          simp
        · exact hclosure t htr hrc
    · -- head already ranked or twin arc saturated: no change
      have heq2 : bfs_rank_scan adj rest rank ru queue = (rank2, queue2) := by
        unfold bfs_rank_scan at heq
        rw [if_neg hg] at heq
        exact heq
      obtain ⟨delta, hq, hsz, hmono, hnew, hnd, hdf, hrdelta, hclosure⟩ :=
        ih rank queue rank2 queue2 heq2 hrest hrsz
      refine ⟨delta, hq, hsz, hmono, ?_, hnd, hdf, hrdelta, ?_⟩
      · intro v hne
        obtain ⟨hn1, hn2, hn3, t, ht, hrest2⟩ := hnew v hne
        exact ⟨hn1, hn2, hn3, t, List.mem_cons_of_mem s ht, hrest2⟩
      · intro t ht hrc
        rcases List.mem_cons.mp ht with hteq | htr
        · subst hteq
          have hr : rank.getD (headOf adj t) none ≠ none := by
            intro hc
            exact hg ⟨hc, hrc⟩
          rcases hrank2 : rank.getD (headOf adj t) none with _ | k
          · exact absurd hrank2 hr
          · rw [hmono (headOf adj t) k hrank2]
            simp
        · exact hclosure t htr hrc

/-- Invariant of the reverse-BFS worklist: done lists the fully scanned vertices,
todo the pending ones; their concatenation is the discovery order, duplicate-free;
exactly its members hold ranks; every ranked vertex has an admissible residual
path to the sink; rank values are bounded by discovery position; scanned vertices
have propagated ranks across every residual twin arc. -/
structure RankInv (net : FlowNetwork) (adj : Array ResidualArc)
    (done todo : List Nat) (rank : Array (Option Nat)) : Prop where
  rsize : rank.size = net.n
  nodup : (done ++ todo).Nodup
  mem_lt : ∀ v ∈ done ++ todo, v < net.n
  ranked_of_mem : ∀ v ∈ done ++ todo, rank.getD v none ≠ none
  mem_of_ranked : ∀ v, rank.getD v none ≠ none → v ∈ done ++ todo
  admpath : ∀ v, rank.getD v none ≠ none → AdmPath net adj rank v
  rank_bound : ∀ v k, rank.getD v none = some k →
    ∃ j, (done ++ todo).get? j = some v ∧ k ≤ j
  scanned : ∀ u ∈ done,
    ∀ s ∈ slotsOf (ResidualNetwork.ofNetwork net).arcs_out_span u,
      0 < rc adj (twinOf adj s) → rank.getD (headOf adj s) none ≠ none

/-- The reverse BFS drains its worklist within the given fuel and produces ranks
that are admissible-path sound, bounded by n, and closed under residual twin
arcs out of ranked vertices. -/
theorem bfs_rank_loop_spec (net : FlowNetwork) (hval : net.Valid)
    {adj : Array ResidualArc} (hsh : Shape net adj) :
    ∀ (fuel : Nat) (done todo : List Nat) (rank rankT : Array (Option Nat)),
      RankInv net adj done todo rank →
      net.n + 1 ≤ fuel + done.length →
      bfs_rank_loop adj (ResidualNetwork.ofNetwork net).arcs_out_span fuel todo rank
        = rankT →
      rankT.size = net.n ∧
      (∀ v k, rank.getD v none = some k → rankT.getD v none = some k) ∧
      (∀ v, rankT.getD v none ≠ none → AdmPath net adj rankT v) ∧
      (∀ v k, rankT.getD v none = some k → k ≤ net.n) ∧
      (∀ u2, rankT.getD u2 none ≠ none →
        ∀ s ∈ slotsOf (ResidualNetwork.ofNetwork net).arcs_out_span u2,
          0 < rc adj (twinOf adj s) → rankT.getD (headOf adj s) none ≠ none) := by
  intro fuel
  induction fuel with
  | zero =>
    intro done todo rank rankT hinv hfuel _
    have h1 : (done ++ todo).length ≤ net.n := nodup_length_le hinv.nodup hinv.mem_lt
    rw [List.length_append] at h1
    omega
  | succ fuel ih =>
    intro done todo rank rankT hinv hfuel heq
    have hLnd := hinv.nodup
    have hLlen : (done ++ todo).length ≤ net.n := nodup_length_le hLnd hinv.mem_lt
    cases todo with
    | nil =>
      have hT : rankT = rank := by
        unfold bfs_rank_loop at heq
        exact heq.symm
      subst hT
      refine ⟨hinv.rsize, fun v k h => h, hinv.admpath, ?_, ?_⟩
      · intro v k h
        obtain ⟨j, hj, hk⟩ := hinv.rank_bound v k h
        rw [List.get?_eq_getElem?, List.getElem?_eq_some] at hj
        obtain ⟨hjlt, _⟩ := hj
        omega
      · intro u2 hu2 s hs hrc
        have hmem := hinv.mem_of_ranked u2 hu2
        rw [List.append_nil] at hmem
        exact hinv.scanned u2 hmem s hs hrc
    | cons u rest =>
      have huL : u ∈ done ++ u :: rest := List.mem_append_right _ (List.mem_cons_self u rest)
      have hu_lt : u < net.n := hinv.mem_lt u huL
      have hu_ranked := hinv.ranked_of_mem u huL
      rcases hku : rank.getD u none with _ | ku
      · exact absurd hku hu_ranked
      rcases hscan : bfs_rank_scan adj
          (slotsOf (ResidualNetwork.ofNetwork net).arcs_out_span u) rank
          ((rank.getD u none).getD 0) rest with ⟨rank2, queue2⟩
      have heq2 : bfs_rank_loop adj (ResidualNetwork.ofNetwork net).arcs_out_span
          fuel queue2 rank2 = rankT := by
        unfold bfs_rank_loop at heq
        rw [hscan] at heq
        exact heq
      have hru : (rank.getD u none).getD 0 = ku := by rw [hku]; rfl
      rw [hru] at hscan
      have hslots : ∀ s ∈ slotsOf (ResidualNetwork.ofNetwork net).arcs_out_span u,
          s < 2 * net.m ∧ tailOf adj s = u ∧ headOf adj s < net.n := by
        intro s hs
        obtain ⟨h1, h2, h3, _⟩ := mem_slotsOf_facts net hval hsh hu_lt hs
        exact ⟨h1, h2, h3⟩
      obtain ⟨delta, hq, hsz, hmono, hnew, hnd, hdf, hrdelta, hclosure⟩ :=
        bfs_rank_scan_spec net adj u ku _ rank rest rank2 queue2 hscan hslots hinv.rsize
      subst hq
      have hkeep : ∀ v, rank.getD v none ≠ none → rank2.getD v none ≠ none := by
        intro v hv
        rcases hr : rank.getD v none with _ | k
        · exact absurd hr hv
        · rw [hmono v k hr]
          simp
      have hLL : done ++ [u] ++ (rest ++ delta) = (done ++ u :: rest) ++ delta := by
        simp
      have hrank2u : rank2.getD u none = some ku := hmono u ku hku
      -- the new invariant after scanning u
      have hinv2 : RankInv net adj (done ++ [u]) (rest ++ delta) rank2 := by
        refine ⟨hsz.trans hinv.rsize, ?_, ?_, ?_, ?_, ?_, ?_, ?_⟩
        · rw [hLL]
          refine List.Nodup.append hLnd hnd ?_
          intro v hvL hvd
          exact (hinv.ranked_of_mem v hvL) (hdf v hvd).2.1
        · rw [hLL]
          intro v hv
          rcases List.mem_append.mp hv with hvL | hvd
          · exact hinv.mem_lt v hvL
          · exact (hdf v hvd).1
        · rw [hLL]
          intro v hv
          rcases List.mem_append.mp hv with hvL | hvd
          · exact hkeep v (hinv.ranked_of_mem v hvL)
          · rw [(hdf v hvd).2.2]
            simp
        · intro v hv
          rw [hLL]
          rcases hrdelta v hv with hold | hnewd
          · exact List.mem_append_left _ (hinv.mem_of_ranked v hold)
          · exact List.mem_append_right _ hnewd
        · -- admissible paths under the extended ranks
          intro v hv
          by_cases hvold : rank.getD v none ≠ none
          · obtain ⟨P, hP⟩ := hinv.admpath v hvold
            exact ⟨P, admChain_mono_rank hmono P v hP⟩
          · push_neg at hvold
            have hne : rank2.getD v none ≠ rank.getD v none := by
              rw [hvold]; exact hv
            obtain ⟨_, hvlt, hv2, s, hsmem, hshead, hsrc⟩ := hnew v hne
            obtain ⟨hslt, hstail, _⟩ := hslots s hsmem
            obtain ⟨hinv_tw, htwlt, htwne⟩ := twinOf_involution net hval hsh hslt
            have htw_tail : tailOf adj (twinOf adj s) = headOf adj s := by
              unfold tailOf
              rw [hinv_tw]
            have htw_head : headOf adj (twinOf adj s) = u := by
              unfold tailOf at hstail
              exact hstail
            obtain ⟨hsl_own, _, _, _⟩ := slot_owner net hval hsh htwlt
            rw [htw_tail, hshead] at hsl_own
            have htw_mem : twinOf adj s ∈
                slotsOf (ResidualNetwork.ofNetwork net).arcs_out_span v :=
              (mem_slotsOf net hval hvlt).mpr hsl_own
            obtain ⟨P, hP⟩ := hinv.admpath u hu_ranked
            have hPu : AdmChain net adj rank2 P u := admChain_mono_rank hmono P u hP
            refine ⟨twinOf adj s :: P, htw_mem, ?_, ?_, ?_⟩
            · rw [htw_head]
              exact (admissibleB_iff rank2 v u).mpr ⟨ku, hrank2u, by rw [hv2]⟩
            · exact hsrc
            · rw [htw_head]
              exact hPu
        · -- positional rank bounds
          intro v k hv
          rw [hLL]
          by_cases hvold : rank.getD v none ≠ none
          · rcases hr : rank.getD v none with _ | k0
            · exact absurd hr hvold
            have hv2 := hmono v k0 hr
            rw [hv] at hv2
            injection hv2 with hv2
            obtain ⟨j, hj, hk⟩ := hinv.rank_bound v k0 hr
            have hjlt : j < (done ++ u :: rest).length := by
              rw [List.get?_eq_getElem?, List.getElem?_eq_some] at hj
              exact hj.1
            refine ⟨j, ?_, by omega⟩
            rw [List.get?_append hjlt]
            exact hj
          · push_neg at hvold
            have hne : rank2.getD v none ≠ rank.getD v none := by
              rw [hvold, hv]
              simp
            obtain ⟨_, _, hv2, _⟩ := hnew v hne
            rw [hv] at hv2
            injection hv2 with hv2
            have hvd : v ∈ delta := by
              rcases hrdelta v (by rw [hv]; simp) with hold | hnewd
              · exact absurd hvold hold
              · exact hnewd
            obtain ⟨p, hp⟩ := List.mem_iff_get?.mp hvd
            obtain ⟨ju, hju, hkuj⟩ := hinv.rank_bound u ku hku
            have hjult : ju < (done ++ u :: rest).length := by
              rw [List.get?_eq_getElem?, List.getElem?_eq_some] at hju
              exact hju.1
            refine ⟨(done ++ u :: rest).length + p, ?_, by omega⟩
            rw [List.get?_append_right (by omega)]
            rw [show (done ++ u :: rest).length + p - (done ++ u :: rest).length = p
              by omega]
            exact hp
        · -- u's slots are now fully propagated
          intro u2 hu2 s hs hrc
          rcases List.mem_append.mp hu2 with hu2d | hu2u
          · exact hkeep _ (hinv.scanned u2 hu2d s hs hrc)
          · have : u2 = u := by simpa using hu2u
            subst this
            exact hclosure s hs hrc
      obtain ⟨c1, c2, c3, c4, c5⟩ := ih (done ++ [u]) (rest ++ delta) rank2 rankT hinv2
        (by rw [List.length_append]; simp; omega) heq2
      exact ⟨c1, fun v k h => c2 v k (hmono v k h), c3, c4, c5⟩

/-- Soundness and completeness of the computed ranks: rank[sink] = 0, every
ranked vertex has an admissible residual path to the sink, rank values stay
below n+1, and ranks are closed under residual twin arcs of ranked vertices. -/
theorem bfs_compute_rank_spec (net : FlowNetwork) (hval : net.Valid)
    {adj : Array ResidualArc} (hsh : Shape net adj) :
    (bfs_compute_rank net (ResidualNetwork.ofNetwork net).arcs_out_span adj).size
        = net.n ∧
    (bfs_compute_rank net (ResidualNetwork.ofNetwork net).arcs_out_span adj).getD
        net.sink none = some 0 ∧
    (∀ v, (bfs_compute_rank net (ResidualNetwork.ofNetwork net).arcs_out_span
        adj).getD v none ≠ none →
      AdmPath net adj
        (bfs_compute_rank net (ResidualNetwork.ofNetwork net).arcs_out_span adj) v) ∧
    (∀ v k, (bfs_compute_rank net (ResidualNetwork.ofNetwork net).arcs_out_span
        adj).getD v none = some k → k ≤ net.n) ∧
    (∀ u2, (bfs_compute_rank net (ResidualNetwork.ofNetwork net).arcs_out_span
        adj).getD u2 none ≠ none →
      ∀ s ∈ slotsOf (ResidualNetwork.ofNetwork net).arcs_out_span u2,
        0 < rc adj (twinOf adj s) →
        (bfs_compute_rank net (ResidualNetwork.ofNetwork net).arcs_out_span
          adj).getD (headOf adj s) none ≠ none) := by
  have hsink_lt : net.sink < net.n := hval.2.2.1
  have hr0sz : ((Array.mkArray net.n (none : Option Nat)).setD net.sink
      (some 0)).size = net.n := by
    rw [Array.size_setD, Array.size_mkArray]
  have hr0s : ((Array.mkArray net.n (none : Option Nat)).setD net.sink
      (some 0)).getD net.sink none = some 0 :=
    Array.getD_setD_self _ _ _ _ (by rw [Array.size_mkArray]; exact hsink_lt)
  have hr0 : ∀ v, v ≠ net.sink →
      ((Array.mkArray net.n (none : Option Nat)).setD net.sink (some 0)).getD v none
        = none := by
    intro v hv
    rw [Array.getD_setD_ne _ _ _ _ _ (fun h => hv h.symm)]
    by_cases hlt : v < net.n
    · exact Array.getD_mkArray _ _ _ _ hlt
    · exact Array.getD_oob _ _ _ (by rw [Array.size_mkArray]; omega)
  have hdich : ∀ v, ((Array.mkArray net.n (none : Option Nat)).setD net.sink
      (some 0)).getD v none ≠ none → v = net.sink := by
    intro v hv
    by_contra hc
    exact hv (hr0 v hc)
  have hinv : RankInv net adj [] [net.sink]
      ((Array.mkArray net.n (none : Option Nat)).setD net.sink (some 0)) := by
    refine ⟨hr0sz, by simp, ?_, ?_, ?_, ?_, ?_, ?_⟩
    · intro v hv
      have : v = net.sink := by simpa using hv
      subst this
      exact hsink_lt
    · intro v hv
      have : v = net.sink := by simpa using hv
      subst this
      rw [hr0s]
      simp
    · intro v hv
      rw [hdich v hv]
      simp
    · intro v hv
      rw [hdich v hv]
      exact ⟨[], rfl⟩
    · intro v k hv
      have hvs : v = net.sink := hdich v (by rw [hv]; simp)
      subst hvs
      rw [hr0s] at hv
      injection hv with hv
      exact ⟨0, by simp, by omega⟩
    · intro u hu
      exact absurd hu (List.not_mem_nil u)
  obtain ⟨c1, c2, c3, c4, c5⟩ := bfs_rank_loop_spec net hval hsh (net.n + 1) []
    [net.sink] _ _ hinv (by simp) rfl
  exact ⟨c1, c2 net.sink 0 hr0s, c3, c4, c5⟩

/-- When the reverse BFS leaves the source unranked, the unranked vertex set is
a residual-closed cut witnessing that no augmenting path remains. -/
theorem rank_fail_noAugPath (net : FlowNetwork) (hval : net.Valid)
    {adj : Array ResidualArc} (hsh : Shape net adj)
    (hfail : (bfs_compute_rank net (ResidualNetwork.ofNetwork net).arcs_out_span
      adj).getD net.source none = none) :
    NoAugPath net adj := by
  obtain ⟨hsz, hsink0, hadm, hbound, hclosure⟩ := bfs_compute_rank_spec net hval hsh
  have h1 : (fun v => decide ((bfs_compute_rank net
      (ResidualNetwork.ofNetwork net).arcs_out_span adj).getD v none = none))
      net.source = true := by
    simp [hfail]
  have h2 : (fun v => decide ((bfs_compute_rank net
      (ResidualNetwork.ofNetwork net).arcs_out_span adj).getD v none = none))
      net.sink = false := by
    simp [hsink0]
  refine @closed_noAugPath net adj
    (fun v => decide ((bfs_compute_rank net
      (ResidualNetwork.ofNetwork net).arcs_out_span adj).getD v none = none))
    h1 h2 ?_
  intro u hu s hs hrc
  have hu2 : (bfs_compute_rank net (ResidualNetwork.ofNetwork net).arcs_out_span
      adj).getD u none = none := by simpa using hu
  show decide _ = true
  rw [decide_eq_true_iff]
  by_contra hheadranked
  have hun : u < net.n := by
    by_contra hc
    rw [slotsOf_ofNetwork_oob net hval (by omega)] at hs
    exact List.not_mem_nil s hs
  obtain ⟨hslt, hstail, hshead_lt, _⟩ := mem_slotsOf_facts net hval hsh hun hs
  obtain ⟨hinv_tw, htwlt, htwne⟩ := twinOf_involution net hval hsh hslt
  have htw_tail : tailOf adj (twinOf adj s) = headOf adj s := by
    unfold tailOf
    rw [hinv_tw]
  obtain ⟨hsl_own, _, _, _⟩ := slot_owner net hval hsh htwlt
  rw [htw_tail] at hsl_own
  have htw_mem : twinOf adj s ∈
      slotsOf (ResidualNetwork.ofNetwork net).arcs_out_span (headOf adj s) :=
    (mem_slotsOf net hval hshead_lt).mpr hsl_own
  have hrc2 : 0 < rc adj (twinOf adj (twinOf adj s)) := by
    rw [hinv_tw]
    exact hrc
  have := hclosure (headOf adj s) hheadranked (twinOf adj s) htw_mem hrc2
  have htw_head : headOf adj (twinOf adj s) = u := by
    unfold tailOf at hstail
    exact hstail
  rw [htw_head, hu2] at this
  exact this rfl

/-! ## The saturating DFS of a phase: postcondition bundle -/

/-- One-step unfolding of the saturating DFS. -/
theorem dfs_succ (spans : Array (Nat × Nat)) (rank : Array (Option Nat))
    (sink fuel u flow : Nat) (adj : Array ResidualArc) (cur : Array Nat) :
    dfs spans rank sink (fuel + 1) u flow adj cur
      = if flow = 0 ∨ u = sink then (flow, adj, cur)
        else
          if cur.getD u 0 < (spans.getD u (0, 0)).2 then
            if admissibleB rank u (headOf adj (cur.getD u 0)) ∧
                0 < rc adj (cur.getD u 0) then
              match dfs spans rank sink fuel (headOf adj (cur.getD u 0))
                  (Nat.min flow (rc adj (cur.getD u 0))) adj cur with
              | (df, adj2, cur2) =>
                if 0 < df then (df, push_flow adj2 (cur.getD u 0) df, cur2)
                else dfs spans rank sink fuel u flow adj2 (cur2.modify u (· + 1))
            else dfs spans rank sink fuel u flow adj (cur.modify u (· + 1))
          else (0, adj, cur) := rfl

theorem getD_modify_ge (a : Array Nat) (i j : Nat) :
    a.getD j 0 ≤ (a.modify i (· + 1)).getD j 0 := by
  rcases eq_or_ne i j with h | h
  · subst h
    by_cases hi : i < a.size
    · rw [Array.getD_modify_self _ _ _ _ hi]
      omega
    · rw [Array.getD_oob a _ _ (by omega),
        Array.getD_oob _ _ _ (by rw [Array.size_modify]; omega)]
  · rw [Array.getD_modify_ne _ _ _ _ _ h]

/-- Everything one DFS invocation guarantees about its result: shape-preserving
valid pushes, routed amount bounded by the flow bound, monotone cursors touched
only at ranks at most the entry rank, capacities changed only at slots whose
tails hold ranks at most the entry rank and never increased on admissible slots,
no change at all when nothing was routed, and exact accounting: the entry
vertex's out-range loses exactly the routed amount, which lands as excess on the
sink at the expense of the entry vertex. -/
structure DfsPost (net : FlowNetwork) (rank : Array (Option Nat)) (u flow : Nat)
    (adj : Array ResidualArc) (cur : Array Nat)
    (df : Nat) (adj2 : Array ResidualArc) (cur2 : Array Nat) : Prop where
  shp : SameShapeArr adj adj2
  reach : ValidReach net adj adj2
  dfle : df ≤ flow
  cursize : cur2.size = cur.size
  curmono : ∀ v, cur.getD v 0 ≤ cur2.getD v 0
  zeroAdj : df = 0 → adj2 = adj
  admDec : ∀ s, s < 2 * net.m →
    admissibleB rank (tailOf adj s) (headOf adj s) = true → rc adj2 s ≤ rc adj s
  loc : ∀ s, rc adj2 s ≠ rc adj s →
    ∃ ru rs, rank.getD u none = some ru ∧
      rank.getD (tailOf adj s) none = some rs ∧ rs ≤ ru
  curLoc : ∀ v, cur2.getD v 0 ≠ cur.getD v 0 →
    ∃ ru rv, rank.getD u none = some ru ∧ rank.getD v none = some rv ∧ rv ≤ ru
  sinkFix : u = net.sink → adj2 = adj ∧ cur2 = cur
  rangeSum : u ≠ net.sink →
    ((slotsOf (ResidualNetwork.ofNetwork net).arcs_out_span u).map (rc adj2)).sum + df
      = ((slotsOf (ResidualNetwork.ofNetwork net).arcs_out_span u).map (rc adj)).sum
  exc : u ≠ net.sink → ∀ v,
    excess net (flowOf net adj2) v
      = excess net (flowOf net adj) v + (if net.sink = v then (df : Int) else 0)
        - (if u = v then (df : Int) else 0)

/-- The do-nothing postcondition, covering every early return of the DFS. -/
theorem dfsPost_id (net : FlowNetwork) (rank : Array (Option Nat)) (u flow df0 : Nat)
    (adj : Array ResidualArc) (cur : Array Nat)
    (hdf : df0 ≤ flow) (hns : u ≠ net.sink → df0 = 0) :
    DfsPost net rank u flow adj cur df0 adj cur := by
  refine ⟨SameShapeArr.refl adj, ValidReach.refl, hdf, rfl, fun v => le_refl _,
    fun _ => rfl, fun s _ _ => le_refl _, fun s hne => absurd rfl hne,
    fun v hne => absurd rfl hne, fun _ => ⟨rfl, rfl⟩, ?_, ?_⟩
  · intro hu
    rw [hns hu]
    omega
  · intro hu v
    rw [hns hu]
    simp

/-- Main induction: the DFS satisfies its postcondition bundle. -/
theorem dfs_post (net : FlowNetwork) (hval : net.Valid) (rank : Array (Option Nat)) :
    ∀ (fuel u flow : Nat) (adj : Array ResidualArc) (cur : Array Nat)
      (df : Nat) (adj2 : Array ResidualArc) (cur2 : Array Nat),
      Shape net adj →
      (∀ v, v < net.n → startOf net v ≤ cur.getD v 0) →
      rank.getD u none ≠ none →
      dfs (ResidualNetwork.ofNetwork net).arcs_out_span rank net.sink fuel u flow
        adj cur = (df, adj2, cur2) →
      DfsPost net rank u flow adj cur df adj2 cur2 := by
  intro fuel
  induction fuel with
  | zero =>
    intro u flow adj cur df adj2 cur2 hsh hwf hur heq
    have h : ((0 : Nat), adj, cur) = (df, adj2, cur2) := heq
    injection h with h1 h'
    injection h' with h2 h3
    rw [← h1, ← h2, ← h3]
    exact dfsPost_id net rank u flow 0 adj cur (Nat.zero_le flow) (fun _ => rfl)
  | succ fuel ih =>
    intro u flow adj cur df adj2 cur2 hsh hwf hur heq
    rw [dfs_succ] at heq
    by_cases hstop : flow = 0 ∨ u = net.sink
    · rw [if_pos hstop] at heq
      injection heq with h1 h'
      injection h' with h2 h3
      rw [← h1, ← h2, ← h3]
      exact dfsPost_id net rank u flow flow adj cur (le_refl flow)
        (fun hu => hstop.resolve_right hu)
    · rw [if_neg hstop] at heq
      push_neg at hstop
      obtain ⟨hflow, hsink⟩ := hstop
      by_cases hcur : cur.getD u 0
          < ((ResidualNetwork.ofNetwork net).arcs_out_span.getD u (0, 0)).2
      · rw [if_pos hcur] at heq
        have hun : u < net.n := by
          by_contra hc
          rw [spans_snd_oob net hval (by omega)] at hcur
          omega
        have hcstop : cur.getD u 0 < startOf net u + incCount net.arcs u := by
          rw [← spans_snd net hval hun]
          exact hcur
        have hcmem : cur.getD u 0
            ∈ slotsOf (ResidualNetwork.ofNetwork net).arcs_out_span u :=
          (mem_slotsOf net hval hun).mpr ⟨hun, hwf u hun, hcstop⟩
        obtain ⟨hclt, hctail, hchlt, hchne⟩ :=
          mem_slotsOf_facts net hval hsh hun hcmem
        by_cases hadm : admissibleB rank u (headOf adj (cur.getD u 0)) = true ∧
            0 < rc adj (cur.getD u 0)
        · rw [if_pos hadm] at heq
          obtain ⟨rh, hrh, hru⟩ :=
            (admissibleB_iff rank u (headOf adj (cur.getD u 0))).mp hadm.1
          rcases hsub : dfs (ResidualNetwork.ofNetwork net).arcs_out_span rank
              net.sink fuel (headOf adj (cur.getD u 0))
              (Nat.min flow (rc adj (cur.getD u 0))) adj cur with ⟨df1, adjS, curS⟩
          rw [hsub] at heq
          have heq2 : (if 0 < df1 then
                (df1, push_flow adjS (cur.getD u 0) df1, curS)
              else dfs (ResidualNetwork.ofNetwork net).arcs_out_span rank net.sink
                fuel u flow adjS (curS.modify u (· + 1))) = (df, adj2, cur2) := heq
          have Psub := ih (headOf adj (cur.getD u 0))
            (Nat.min flow (rc adj (cur.getD u 0))) adj cur df1 adjS curS hsh hwf
            (by rw [hrh]; simp) hsub
          have hfix : ∀ s ∈ slotsOf (ResidualNetwork.ofNetwork net).arcs_out_span u,
              rc adjS s = rc adj s := by
            intro s hs
            by_contra hne
            obtain ⟨ru2, rs, hru2, hrs, hle⟩ := Psub.loc s hne
            rw [hrh] at hru2
            injection hru2 with e1
            obtain ⟨_, hstail, _, _⟩ := mem_slotsOf_facts net hval hsh hun hs
            rw [hstail, hru] at hrs
            injection hrs with e2
            omega
          have hc2 : rc adjS (cur.getD u 0) = rc adj (cur.getD u 0) :=
            hfix _ hcmem
          obtain ⟨hinv_tw, htwlt, htwne⟩ := twinOf_involution net hval hsh hclt
          have htwS : twinOf adjS (cur.getD u 0) = twinOf adj (cur.getD u 0) :=
            (Psub.shp.2 _).2
          have hszS : adjS.size = 2 * net.m := Psub.shp.1.trans hsh.1
          by_cases hdfpos : 0 < df1
          · rw [if_pos hdfpos] at heq2
            injection heq2 with h1 h'
            injection h' with h2 h3
            rw [← h1, ← h2, ← h3]
            have hdf1_minle : df1 ≤ min flow (rc adj (cur.getD u 0)) := Psub.dfle
            have hdf1_rc : df1 ≤ rc adj (cur.getD u 0) :=
              le_trans hdf1_minle (min_le_right _ _)
            have hdf1_flow : df1 ≤ flow :=
              le_trans hdf1_minle (min_le_left _ _)
            have htw_tailc : tailOf adj (twinOf adj (cur.getD u 0))
                = headOf adj (cur.getD u 0) := by
              unfold tailOf
              rw [hinv_tw]
            have htw_headc : headOf adj (twinOf adj (cur.getD u 0))
                = tailOf adj (cur.getD u 0) := rfl
            refine ⟨sameShapeArr_trans Psub.shp (push_flow_sameShape adjS _ df1),
              ValidReach.snoc adjS _ df1 Psub.reach (by omega) hdfpos
                (by rw [hc2]; exact hdf1_rc),
              hdf1_flow, Psub.cursize, Psub.curmono,
              fun h => absurd h (by omega), ?_, ?_, ?_,
              fun h => absurd h hsink, ?_, ?_⟩
            · -- admissible slots never gain capacity
              intro s hs hadms
              rcases eq_or_ne s (cur.getD u 0) with hsc | hsc
              · subst hsc
                rw [rc_push_flow_self adjS _ df1 (by omega) (by rw [htwS]; exact htwne)]
                rw [hc2]
                omega
              · rcases eq_or_ne s (twinOf adj (cur.getD u 0)) with hst | hst
                · subst hst
                  rw [htw_tailc, htw_headc, hctail] at hadms
                  rw [admissibleB_antisymm rank hadm.1] at hadms
                  exact absurd hadms (by simp)
                · rw [rc_push_flow_other adjS _ df1 s hsc (by rw [htwS]; exact hst)]
                  exact Psub.admDec s hs hadms
            · -- capacity changes stay at ranks at most rank u
              intro s hne
              rcases eq_or_ne s (cur.getD u 0) with hsc | hsc
              · subst hsc
                exact ⟨rh + 1, rh + 1, hru, by rw [hctail]; exact hru, le_refl _⟩
              · rcases eq_or_ne s (twinOf adj (cur.getD u 0)) with hst | hst
                · subst hst
                  exact ⟨rh + 1, rh, hru, by rw [htw_tailc]; exact hrh, by omega⟩
                · rw [rc_push_flow_other adjS _ df1 s hsc
                    (by rw [htwS]; exact hst)] at hne
                  obtain ⟨ru2, rs, hru2, hrs, hle⟩ := Psub.loc s hne
                  rw [hrh] at hru2
                  injection hru2 with e1
                  exact ⟨rh + 1, rs, hru, hrs, by omega⟩
            · -- cursor changes stay at ranks at most rank u
              intro v hvne
              obtain ⟨ru2, rv, hru2, hrv, hle⟩ := Psub.curLoc v hvne
              rw [hrh] at hru2
              injection hru2 with e1
              exact ⟨rh + 1, rv, hru, hrv, by omega⟩
            · -- the entry range loses exactly the routed amount
              intro _
              have hoth : ∀ s ∈ slotsOf (ResidualNetwork.ofNetwork net).arcs_out_span u,
                  s ≠ cur.getD u 0 →
                  rc (push_flow adjS (cur.getD u 0) df1) s = rc adj s := by
                intro s hs hsne
                have hst : s ≠ twinOf adj (cur.getD u 0) := by
                  intro hc
                  have hsin : SlotIn net s u := (mem_slotsOf net hval hun).mp hs
                  obtain ⟨hown, _, _, _⟩ := slot_owner net hval hsh htwlt
                  rw [htw_tailc] at hown
                  rw [← hc] at hown
                  exact hchne (SlotIn.unique net hown hsin)
                rw [rc_push_flow_other adjS _ df1 s hsne (by rw [htwS]; exact hst)]
                exact hfix s hs
              have hgc : rc (push_flow adjS (cur.getD u 0) df1) (cur.getD u 0)
                  = rc adj (cur.getD u 0) - df1 := by
                rw [rc_push_flow_self adjS _ df1 (by omega) (by rw [htwS]; exact htwne),
                  hc2]
              have hkey := map_sum_single_update (rc adj)
                (rc (push_flow adjS (cur.getD u 0) df1)) (slotsOf_nodup net u)
                hcmem hoth (by rw [hgc]; omega)
              rw [hgc] at hkey
              rw [show rc adj (cur.getD u 0) - (rc adj (cur.getD u 0) - df1) = df1
                from by omega] at hkey
              exact hkey
            · -- excess transfer to the sink
              intro _ v
              have hshS : Shape net adjS := shape_of_sameShape hsh Psub.shp
              have hpush := excess_push net hval hshS
                (show cur.getD u 0 < 2 * net.m from hclt)
                (show df1 ≤ rc adjS (cur.getD u 0) from by rw [hc2]; exact hdf1_rc) v
              have hh : headOf adjS (cur.getD u 0) = headOf adj (cur.getD u 0) :=
                (Psub.shp.2 _).1
              have ht : tailOf adjS (cur.getD u 0) = u := by
                rw [tailOf_congr Psub.shp]
                exact hctail
              rw [hh, ht] at hpush
              by_cases hcs : headOf adj (cur.getD u 0) = net.sink
              · obtain ⟨hadjS_eq, _⟩ := Psub.sinkFix hcs
                rw [hcs] at hpush
                rw [hpush, hadjS_eq]
              · have hexcS := Psub.exc hcs v
                rw [hpush, hexcS]
                ring
          · rw [if_neg hdfpos] at heq2
            have hdf1 : df1 = 0 := by omega
            have hadjS : adjS = adj := Psub.zeroAdj hdf1
            subst hadjS
            have hwf2 : ∀ v, v < net.n →
                startOf net v ≤ (curS.modify u (· + 1)).getD v 0 := by
              intro v hv
              exact le_trans (le_trans (hwf v hv) (Psub.curmono v))
                (getD_modify_ge curS u v)
            have P2 := ih u flow adjS (curS.modify u (· + 1)) df adj2 cur2 hsh hwf2
              hur heq2
            refine ⟨P2.shp, P2.reach, P2.dfle,
              P2.cursize.trans ((Array.size_modify _ _ _).trans Psub.cursize),
              fun v => le_trans (le_trans (Psub.curmono v) (getD_modify_ge curS u v))
                (P2.curmono v),
              P2.zeroAdj, P2.admDec, P2.loc, ?_,
              fun h => absurd h hsink, P2.rangeSum, P2.exc⟩
            intro v hvne
            by_cases h2 : cur2.getD v 0 = (curS.modify u (· + 1)).getD v 0
            · by_cases hvu : v = u
              · subst hvu
                exact ⟨rh + 1, rh + 1, hru, hru, le_refl _⟩
              · have h3 : (curS.modify u (· + 1)).getD v 0 = curS.getD v 0 :=
                  Array.getD_modify_ne _ _ _ _ _ (fun hc => hvu hc.symm)
                have h4 : curS.getD v 0 ≠ cur.getD v 0 := by
                  rw [← h3, ← h2]
                  exact hvne
                obtain ⟨ruh, rv, hruh, hrv, hlev⟩ := Psub.curLoc v h4
                rw [hrh] at hruh
                injection hruh with e1
                exact ⟨rh + 1, rv, hru, hrv, by omega⟩
            · exact P2.curLoc v h2
        · rw [if_neg hadm] at heq
          have hwf2 : ∀ v, v < net.n →
              startOf net v ≤ (cur.modify u (· + 1)).getD v 0 :=
            fun v hv => le_trans (hwf v hv) (getD_modify_ge cur u v)
          have P2 := ih u flow adj (cur.modify u (· + 1)) df adj2 cur2 hsh hwf2
            hur heq
          rcases hr : rank.getD u none with _ | ru0
          · exact absurd hr hur
          refine ⟨P2.shp, P2.reach, P2.dfle,
            P2.cursize.trans (Array.size_modify _ _ _),
            fun v => le_trans (getD_modify_ge cur u v) (P2.curmono v),
            P2.zeroAdj, P2.admDec, P2.loc, ?_,
            fun h => absurd h hsink, P2.rangeSum, P2.exc⟩
          intro v hvne
          by_cases h2 : cur2.getD v 0 = (cur.modify u (· + 1)).getD v 0
          · by_cases hvu : v = u
            · subst hvu
              exact ⟨ru0, ru0, hr, hr, le_refl _⟩
            · have h3 : (cur.modify u (· + 1)).getD v 0 = cur.getD v 0 :=
                Array.getD_modify_ne _ _ _ _ _ (fun hc => hvu hc.symm)
              rw [h3] at h2
              exact absurd h2 hvne
          · exact P2.curLoc v h2
      · rw [if_neg hcur] at heq
        have h : ((0 : Nat), adj, cur) = (df, adj2, cur2) := heq
        injection h with h1 h'
        injection h' with h2 h3
        rw [← h1, ← h2, ← h3]
        exact dfsPost_id net rank u flow 0 adj cur (Nat.zero_le flow) (fun _ => rfl)

/-- Advancing one in-range cursor strictly decreases the phase potential. -/
theorem curPhi_advance (net : FlowNetwork) {cur : Array Nat} {u : Nat}
    (hu : u < net.n) (hsz : u < cur.size)
    (hlt : cur.getD u 0 < startOf net u + incCount net.arcs u) :
    curPhi net (cur.modify u (· + 1)) + 1 ≤ curPhi net cur := by
  unfold curPhi
  have hstrict : ∑ v ∈ Finset.range net.n,
      (startOf net v + incCount net.arcs v - (cur.modify u (· + 1)).getD v 0)
      < ∑ v ∈ Finset.range net.n,
      (startOf net v + incCount net.arcs v - cur.getD v 0) := by
    apply Finset.sum_lt_sum
    · intro v _
      have := getD_modify_ge cur u v
      omega
    · refine ⟨u, Finset.mem_range.mpr hu, ?_⟩
      rw [Array.getD_modify_self _ _ _ _ hsz]
      omega
  omega

/-- Dead-arc preservation and completeness of the DFS: with enough fuel, a
failed invocation leaves the state with no admissible residual path from the
entry vertex. -/
theorem dfs_complete (net : FlowNetwork) (hval : net.Valid)
    (rank : Array (Option Nat)) :
    ∀ (fuel u flow : Nat) (adj : Array ResidualArc) (cur : Array Nat)
      (df : Nat) (adj2 : Array ResidualArc) (cur2 : Array Nat),
      Shape net adj →
      (∀ v, v < net.n → startOf net v ≤ cur.getD v 0) →
      rank.getD u none ≠ none →
      cur.size = net.n →
      DAI net adj rank cur →
      rankValB rank u + 2 * curPhi net cur + 2 ≤ fuel →
      dfs (ResidualNetwork.ofNetwork net).arcs_out_span rank net.sink fuel u flow
        adj cur = (df, adj2, cur2) →
      DAI net adj2 rank cur2 ∧
      (df = 0 → 0 < flow → ¬ AdmPath net adj rank u) := by
  intro fuel
  induction fuel with
  | zero =>
    intro u flow adj cur df adj2 cur2 _ _ _ _ _ hfuel _
    omega
  | succ fuel ih =>
    intro u flow adj cur df adj2 cur2 hsh hwf hur hcsz hdai hfuel heq
    rw [dfs_succ] at heq
    by_cases hstop : flow = 0 ∨ u = net.sink
    · rw [if_pos hstop] at heq
      injection heq with h1 h'
      injection h' with h2 h3
      rw [← h2, ← h3]
      refine ⟨hdai, ?_⟩
      intro hdf0 hflow
      rw [← h1] at hdf0
      rcases hstop with h | h
      · omega
      · exact absurd hdf0 (by omega)
    · rw [if_neg hstop] at heq
      push_neg at hstop
      obtain ⟨hflow, hsink⟩ := hstop
      by_cases hcur : cur.getD u 0
          < ((ResidualNetwork.ofNetwork net).arcs_out_span.getD u (0, 0)).2
      · rw [if_pos hcur] at heq
        have hun : u < net.n := by
          by_contra hc
          rw [spans_snd_oob net hval (by omega)] at hcur
          omega
        have hcstop : cur.getD u 0 < startOf net u + incCount net.arcs u := by
          rw [← spans_snd net hval hun]
          exact hcur
        have hcmem : cur.getD u 0
            ∈ slotsOf (ResidualNetwork.ofNetwork net).arcs_out_span u :=
          (mem_slotsOf net hval hun).mpr ⟨hun, hwf u hun, hcstop⟩
        obtain ⟨hclt, hctail, hchlt, hchne⟩ :=
          mem_slotsOf_facts net hval hsh hun hcmem
        by_cases hadm : admissibleB rank u (headOf adj (cur.getD u 0)) = true ∧
            0 < rc adj (cur.getD u 0)
        · rw [if_pos hadm] at heq
          obtain ⟨rh, hrh, hru⟩ :=
            (admissibleB_iff rank u (headOf adj (cur.getD u 0))).mp hadm.1
          have hrvu : rankValB rank u = rh + 1 := by
            unfold rankValB
            rw [hru]
            rfl
          have hrvh : rankValB rank (headOf adj (cur.getD u 0)) = rh := by
            unfold rankValB
            rw [hrh]
            rfl
          rcases hsub : dfs (ResidualNetwork.ofNetwork net).arcs_out_span rank
              net.sink fuel (headOf adj (cur.getD u 0))
              (Nat.min flow (rc adj (cur.getD u 0))) adj cur with ⟨df1, adjS, curS⟩
          rw [hsub] at heq
          have heq2 : (if 0 < df1 then
                (df1, push_flow adjS (cur.getD u 0) df1, curS)
              else dfs (ResidualNetwork.ofNetwork net).arcs_out_span rank net.sink
                fuel u flow adjS (curS.modify u (· + 1))) = (df, adj2, cur2) := heq
          have Psub := dfs_post net hval rank fuel (headOf adj (cur.getD u 0))
            (Nat.min flow (rc adj (cur.getD u 0))) adj cur df1 adjS curS hsh hwf
            (by rw [hrh]; simp) hsub
          obtain ⟨hdaiS, hcompS⟩ := ih (headOf adj (cur.getD u 0))
            (Nat.min flow (rc adj (cur.getD u 0))) adj cur df1 adjS curS hsh hwf
            (by rw [hrh]; simp) hcsz hdai (by rw [hrvh] at *; omega) hsub
          by_cases hdfpos : 0 < df1
          · rw [if_pos hdfpos] at heq2
            injection heq2 with h1 h'
            injection h' with h2 h3
            rw [← h2, ← h3]
            have hshS : Shape net adjS := shape_of_sameShape hsh Psub.shp
            have hadmS : admissibleB rank (tailOf adjS (cur.getD u 0))
                (headOf adjS (cur.getD u 0)) = true := by
              rw [tailOf_congr Psub.shp, hctail, (Psub.shp.2 _).1]
              exact hadm.1
            refine ⟨dai_push_admissible net hval hshS hdaiS hclt hadmS, ?_⟩
            intro hdf0 _
            rw [← h1] at hdf0
            omega
          · rw [if_neg hdfpos] at heq2
            have hdf1 : df1 = 0 := by omega
            have hadjS : adjS = adj := Psub.zeroAdj hdf1
            subst hadjS
            have hcurSu : curS.getD u 0 = cur.getD u 0 := by
              by_contra hc
              obtain ⟨ruh, rv, hruh, hrv, hlev⟩ := Psub.curLoc u hc
              rw [hrh] at hruh
              rw [hru] at hrv
              injection hruh with e1
              injection hrv with e2
              omega
            have hminpos : 0 < Nat.min flow (rc adjS (cur.getD u 0)) := by
              have : (0 : Nat) < min flow (rc adjS (cur.getD u 0)) :=
                lt_min (Nat.pos_of_ne_zero hflow) hadm.2
              exact this
            have hdead := hcompS hdf1 hminpos
            have hcurS_sz : curS.size = net.n := Psub.cursize.trans hcsz
            have hdai2 : DAI net adjS rank (curS.modify u (· + 1)) := by
              intro v hv s h1 h2 h3
              rcases eq_or_ne v u with hvu | hvu
              · subst hvu
                rw [Array.getD_modify_self _ _ _ _ (by omega)] at h2
                rcases Nat.lt_or_ge s (curS.getD v 0) with hlt2 | hge2
                · exact hdaiS v hv s h1 hlt2 h3
                · have hseq : s = curS.getD v 0 := by omega
                  rw [hseq, hcurSu]
                  rintro ⟨_, _, hpath⟩
                  exact hdead hpath
              · rw [Array.getD_modify_ne _ _ _ _ _ (fun hc => hvu hc.symm)] at h2
                exact hdaiS v hv s h1 h2 h3
            have hwf2 : ∀ v, v < net.n →
                startOf net v ≤ (curS.modify u (· + 1)).getD v 0 := by
              intro v hv
              exact le_trans (le_trans (hwf v hv) (Psub.curmono v))
                (getD_modify_ge curS u v)
            have hphi : curPhi net (curS.modify u (· + 1)) + 1 ≤ curPhi net cur := by
              have h1 := @curPhi_advance net curS u hun (by omega)
                (by rw [hcurSu]; exact hcstop)
              have h2 := curPhi_mono net Psub.curmono
              omega
            obtain ⟨hdaiF, hcompF⟩ := ih u flow adjS (curS.modify u (· + 1)) df
              adj2 cur2 hsh hwf2 hur (by rw [Array.size_modify]; exact hcurS_sz)
              hdai2 (by omega) heq2
            exact ⟨hdaiF, hcompF⟩
        · rw [if_neg hadm] at heq
          have hwf2 : ∀ v, v < net.n →
              startOf net v ≤ (cur.modify u (· + 1)).getD v 0 :=
            fun v hv => le_trans (hwf v hv) (getD_modify_ge cur u v)
          have hdai2 : DAI net adj rank (cur.modify u (· + 1)) := by
            intro v hv s h1 h2 h3
            rcases eq_or_ne v u with hvu | hvu
            · subst hvu
              rw [Array.getD_modify_self _ _ _ _ (by omega)] at h2
              rcases Nat.lt_or_ge s (cur.getD v 0) with hlt2 | hge2
              · exact hdai v hv s h1 hlt2 h3
              · have hseq : s = cur.getD v 0 := by omega
                rw [hseq]
                rintro ⟨ha, hb, _⟩
                exact hadm ⟨ha, hb⟩
            · rw [Array.getD_modify_ne _ _ _ _ _ (fun hc => hvu hc.symm)] at h2
              exact hdai v hv s h1 h2 h3
          have hphi : curPhi net (cur.modify u (· + 1)) + 1 ≤ curPhi net cur :=
            @curPhi_advance net cur u hun (by omega) hcstop
          obtain ⟨hdaiF, hcompF⟩ := ih u flow adj (cur.modify u (· + 1)) df
            adj2 cur2 hsh hwf2 hur (by rw [Array.size_modify]; exact hcsz)
            hdai2 (by omega) heq
          exact ⟨hdaiF, hcompF⟩
      · rw [if_neg hcur] at heq
        have h : ((0 : Nat), adj, cur) = (df, adj2, cur2) := heq
        injection h with h1 h'
        injection h' with h2 h3
        rw [← h2, ← h3]
        refine ⟨hdai, ?_⟩
        intro _ _
        rintro ⟨P, hP⟩
        cases P with
        | nil => exact hsink hP
        | cons s rest =>
          obtain ⟨hm, hadm2, hrc2, hrest⟩ := hP
          have hun : u < net.n := by
            by_contra hc
            rw [slotsOf_ofNetwork_oob net hval (by omega)] at hm
            exact List.not_mem_nil s hm
          obtain ⟨_, hs1, hs2⟩ := (mem_slotsOf net hval hun).mp hm
          have hstop2 : startOf net u + incCount net.arcs u ≤ cur.getD u 0 := by
            rw [← spans_snd net hval hun]
            omega
          exact hdai u hun s hs1 (by omega) hs2 ⟨hadm2, hrc2, ⟨rest, hrest⟩⟩

/-! ## The rounds of a phase: blocking flow by repeated DFS -/

theorem infiniteFlow_pos : 0 < InfiniteFlow := by
  unfold InfiniteFlow
  norm_num

/-- Running the DFS until it fails preserves the solver invariant, routes a
positive amount whenever an admissible path exists, removes exactly the routed
amount from the source's out-capacity, and ends with no admissible path left. -/
theorem dfs_rounds_spec (net : FlowNetwork) (hval : net.Valid)
    (adj0 : Array ResidualArc) (rank : Array (Option Nat))
    (hsrcC : rank.getD net.source none ≠ none) :
    ∀ (rfuel : Nat) (adj : Array ResidualArc) (cur : Array Nat) (acc : Nat)
      (adjF : Array ResidualArc) (curF : Array Nat) (accF : Nat) (mf0 : Nat),
      EKGood net adj0 adj (mf0 + acc) →
      (∀ v, v < net.n → startOf net v ≤ cur.getD v 0) →
      cur.size = net.n →
      DAI net adj rank cur →
      rankValB rank net.source + 2 * curPhi net cur + 2 ≤ net.n + 4 * net.m + 4 →
      sourceOutRC (ResidualNetwork.ofNetwork net).arcs_out_span adj net.source
        < rfuel →
      dfs_rounds (ResidualNetwork.ofNetwork net).arcs_out_span rank net.source
        net.sink (net.n + 4 * net.m + 4) rfuel adj cur acc = (adjF, curF, accF) →
      EKGood net adj0 adjF (mf0 + accF) ∧ acc ≤ accF ∧
      (AdmPath net adj rank net.source → acc < accF) ∧
      ¬ AdmPath net adjF rank net.source ∧
      sourceOutRC (ResidualNetwork.ofNetwork net).arcs_out_span adjF net.source + accF
        = sourceOutRC (ResidualNetwork.ofNetwork net).arcs_out_span adj net.source
          + acc := by
  intro rfuel
  induction rfuel with
  | zero =>
    intro adj cur acc adjF curF accF mf0 _ _ _ _ _ hlt _
    omega
  | succ rfuel ih =>
    intro adj cur acc adjF curF accF mf0 hgood hwf hcsz hdai hphi hlt heq
    rcases hd : dfs (ResidualNetwork.ofNetwork net).arcs_out_span rank net.sink
        (net.n + 4 * net.m + 4) net.source InfiniteFlow adj cur with ⟨df, adj2, cur2⟩
    have heq2 : (if df = 0 then (adj2, cur2, acc)
        else dfs_rounds (ResidualNetwork.ofNetwork net).arcs_out_span rank
          net.source net.sink (net.n + 4 * net.m + 4) rfuel adj2 cur2 (acc + df))
        = (adjF, curF, accF) := by
      unfold dfs_rounds at heq
      rw [hd] at heq
      exact heq
    have P := dfs_post net hval rank (net.n + 4 * net.m + 4) net.source
      InfiniteFlow adj cur df adj2 cur2 hgood.1 hwf hsrcC hd
    obtain ⟨hdai2, hcomp⟩ := dfs_complete net hval rank (net.n + 4 * net.m + 4)
      net.source InfiniteFlow adj cur df adj2 cur2 hgood.1 hwf hsrcC hcsz hdai
      hphi hd
    have hss : net.source ≠ net.sink := hval.2.2.2.1
    by_cases hdf : df = 0
    · rw [if_pos hdf] at heq2
      injection heq2 with h1 h'
      injection h' with h2 h3
      have hadj2 : adj2 = adj := P.zeroAdj hdf
      have hnopath : ¬ AdmPath net adj rank net.source :=
        hcomp hdf infiniteFlow_pos
      rw [← h1, ← h3, hadj2]
      refine ⟨hgood, le_refl acc, fun hp => absurd hp hnopath, hnopath, rfl⟩
    · rw [if_neg hdf] at heq2
      obtain ⟨hsh, hsum, hreach, hcons, hsink, hsrc⟩ := hgood
      have hsi := ValidReach.shape_sumInv hval P.reach hsh hsum
      have hgood2 : EKGood net adj0 adj2 (mf0 + (acc + df)) := by
        refine ⟨hsi.1, hsi.2, validReach_trans hreach P.reach, ?_, ?_, ?_⟩
        · intro v hv1 hv2
          rw [P.exc hss v, hcons v hv1 hv2, if_neg (fun hc => hv2 hc.symm),
            if_neg (fun hc => hv1 hc.symm)]
          ring
        · rw [P.exc hss net.sink, hsink, if_pos rfl, if_neg hss]
          push_cast
          ring
        · rw [P.exc hss net.source, hsrc, if_neg (fun hc => hss hc.symm), if_pos rfl]
          push_cast
          ring
      have hso2 : sourceOutRC (ResidualNetwork.ofNetwork net).arcs_out_span adj2
          net.source + df
          = sourceOutRC (ResidualNetwork.ofNetwork net).arcs_out_span adj
            net.source := P.rangeSum hss
      have hphi2 : rankValB rank net.source + 2 * curPhi net cur2 + 2
          ≤ net.n + 4 * net.m + 4 := by
        have := curPhi_mono net P.curmono
        omega
      obtain ⟨c1, c2, c3, c4, c5⟩ := ih adj2 cur2 (acc + df) adjF curF accF mf0
        hgood2 (fun v hv => le_trans (hwf v hv) (P.curmono v))
        (P.cursize.trans hcsz) hdai2 hphi2 (by omega) heq2
      refine ⟨c1, by omega, fun _ => by omega, c4, by omega⟩

/-! ## The phase loop of Dinitz-Cherkassky -/

/-- The phase loop runs to natural completion within its fuel: the final state
keeps the solver invariant and its reverse BFS leaves the source unranked. -/
theorem dc_phases_spec (net : FlowNetwork) (hval : net.Valid)
    (adj0 : Array ResidualArc) :
    ∀ (pfuel : Nat) (adj : Array ResidualArc) (mf : Nat)
      (adjT : Array ResidualArc) (mfT : Nat),
      EKGood net adj0 adj mf →
      sourceOutRC (ResidualNetwork.ofNetwork net).arcs_out_span adj net.source
        < pfuel →
      dc_phases net (ResidualNetwork.ofNetwork net).arcs_out_span
        (net.n + 4 * net.m + 4) pfuel adj mf = (adjT, mfT) →
      EKGood net adj0 adjT mfT ∧
      (bfs_compute_rank net (ResidualNetwork.ofNetwork net).arcs_out_span
        adjT).getD net.source none = none := by
  intro pfuel
  induction pfuel with
  | zero =>
    intro adj mf adjT mfT _ hlt _
    omega
  | succ pfuel ih =>
    intro adj mf adjT mfT hgood hlt heq
    have heq2 : (if (bfs_compute_rank net
          (ResidualNetwork.ofNetwork net).arcs_out_span adj).getD net.source none
          ≠ none then
        match dfs_rounds (ResidualNetwork.ofNetwork net).arcs_out_span
            (bfs_compute_rank net (ResidualNetwork.ofNetwork net).arcs_out_span adj)
            net.source net.sink (net.n + 4 * net.m + 4)
            (sourceOutRC (ResidualNetwork.ofNetwork net).arcs_out_span adj
              net.source + 1) adj
            (reset_current_arc (ResidualNetwork.ofNetwork net).arcs_out_span) 0 with
        | (adj2, _, phaseFlow) =>
          dc_phases net (ResidualNetwork.ofNetwork net).arcs_out_span
            (net.n + 4 * net.m + 4) pfuel adj2 (mf + phaseFlow)
      else (adj, mf)) = (adjT, mfT) := by
      unfold dc_phases at heq
      exact heq
    by_cases hrank : (bfs_compute_rank net
        (ResidualNetwork.ofNetwork net).arcs_out_span adj).getD net.source none
        ≠ none
    · rw [if_pos hrank] at heq2
      obtain ⟨hrsz, hrsink, hradm, hrbound, hrclosure⟩ :=
        bfs_compute_rank_spec net hval hgood.1
      rcases hrounds : dfs_rounds (ResidualNetwork.ofNetwork net).arcs_out_span
          (bfs_compute_rank net (ResidualNetwork.ofNetwork net).arcs_out_span adj)
          net.source net.sink (net.n + 4 * net.m + 4)
          (sourceOutRC (ResidualNetwork.ofNetwork net).arcs_out_span adj
            net.source + 1) adj
          (reset_current_arc (ResidualNetwork.ofNetwork net).arcs_out_span) 0
        with ⟨adj2, curX, phaseFlow⟩
      rw [hrounds] at heq2
      have heq3 : dc_phases net (ResidualNetwork.ofNetwork net).arcs_out_span
          (net.n + 4 * net.m + 4) pfuel adj2 (mf + phaseFlow) = (adjT, mfT) := heq2
      have hrv : rankValB (bfs_compute_rank net
          (ResidualNetwork.ofNetwork net).arcs_out_span adj) net.source ≤ net.n := by
        rcases hr : (bfs_compute_rank net
            (ResidualNetwork.ofNetwork net).arcs_out_span adj).getD net.source none
          with _ | k
        · exact absurd hr hrank
        · have := hrbound net.source k hr
          unfold rankValB
          rw [hr]
          exact this
      have hphi : rankValB (bfs_compute_rank net
            (ResidualNetwork.ofNetwork net).arcs_out_span adj) net.source
          + 2 * curPhi net
            (reset_current_arc (ResidualNetwork.ofNetwork net).arcs_out_span) + 2
          ≤ net.n + 4 * net.m + 4 := by
        rw [curPhi_reset net hval]
        omega
      obtain ⟨rgood, _, hprog, hnp, hsoeq⟩ := dfs_rounds_spec net hval adj0
        (bfs_compute_rank net (ResidualNetwork.ofNetwork net).arcs_out_span adj)
        hrank _ adj
        (reset_current_arc (ResidualNetwork.ofNetwork net).arcs_out_span) 0
        adj2 curX phaseFlow mf hgood
        (fun v hv => le_of_eq (reset_getD net hval hv).symm)
        (reset_size net hval) (dai_reset net hval adj _) hphi (by omega) hrounds
      have hpos : 0 < phaseFlow := hprog (hradm net.source hrank)
      exact ih adj2 (mf + phaseFlow) adjT mfT rgood (by omega) heq3
    · rw [if_neg hrank] at heq2
      injection heq2 with h1 h2
      push_neg at hrank
      rw [← h1, ← h2]
      exact ⟨hgood, hrank⟩

/-- Final state of Dinitz-Cherkassky: invariant plus a failing reverse BFS. -/
theorem dcFinal_spec (net : FlowNetwork) (hval : net.Valid) :
    EKGood net (ResidualNetwork.ofNetwork net).adjlist (dcFinal net).1
      (dcFinal net).2 ∧
    (bfs_compute_rank net (ResidualNetwork.ofNetwork net).arcs_out_span
      (dcFinal net).1).getD net.source none = none := by
  have heq : dc_phases net (ResidualNetwork.ofNetwork net).arcs_out_span
      (net.n + 4 * net.m + 4)
      (sourceOutRC (ResidualNetwork.ofNetwork net).arcs_out_span
        (ResidualNetwork.ofNetwork net).adjlist net.source + 1)
      (ResidualNetwork.ofNetwork net).adjlist 0
      = ((dcFinal net).1, (dcFinal net).2) := rfl
  exact dc_phases_spec net hval (ResidualNetwork.ofNetwork net).adjlist _ _ _ _ _
    (ekGood_init net hval) (by omega) heq

/-- Bundled facts about the Dinitz-Cherkassky terminal state: state invariants,
no remaining augmenting path, and maximality of the returned value. -/
theorem dc_terminal (net : FlowNetwork) (hval : net.Valid) :
    EKGood net (ResidualNetwork.ofNetwork net).adjlist (dcFinal net).1
      (dcFinal net).2 ∧
    NoAugPath net (dcFinal net).1 ∧
    (∀ g, FeasibleFlow net g → flowValue net g ≤ ((dcFinal net).2 : Int)) := by
  obtain ⟨hgood, hfail⟩ := dcFinal_spec net hval
  obtain ⟨hrsz, hrsink, hradm, hrbound, hrclosure⟩ :=
    bfs_compute_rank_spec net hval hgood.1
  have hSsrc : (fun v => decide ((bfs_compute_rank net
      (ResidualNetwork.ofNetwork net).arcs_out_span (dcFinal net).1).getD v none
      = none)) net.source = true := by
    simp [hfail]
  have hSsink : (fun v => decide ((bfs_compute_rank net
      (ResidualNetwork.ofNetwork net).arcs_out_span (dcFinal net).1).getD v none
      = none)) net.sink = false := by
    simp [hrsink]
  have hclosed : ∀ u, (fun v => decide ((bfs_compute_rank net
        (ResidualNetwork.ofNetwork net).arcs_out_span (dcFinal net).1).getD v none
        = none)) u = true →
      ∀ s ∈ slotsOf (ResidualNetwork.ofNetwork net).arcs_out_span u,
        0 < rc (dcFinal net).1 s →
        (fun v => decide ((bfs_compute_rank net
          (ResidualNetwork.ofNetwork net).arcs_out_span (dcFinal net).1).getD v none
          = none)) (headOf (dcFinal net).1 s) = true := by
    intro u hu s hs hrc
    have hu2 : (bfs_compute_rank net (ResidualNetwork.ofNetwork net).arcs_out_span
        (dcFinal net).1).getD u none = none := by simpa using hu
    show decide _ = true
    rw [decide_eq_true_iff]
    by_contra hheadranked
    have hun : u < net.n := by
      by_contra hc
      rw [slotsOf_ofNetwork_oob net hval (by omega)] at hs
      exact List.not_mem_nil s hs
    obtain ⟨hslt, hstail, hshead_lt, _⟩ := mem_slotsOf_facts net hval hgood.1 hun hs
    obtain ⟨hinv_tw, htwlt, htwne⟩ := twinOf_involution net hval hgood.1 hslt
    have htw_tail : tailOf (dcFinal net).1 (twinOf (dcFinal net).1 s)
        = headOf (dcFinal net).1 s := by
      unfold tailOf
      rw [hinv_tw]
    obtain ⟨hsl_own, _, _, _⟩ := slot_owner net hval hgood.1 htwlt
    rw [htw_tail] at hsl_own
    have htw_mem : twinOf (dcFinal net).1 s ∈
        slotsOf (ResidualNetwork.ofNetwork net).arcs_out_span
          (headOf (dcFinal net).1 s) :=
      (mem_slotsOf net hval hshead_lt).mpr hsl_own
    have hrc2 : 0 < rc (dcFinal net).1
        (twinOf (dcFinal net).1 (twinOf (dcFinal net).1 s)) := by
      rw [hinv_tw]
      exact hrc
    have := hrclosure (headOf (dcFinal net).1 s) hheadranked
      (twinOf (dcFinal net).1 s) htw_mem hrc2
    have htw_head : headOf (dcFinal net).1 (twinOf (dcFinal net).1 s) = u := by
      unfold tailOf at hstail
      exact hstail
    rw [htw_head, hu2] at this
    exact this rfl
  refine ⟨hgood, rank_fail_noAugPath net hval hgood.1 hfail, ?_⟩
  exact (terminal_max net hval hgood.1 hgood.2.1 hgood.2.2.2.1 hgood.2.2.2.2.2
    hSsrc hSsink hclosed).2

/-! ## Readings of the terminal states shared by the claims -/

/-- The flow read off a good terminal arena is feasible and conservative. -/
theorem good_feasible (net : FlowNetwork) {adj0 adj : Array ResidualArc} {mf : Nat}
    (hgood : EKGood net adj0 adj mf) : FeasibleFlow net (flowOf net adj) := by
  refine ⟨?_, hgood.2.2.2.1⟩
  intro i hi
  have := hgood.2.1 i hi
  unfold flowOf
  omega

/-- The flow read off a good terminal arena has value exactly the accumulator. -/
theorem good_value (net : FlowNetwork) {adj0 adj : Array ResidualArc} {mf : Nat}
    (hgood : EKGood net adj0 adj mf) :
    flowValue net (flowOf net adj) = (mf : Int) := by
  unfold flowValue
  rw [hgood.2.2.2.2.2]
  ring

theorem ek_flow_arcs_eq (net : FlowNetwork) (hval : net.Valid) :
    (edmonds_karp net).flow_arcs
      = (List.range net.arcs.length).map (flowOf net (ekFinal net).1) := by
  show get_flow_arcs net _ = _
  exact get_flow_arcs_spec net hval (ekFinal_spec net hval).1.1

theorem dc_flow_arcs_eq (net : FlowNetwork) (hval : net.Valid) :
    (dinitz_cherkassky net).flow_arcs
      = (List.range net.arcs.length).map (flowOf net (dcFinal net).1) := by
  show get_flow_arcs net _ = _
  exact get_flow_arcs_spec net hval (dcFinal_spec net hval).1.1

/-- Within a vertex's range, records are laid out in original arc order. -/
theorem slot_insertion_order (net : FlowNetwork) (hval : net.Valid) {i j : Nat}
    (hi : i < net.arcs.length) (hj : j < net.arcs.length) (hij : i < j) :
    ((arcAt net i).tail = (arcAt net j).tail → fs net i < fs net j) ∧
    ((arcAt net i).tail = (arcAt net j).head → fs net i < bs net j) ∧
    ((arcAt net i).head = (arcAt net j).tail → bs net i < fs net j) ∧
    ((arcAt net i).head = (arcAt net j).head → bs net i < bs net j) := by
  have hince : ∀ u, net.arcs[i].tail = u ∨ net.arcs[i].head = u →
      incCount (net.arcs.take i) u < incCount (net.arcs.take j) u :=
    fun u hu => incCount_take_strict net.arcs u hij hi hu
  have harc : net.arcs[i] = arcAt net i := (arcAt_lt net hi).symm
  refine ⟨?_, ?_, ?_, ?_⟩
  · intro h
    unfold fs
    rw [← h]
    have := hince (arcAt net i).tail (by rw [harc]; exact Or.inl rfl)
    omega
  · intro h
    unfold fs bs
    rw [← h]
    have := hince (arcAt net i).tail (by rw [harc]; exact Or.inl rfl)
    omega
  · intro h
    unfold fs bs
    rw [← h]
    have := hince (arcAt net i).head (by rw [harc]; exact Or.inr rfl)
    omega
  · intro h
    unfold bs
    rw [← h]
    have := hince (arcAt net i).head (by rw [harc]; exact Or.inr rfl)
    omega

/-! ## Fuel independence of the main loops beyond the proven bounds -/

/-- Once the fuel exceeds the termination measure, the Edmonds-Karp loop's
result no longer depends on it: the loop exits by its own guard. -/
theorem ek_loop_stable (net : FlowNetwork) (hval : net.Valid)
    (adj0 : Array ResidualArc) :
    ∀ (fuel1 fuel2 : Nat) (adj : Array ResidualArc) (mf : Nat),
      EKGood net adj0 adj mf →
      sourceOutRC (ResidualNetwork.ofNetwork net).arcs_out_span adj net.source
        < fuel1 →
      sourceOutRC (ResidualNetwork.ofNetwork net).arcs_out_span adj net.source
        < fuel2 →
      ek_loop net (ResidualNetwork.ofNetwork net).arcs_out_span fuel1 adj mf
        = ek_loop net (ResidualNetwork.ofNetwork net).arcs_out_span fuel2 adj mf := by
  intro fuel1
  induction fuel1 with
  | zero =>
    intro fuel2 adj mf _ h1 _
    omega
  | succ fuel1 ih =>
    intro fuel2 adj mf hgood h1 h2
    cases fuel2 with
    | zero => omega
    | succ fuel2 =>
      rcases hbfs : bfs_find_augmenting_path net
          (ResidualNetwork.ofNetwork net).arcs_out_span adj with ⟨pred, found⟩
      have e0 : ∀ pf, ek_loop net (ResidualNetwork.ofNetwork net).arcs_out_span
          (pf + 1) adj mf
          = (match bfs_find_augmenting_path net
              (ResidualNetwork.ofNetwork net).arcs_out_span adj with
            | (_, false) => (adj, mf)
            | (pred, true) =>
              ek_loop net (ResidualNetwork.ofNetwork net).arcs_out_span pf
                (push_path adj
                  (bottleneck adj (walk_path adj pred (net.n + 1) net.sink))
                  (walk_path adj pred (net.n + 1) net.sink))
                (mf + bottleneck adj (walk_path adj pred (net.n + 1) net.sink))) :=
        fun pf => rfl
      rw [e0 fuel1, e0 fuel2, hbfs]
      cases found with
      | false => rfl
      | true =>
        have hpost : BfsTruePost net adj pred :=
          (bfs_find_augmenting_path_spec net hval hgood.1 hbfs).1 rfl
        obtain ⟨hgood2, hdec⟩ := ek_augment net hval hgood hpost
        show ek_loop net (ResidualNetwork.ofNetwork net).arcs_out_span fuel1
            (push_path adj (bottleneck adj (walk_path adj pred (net.n + 1) net.sink))
              (walk_path adj pred (net.n + 1) net.sink))
            (mf + bottleneck adj (walk_path adj pred (net.n + 1) net.sink))
          = ek_loop net (ResidualNetwork.ofNetwork net).arcs_out_span fuel2
            (push_path adj (bottleneck adj (walk_path adj pred (net.n + 1) net.sink))
              (walk_path adj pred (net.n + 1) net.sink))
            (mf + bottleneck adj (walk_path adj pred (net.n + 1) net.sink))
        exact ih fuel2 _ _ hgood2 (by omega) (by omega)

/-- Once the fuel exceeds the termination measure, the Dinitz phase loop's
result no longer depends on it: the loop exits by its own guard. -/
theorem dc_phases_stable (net : FlowNetwork) (hval : net.Valid)
    (adj0 : Array ResidualArc) :
    ∀ (fuel1 fuel2 : Nat) (adj : Array ResidualArc) (mf : Nat),
      EKGood net adj0 adj mf →
      sourceOutRC (ResidualNetwork.ofNetwork net).arcs_out_span adj net.source
        < fuel1 →
      sourceOutRC (ResidualNetwork.ofNetwork net).arcs_out_span adj net.source
        < fuel2 →
      dc_phases net (ResidualNetwork.ofNetwork net).arcs_out_span
          (net.n + 4 * net.m + 4) fuel1 adj mf
        = dc_phases net (ResidualNetwork.ofNetwork net).arcs_out_span
          (net.n + 4 * net.m + 4) fuel2 adj mf := by
  intro fuel1
  induction fuel1 with
  | zero =>
    intro fuel2 adj mf _ h1 _
    omega
  | succ fuel1 ih =>
    intro fuel2 adj mf hgood h1 h2
    cases fuel2 with
    | zero => omega
    | succ fuel2 =>
      have e1 : ∀ pf, dc_phases net (ResidualNetwork.ofNetwork net).arcs_out_span
          (net.n + 4 * net.m + 4) (pf + 1) adj mf
          = (if (bfs_compute_rank net
              (ResidualNetwork.ofNetwork net).arcs_out_span adj).getD net.source none
              ≠ none then
            match dfs_rounds (ResidualNetwork.ofNetwork net).arcs_out_span
                (bfs_compute_rank net
                  (ResidualNetwork.ofNetwork net).arcs_out_span adj)
                net.source net.sink (net.n + 4 * net.m + 4)
                (sourceOutRC (ResidualNetwork.ofNetwork net).arcs_out_span adj
                  net.source + 1) adj
                (reset_current_arc (ResidualNetwork.ofNetwork net).arcs_out_span) 0
              with
            | (adj2, _, phaseFlow) =>
              dc_phases net (ResidualNetwork.ofNetwork net).arcs_out_span
                (net.n + 4 * net.m + 4) pf adj2 (mf + phaseFlow)
          else (adj, mf)) := fun pf => rfl
      rw [e1 fuel1, e1 fuel2]
      by_cases hrank : (bfs_compute_rank net
          (ResidualNetwork.ofNetwork net).arcs_out_span adj).getD net.source none
          ≠ none
      · rw [if_pos hrank, if_pos hrank]
        obtain ⟨hrsz, hrsink, hradm, hrbound, hrclosure⟩ :=
          bfs_compute_rank_spec net hval hgood.1
        rcases hrounds : dfs_rounds (ResidualNetwork.ofNetwork net).arcs_out_span
            (bfs_compute_rank net (ResidualNetwork.ofNetwork net).arcs_out_span adj)
            net.source net.sink (net.n + 4 * net.m + 4)
            (sourceOutRC (ResidualNetwork.ofNetwork net).arcs_out_span adj
              net.source + 1) adj
            (reset_current_arc (ResidualNetwork.ofNetwork net).arcs_out_span) 0
          with ⟨adj2, curX, phaseFlow⟩
        show dc_phases net (ResidualNetwork.ofNetwork net).arcs_out_span
            (net.n + 4 * net.m + 4) fuel1 adj2 (mf + phaseFlow)
          = dc_phases net (ResidualNetwork.ofNetwork net).arcs_out_span
            (net.n + 4 * net.m + 4) fuel2 adj2 (mf + phaseFlow)
        have hrv : rankValB (bfs_compute_rank net
            (ResidualNetwork.ofNetwork net).arcs_out_span adj) net.source
            ≤ net.n := by
          rcases hr : (bfs_compute_rank net
              (ResidualNetwork.ofNetwork net).arcs_out_span adj).getD net.source none
            with _ | k
          · exact absurd hr hrank
          · have := hrbound net.source k hr
            unfold rankValB
            rw [hr]
            exact this
        have hphi : rankValB (bfs_compute_rank net
              (ResidualNetwork.ofNetwork net).arcs_out_span adj) net.source
            + 2 * curPhi net
              (reset_current_arc (ResidualNetwork.ofNetwork net).arcs_out_span) + 2
            ≤ net.n + 4 * net.m + 4 := by
          rw [curPhi_reset net hval]
          omega
        obtain ⟨rgood, _, hprog, hnp, hsoeq⟩ := dfs_rounds_spec net hval adj0
          (bfs_compute_rank net (ResidualNetwork.ofNetwork net).arcs_out_span adj)
          hrank _ adj
          (reset_current_arc (ResidualNetwork.ofNetwork net).arcs_out_span) 0
          adj2 curX phaseFlow mf hgood
          (fun v hv => le_of_eq (reset_getD net hval hv).symm)
          (reset_size net hval) (dai_reset net hval adj _) hphi (by omega) hrounds
        have hpos : 0 < phaseFlow := hprog (hradm net.source hrank)
        exact ih fuel2 adj2 (mf + phaseFlow) rgood (by omega) (by omega)
      · rw [if_neg hrank, if_neg hrank]

/-! ## The claims -/

/-- C1: for every valid flow network, the flow values returned by edmonds_karp
and by DinitzCherkassky's operator() are equal, and both equal the maximum flow
value: each solver's terminal flow is feasible with value the returned number,
and no feasible flow has a larger value. -/
theorem claim_C1 (net : FlowNetwork) (hval : net.Valid) :
    (edmonds_karp net).value = (dinitz_cherkassky net).value ∧
    FeasibleFlow net (flowOf net (ekFinal net).1) ∧
    flowValue net (flowOf net (ekFinal net).1) = ((edmonds_karp net).value : Int) ∧
    FeasibleFlow net (flowOf net (dcFinal net).1) ∧
    flowValue net (flowOf net (dcFinal net).1)
      = ((dinitz_cherkassky net).value : Int) ∧
    (∀ g, FeasibleFlow net g →
      flowValue net g ≤ ((edmonds_karp net).value : Int)) := by
  obtain ⟨hekgood, _, hekmax⟩ := ek_terminal net hval
  obtain ⟨hdcgood, _, hdcmax⟩ := dc_terminal net hval
  have hekfeas := good_feasible net hekgood
  have hdcfeas := good_feasible net hdcgood
  have hekval : flowValue net (flowOf net (ekFinal net).1)
      = ((ekFinal net).2 : Int) := good_value net hekgood
  have hdcval : flowValue net (flowOf net (dcFinal net).1)
      = ((dcFinal net).2 : Int) := good_value net hdcgood
  have h1 : ((ekFinal net).2 : Int) ≤ ((dcFinal net).2 : Int) := by
    rw [← hekval]
    exact hdcmax _ hekfeas
  have h2 : ((dcFinal net).2 : Int) ≤ ((ekFinal net).2 : Int) := by
    rw [← hdcval]
    exact hekmax _ hdcfeas
  have heq : (ekFinal net).2 = (dcFinal net).2 := by
    exact_mod_cast le_antisymm h1 h2
  exact ⟨heq, hekfeas, hekval, hdcfeas, hdcval, hekmax⟩

/-- C2: for every valid flow network and either solver, the returned per-arc
flows are non-negative and bounded by the respective arc capacities. -/
theorem claim_C2 (net : FlowNetwork) (hval : net.Valid) :
    ∀ i, i < net.m →
      0 ≤ (edmonds_karp net).flow_arcs.getD i 0 ∧
      (edmonds_karp net).flow_arcs.getD i 0 ≤ (arcAt net i).capacity ∧
      0 ≤ (dinitz_cherkassky net).flow_arcs.getD i 0 ∧
      (dinitz_cherkassky net).flow_arcs.getD i 0 ≤ (arcAt net i).capacity := by
  intro i hi
  have hil : i < net.arcs.length := by rw [← hval.1]; exact hi
  have hek : (edmonds_karp net).flow_arcs.getD i 0
      = flowOf net (ekFinal net).1 i := by
    rw [ek_flow_arcs_eq net hval, map_range_getD _ hil]
  have hdc : (dinitz_cherkassky net).flow_arcs.getD i 0
      = flowOf net (dcFinal net).1 i := by
    rw [dc_flow_arcs_eq net hval, map_range_getD _ hil]
  have hgek := (ek_terminal net hval).1.2.1 i hil
  have hgdc := (dc_terminal net hval).1.2.1 i hil
  refine ⟨Nat.zero_le _, ?_, Nat.zero_le _, ?_⟩
  · rw [hek]
    unfold flowOf
    omega
  · rw [hdc]
    unfold flowOf
    omega

/-- C3: flow conservation: at every vertex other than the source and the sink,
the total returned flow entering the vertex equals the total leaving it, for
both solvers. -/
theorem claim_C3 (net : FlowNetwork) (hval : net.Valid) :
    ∀ v, v ≠ net.source → v ≠ net.sink →
      listInflow net (edmonds_karp net).flow_arcs v
        = listOutflow net (edmonds_karp net).flow_arcs v ∧
      listInflow net (dinitz_cherkassky net).flow_arcs v
        = listOutflow net (dinitz_cherkassky net).flow_arcs v := by
  intro v hv1 hv2
  have hek0 : excess net (flowOf net (ekFinal net).1) v = 0 :=
    (ek_terminal net hval).1.2.2.2.1 v hv1 hv2
  have hdc0 : excess net (flowOf net (dcFinal net).1) v = 0 :=
    (dc_terminal net hval).1.2.2.2.1 v hv1 hv2
  constructor
  · have h := excess_eq_list net (flowOf net (ekFinal net).1) v
    rw [hek0, ← ek_flow_arcs_eq net hval] at h
    omega
  · have h := excess_eq_list net (flowOf net (dcFinal net).1) v
    rw [hdc0, ← dc_flow_arcs_eq net hval] at h
    omega

/-- C4: value consistency: each solver's returned value equals the net flow
leaving the source and the net flow entering the sink under its returned
per-arc flows. -/
theorem claim_C4 (net : FlowNetwork) (hval : net.Valid) :
    ((listOutflow net (edmonds_karp net).flow_arcs net.source : Int)
        - (listInflow net (edmonds_karp net).flow_arcs net.source : Int)
      = ((edmonds_karp net).value : Int)) ∧
    ((listInflow net (edmonds_karp net).flow_arcs net.sink : Int)
        - (listOutflow net (edmonds_karp net).flow_arcs net.sink : Int)
      = ((edmonds_karp net).value : Int)) ∧
    ((listOutflow net (dinitz_cherkassky net).flow_arcs net.source : Int)
        - (listInflow net (dinitz_cherkassky net).flow_arcs net.source : Int)
      = ((dinitz_cherkassky net).value : Int)) ∧
    ((listInflow net (dinitz_cherkassky net).flow_arcs net.sink : Int)
        - (listOutflow net (dinitz_cherkassky net).flow_arcs net.sink : Int)
      = ((dinitz_cherkassky net).value : Int)) := by
  have hekgood := (ek_terminal net hval).1
  have hdcgood := (dc_terminal net hval).1
  have heksrc := hekgood.2.2.2.2.2
  have heksink := hekgood.2.2.2.2.1
  have hdcsrc := hdcgood.2.2.2.2.2
  have hdcsink := hdcgood.2.2.2.2.1
  have h1 := excess_eq_list net (flowOf net (ekFinal net).1) net.source
  have h2 := excess_eq_list net (flowOf net (ekFinal net).1) net.sink
  have h3 := excess_eq_list net (flowOf net (dcFinal net).1) net.source
  have h4 := excess_eq_list net (flowOf net (dcFinal net).1) net.sink
  rw [heksrc, ← ek_flow_arcs_eq net hval] at h1
  rw [heksink, ← ek_flow_arcs_eq net hval] at h2
  rw [hdcsrc, ← dc_flow_arcs_eq net hval] at h3
  rw [hdcsink, ← dc_flow_arcs_eq net hval] at h4
  have hvek : ((edmonds_karp net).value : Int) = ((ekFinal net).2 : Int) := rfl
  have hvdc : ((dinitz_cherkassky net).value : Int) = ((dcFinal net).2 : Int) := rfl
  refine ⟨by omega, by omega, by omega, by omega⟩

/-- C5: at termination, Edmonds-Karp's last BFS fails and Dinitz-Cherkassky's
last reverse BFS leaves the source unranked; the final residual networks contain
no source-to-sink path of positive-residual arcs, and each returned value is
maximum among feasible flows. -/
theorem claim_C5 (net : FlowNetwork) (hval : net.Valid) :
    (bfs_find_augmenting_path net (ResidualNetwork.ofNetwork net).arcs_out_span
      (ekFinal net).1).2 = false ∧
    NoAugPath net (ekFinal net).1 ∧
    (bfs_compute_rank net (ResidualNetwork.ofNetwork net).arcs_out_span
      (dcFinal net).1).getD net.source none = none ∧
    NoAugPath net (dcFinal net).1 ∧
    (∀ g, FeasibleFlow net g →
      flowValue net g ≤ ((edmonds_karp net).value : Int)) ∧
    (∀ g, FeasibleFlow net g →
      flowValue net g ≤ ((dinitz_cherkassky net).value : Int)) :=
  ⟨(ekFinal_spec net hval).2, (ek_terminal net hval).2.1, (dcFinal_spec net hval).2,
    (dc_terminal net hval).2.1, (ek_terminal net hval).2.2, (dc_terminal net hval).2.2⟩

/-- C6: the ResidualNetwork constructor lays out, for each original arc
(u, v, c), a forward record (head v, residual capacity c) in u's contiguous
range and a backward record (head u, residual capacity 0) in v's range, twin
links pointing at each other, and within each vertex's range records appear in
the order that vertex occurs in the original arc sequence. -/
theorem claim_C6 (net : FlowNetwork) (hval : net.Valid) :
    (ResidualNetwork.ofNetwork net).adjlist.size = 2 * net.m ∧
    (∀ v, v < net.n →
      (ResidualNetwork.ofNetwork net).arcs_out_span.getD v (0, 0)
        = (startOf net v, startOf net v + incCount net.arcs v)) ∧
    (∀ i, i < net.arcs.length →
      headOf (ResidualNetwork.ofNetwork net).adjlist (fs net i)
          = (arcAt net i).head ∧
      rc (ResidualNetwork.ofNetwork net).adjlist (fs net i)
          = (arcAt net i).capacity ∧
      twinOf (ResidualNetwork.ofNetwork net).adjlist (fs net i) = bs net i ∧
      headOf (ResidualNetwork.ofNetwork net).adjlist (bs net i)
          = (arcAt net i).tail ∧
      rc (ResidualNetwork.ofNetwork net).adjlist (bs net i) = 0 ∧
      twinOf (ResidualNetwork.ofNetwork net).adjlist (bs net i) = fs net i ∧
      SlotIn net (fs net i) (arcAt net i).tail ∧
      SlotIn net (bs net i) (arcAt net i).head) ∧
    (∀ i j, i < net.arcs.length → j < net.arcs.length → i < j →
      ((arcAt net i).tail = (arcAt net j).tail → fs net i < fs net j) ∧
      ((arcAt net i).tail = (arcAt net j).head → fs net i < bs net j) ∧
      ((arcAt net i).head = (arcAt net j).tail → bs net i < fs net j) ∧
      ((arcAt net i).head = (arcAt net j).head → bs net i < bs net j)) := by
  refine ⟨(ofNetwork_adjlist net hval).1, (ofNetwork_spans net hval).2, ?_, ?_⟩
  · intro i hi
    obtain ⟨g1, g2, g3, g4⟩ := (shape_ofNetwork net hval).2 i hi
    exact ⟨g1, rc_ofNetwork_fs net hval hi, g2, g3, rc_ofNetwork_bs net hval hi,
      g4, slotIn_fs net hval hi, slotIn_bs net hval hi⟩
  · intro i j hi hj hij
    exact slot_insertion_order net hval hi hj hij

/-- C7: on any arena reached from the constructed residual network by valid
pushes, get_flow_arcs returns, for the i-th arc, exactly the residual capacity
of the record paired with that arc's forward record (the flow pushed on arc i,
stored on its backward record). -/
theorem claim_C7 (net : FlowNetwork) (hval : net.Valid)
    (adj : Array ResidualArc)
    (hreach : ValidReach net (ResidualNetwork.ofNetwork net).adjlist adj) :
    get_flow_arcs net { ResidualNetwork.ofNetwork net with adjlist := adj }
      = (List.range net.arcs.length).map
          (fun i => rc adj (twinOf adj (fs net i))) ∧
    ∀ i, i < net.arcs.length →
      (get_flow_arcs net
        { ResidualNetwork.ofNetwork net with adjlist := adj }).getD i 0
        = rc adj (bs net i) := by
  have hsh : Shape net adj :=
    shape_of_sameShape (shape_ofNetwork net hval) hreach.sameShape
  have hmain := get_flow_arcs_spec net hval hsh
  constructor
  · rw [hmain]
    apply List.map_congr_left
    intro i hi
    have hil : i < net.arcs.length := by
      rw [List.mem_range] at hi
      exact hi
    rw [((hsh.2 i hil).2.1)]
    rfl
  · intro i hi
    rw [hmain, map_range_getD _ hi]
    rfl

/-- C8: both solvers terminate: the augmentation loop of Edmonds-Karp and the
phase loop of Dinitz-Cherkassky exit by their own guards within the proven fuel
bound, so granting any additional fuel leaves their results unchanged. -/
theorem claim_C8 (net : FlowNetwork) (hval : net.Valid) :
    ∀ extra : Nat,
      ek_loop net (ResidualNetwork.ofNetwork net).arcs_out_span
          (sourceOutRC (ResidualNetwork.ofNetwork net).arcs_out_span
            (ResidualNetwork.ofNetwork net).adjlist net.source + 1 + extra)
          (ResidualNetwork.ofNetwork net).adjlist 0
        = ((ekFinal net).1, (ekFinal net).2) ∧
      dc_phases net (ResidualNetwork.ofNetwork net).arcs_out_span
          (net.n + 4 * net.m + 4)
          (sourceOutRC (ResidualNetwork.ofNetwork net).arcs_out_span
            (ResidualNetwork.ofNetwork net).adjlist net.source + 1 + extra)
          (ResidualNetwork.ofNetwork net).adjlist 0
        = ((dcFinal net).1, (dcFinal net).2) := by
  intro extra
  constructor
  · have h := ek_loop_stable net hval (ResidualNetwork.ofNetwork net).adjlist
      (sourceOutRC (ResidualNetwork.ofNetwork net).arcs_out_span
        (ResidualNetwork.ofNetwork net).adjlist net.source + 1 + extra)
      (sourceOutRC (ResidualNetwork.ofNetwork net).arcs_out_span
        (ResidualNetwork.ofNetwork net).adjlist net.source + 1)
      (ResidualNetwork.ofNetwork net).adjlist 0
      (ekGood_init net hval) (by omega) (by omega)
    rw [h]
    rfl
  · have h := dc_phases_stable net hval (ResidualNetwork.ofNetwork net).adjlist
      (sourceOutRC (ResidualNetwork.ofNetwork net).arcs_out_span
        (ResidualNetwork.ofNetwork net).adjlist net.source + 1 + extra)
      (sourceOutRC (ResidualNetwork.ofNetwork net).arcs_out_span
        (ResidualNetwork.ofNetwork net).adjlist net.source + 1)
      (ResidualNetwork.ofNetwork net).adjlist 0
      (ekGood_init net hval) (by omega) (by omega)
    rw [h]
    rfl

/-- C9: the pair-sum invariant, forward plus backward residual capacity equals
the original capacity, holds right after construction and in every arena
reachable from it by valid pushes; both solvers' final arenas are so reachable. -/
theorem claim_C9 (net : FlowNetwork) (hval : net.Valid) :
    SumInv net (ResidualNetwork.ofNetwork net).adjlist ∧
    (∀ adj, ValidReach net (ResidualNetwork.ofNetwork net).adjlist adj →
      SumInv net adj) ∧
    ValidReach net (ResidualNetwork.ofNetwork net).adjlist (ekFinal net).1 ∧
    ValidReach net (ResidualNetwork.ofNetwork net).adjlist (dcFinal net).1 := by
  refine ⟨sumInv_ofNetwork net hval, ?_, (ek_terminal net hval).1.2.2.1,
    (dc_terminal net hval).1.2.2.1⟩
  intro adj hreach
  exact (hreach.shape_sumInv hval (shape_ofNetwork net hval)
    (sumInv_ofNetwork net hval)).2

/-- C10: every push performed by either solver is a valid bounded push (both
final arenas are reached by such pushes); on any reachable arena a bounded push
subtracts exactly (no unsigned wrap-around) and credits the twin exactly, and
every residual capacity stays at most the pair's original capacity. -/
theorem claim_C10 (net : FlowNetwork) (hval : net.Valid) :
    ValidReach net (ResidualNetwork.ofNetwork net).adjlist (ekFinal net).1 ∧
    ValidReach net (ResidualNetwork.ofNetwork net).adjlist (dcFinal net).1 ∧
    (∀ adj s f, ValidReach net (ResidualNetwork.ofNetwork net).adjlist adj →
      s < adj.size → 0 < f → f ≤ rc adj s →
      rc (push_flow adj s f) s + f = rc adj s ∧
      rc (push_flow adj s f) (twinOf adj s) = rc adj (twinOf adj s) + f) ∧
    (∀ adj, ValidReach net (ResidualNetwork.ofNetwork net).adjlist adj →
      ∀ i, i < net.arcs.length →
        rc adj (fs net i) ≤ (arcAt net i).capacity ∧
        rc adj (bs net i) ≤ (arcAt net i).capacity) := by
  refine ⟨(ek_terminal net hval).1.2.2.1, (dc_terminal net hval).1.2.2.1, ?_, ?_⟩
  · intro adj s f hreach hs hf hle
    have hsh : Shape net adj := (hreach.shape_sumInv hval
      (shape_ofNetwork net hval) (sumInv_ofNetwork net hval)).1
    have hs2 : s < 2 * net.m := by rw [← hsh.1]; exact hs
    obtain ⟨hinv, htwlt, htwne⟩ := twinOf_involution net hval hsh hs2
    constructor
    · rw [rc_push_flow_self adj s f hs htwne]
      omega
    · exact rc_push_flow_twin adj s f hs (by rw [hsh.1]; exact htwlt) htwne
  · intro adj hreach i hi
    have hsum := (hreach.shape_sumInv hval (shape_ofNetwork net hval)
      (sumInv_ofNetwork net hval)).2
    have := hsum i hi
    omega

/-! ## Concrete witness network: the specification's worked example -/

/-- The worked example network of the specification (maximum flow value 19). -/
def exNet : FlowNetwork :=
  { n := 6, m := 9, source := 0, sink := 5,
    arcs := [⟨0, 1, 10⟩, ⟨0, 2, 10⟩, ⟨1, 2, 2⟩, ⟨1, 3, 4⟩, ⟨1, 4, 8⟩,
             ⟨2, 4, 9⟩, ⟨3, 5, 10⟩, ⟨4, 3, 6⟩, ⟨4, 5, 10⟩] }

theorem claim_C1_witness :
    exNet.Valid ∧ (edmonds_karp exNet).value = (dinitz_cherkassky exNet).value :=
  ⟨by decide, (claim_C1 exNet (by decide)).1⟩

theorem claim_C2_witness :
    (exNet.Valid ∧ 0 < exNet.m) ∧
    (edmonds_karp exNet).flow_arcs.getD 0 0 ≤ (arcAt exNet 0).capacity :=
  ⟨⟨by decide, by decide⟩, (claim_C2 exNet (by decide) 0 (by decide)).2.1⟩

theorem claim_C3_witness :
    (exNet.Valid ∧ 1 ≠ exNet.source ∧ 1 ≠ exNet.sink) ∧
    listInflow exNet (edmonds_karp exNet).flow_arcs 1
      = listOutflow exNet (edmonds_karp exNet).flow_arcs 1 :=
  ⟨⟨by decide, by decide, by decide⟩,
    (claim_C3 exNet (by decide) 1 (by decide) (by decide)).1⟩

theorem claim_C4_witness :
    exNet.Valid ∧
    (listOutflow exNet (edmonds_karp exNet).flow_arcs exNet.source : Int)
        - (listInflow exNet (edmonds_karp exNet).flow_arcs exNet.source : Int)
      = ((edmonds_karp exNet).value : Int) :=
  ⟨by decide, (claim_C4 exNet (by decide)).1⟩

theorem claim_C5_witness :
    exNet.Valid ∧ NoAugPath exNet (ekFinal exNet).1 :=
  ⟨by decide, (claim_C5 exNet (by decide)).2.1⟩

theorem claim_C6_witness :
    (exNet.Valid ∧ 0 < (1 : Nat) ∧ 1 < exNet.arcs.length ∧
      (arcAt exNet 0).tail = (arcAt exNet 1).tail) ∧
    fs exNet 0 < fs exNet 1 :=
  ⟨⟨by decide, by decide, by decide, by decide⟩,
    ((claim_C6 exNet (by decide)).2.2.2 0 1 (by decide) (by decide) (by decide)).1
      (by decide)⟩

theorem claim_C7_witness :
    (exNet.Valid ∧ 0 < exNet.arcs.length) ∧
    (get_flow_arcs exNet
      { ResidualNetwork.ofNetwork exNet with
          adjlist := (ResidualNetwork.ofNetwork exNet).adjlist }).getD 0 0
      = rc (ResidualNetwork.ofNetwork exNet).adjlist (bs exNet 0) :=
  ⟨⟨by decide, by decide⟩,
    (claim_C7 exNet (by decide) (ResidualNetwork.ofNetwork exNet).adjlist
      ValidReach.refl).2 0 (by decide)⟩

theorem claim_C8_witness :
    exNet.Valid ∧
    ek_loop exNet (ResidualNetwork.ofNetwork exNet).arcs_out_span
        (sourceOutRC (ResidualNetwork.ofNetwork exNet).arcs_out_span
          (ResidualNetwork.ofNetwork exNet).adjlist exNet.source + 1 + 5)
        (ResidualNetwork.ofNetwork exNet).adjlist 0
      = ((ekFinal exNet).1, (ekFinal exNet).2) :=
  ⟨by decide, (claim_C8 exNet (by decide) 5).1⟩

theorem claim_C9_witness :
    exNet.Valid ∧ SumInv exNet (ResidualNetwork.ofNetwork exNet).adjlist :=
  ⟨by decide, (claim_C9 exNet (by decide)).1⟩

theorem claim_C10_witness :
    (exNet.Valid ∧ 0 < (ResidualNetwork.ofNetwork exNet).adjlist.size ∧
      0 < (1 : Nat) ∧
      1 ≤ rc (ResidualNetwork.ofNetwork exNet).adjlist 0) ∧
    rc (push_flow (ResidualNetwork.ofNetwork exNet).adjlist 0 1) 0 + 1
      = rc (ResidualNetwork.ofNetwork exNet).adjlist 0 :=
  ⟨⟨by decide, by decide, by decide, by decide⟩,
    ((claim_C10 exNet (by decide)).2.2.1 (ResidualNetwork.ofNetwork exNet).adjlist
      0 1 ValidReach.refl (by decide) (by decide) (by decide)).1⟩

end MaxFlow
